import Mathlib

/-!
Verification of the symbolic polynomial engine of this repository.

The development shallowly embeds the polynomial engine (file `poly.py`:
classes `_VarPower`, `_Term`, `Poly`) together with the three ring
implementations (`integer.py`, `modulus.py`, `fraction_math.py`).

Modelling conventions:
* Python strings are lists of characters (`Str := List Char`); Python
  string comparison is code-point lexicographic (`strLtB`).
* The default ring (`integer_math.IntegerMath`, i.e. Python `int`) is `ℤ`.
* Fallible Python code (functions that can raise) is modelled with
  `Option`; `none` means the call raises.
* Python `list.sort` / `sorted` are stable sorts; they are modelled with
  `List.insertionSort`, which is stable, and therefore produces the same
  list for every total preorder.
* Python dicts keyed by term signature are modelled by `groupBySig`,
  which groups all terms sharing a signature, buckets ordered by first
  occurrence, preserving order inside a bucket, exactly like the
  insertion-ordered `collections.defaultdict(list)` in `Poly.simplify`.
-/

namespace poly

/-- Python strings, modelled as lists of characters. -/
abbrev Str := List Char

/-- Python sequence comparison: lexicographic on elements, with a proper
initial segment comparing smaller.  Instantiated at `Char` it is Python
string comparison; at `ℕ` it is Python tuple comparison of sort keys. -/
def lexLtB {α : Type} [LinearOrder α] : List α → List α → Bool
  | [], [] => false
  | [], _ :: _ => true
  | _ :: _, [] => false
  | a :: as, b :: bs => if a < b then true else if a = b then lexLtB as bs else false

/-- Python string comparison (code-point lexicographic). -/
abbrev strLtB : Str → Str → Bool := lexLtB

/-- Non-strict string order used for ascending sorts (`sorted` in Python). -/
def strLe (a b : Str) : Prop := strLtB b a = false

instance : DecidableRel strLe := fun a b => inferInstanceAs (Decidable (_ = false))

/-- Python tuple comparison of term sort keys. -/
abbrev keyLtB : List ℕ → List ℕ → Bool := lexLtB

/-- Little-endian decimal digits of a natural number, with explicit fuel
(any `fuel ≥ n` gives the true digit list). -/
def digitsLE : ℕ → ℕ → List ℕ
  | 0, _ => []
  | _ + 1, 0 => []
  | fuel + 1, n + 1 => ((n + 1) % 10) :: digitsLE fuel ((n + 1) / 10)

/-- Python `str` of a nonnegative `int` (decimal, no sign, no padding). -/
def natNumeral (n : ℕ) : Str :=
  if n = 0 then ['0'] else ((digitsLE n n).reverse).map Nat.digitChar

/-- Python `str` of an `int`. -/
def intNumeral (c : ℤ) : Str :=
  if c < 0 then '-' :: natNumeral (-c).toNat else natNumeral c.toNat

/-! ## Ring implementations: `integer.py`, `modulus.py`, `fraction_math.py` -/

namespace Integer

/-- Result of Python `n ** exp` on `int` operands: a nonnegative exponent
gives an `int`; a negative exponent gives a `float` for a nonzero base and
raises `ZeroDivisionError` for base `0`. -/
inductive PowResult where
  | intval (n : ℤ)
  | floatval
  | err
  deriving DecidableEq, Repr

def zero : ℤ := 0

def one : ℤ := 1

def add (a b : ℤ) : ℤ := a + b

def mul (a b : ℤ) : ℤ := a * b

def negate (n : ℤ) : ℤ := -n

/-- `Integer.power` performs no exponent-sign check: it returns `n ** exp`
with Python `int` power semantics. -/
def power (n e : ℤ) : PowResult :=
  if 0 ≤ e then .intval (n ^ e.toNat) else if n = 0 then .err else .floatval

end Integer

/-- A `Modulus(modulus)` ring instance; the constructor asserts
`modulus > 0`. -/
structure Modulus where
  modulus : ℤ
  pos : 0 < modulus

namespace Modulus

def zero (_ : Modulus) : ℤ := 0

def one (_ : Modulus) : ℤ := 1

/-- `Modulus.check`: value must be an `int` with `0 <= x < modulus`. -/
def checkB (M : Modulus) (x : ℤ) : Bool := decide (0 ≤ x) && decide (x < M.modulus)

/-- `Modulus.add` asserts both operands pass `check`, then reduces mod m. -/
def add (M : Modulus) (a b : ℤ) : Option ℤ :=
  if M.checkB a && M.checkB b then some ((a + b) % M.modulus) else none

/-- `Modulus.mul` asserts both operands pass `check`, then reduces mod m. -/
def mul (M : Modulus) (a b : ℤ) : Option ℤ :=
  if M.checkB a && M.checkB b then some ((a * b) % M.modulus) else none

/-- `Modulus.negate` asserts the operand passes `check` and returns
`modulus - n` (no reduction: `negate 0 = modulus`). -/
def negate (M : Modulus) (n : ℤ) : Option ℤ :=
  if M.checkB n then some (M.modulus - n) else none

/-- Inner `repeated_multiply` of `Modulus.power`: `exp = 0` returns the
literal `1`, else `mul n (repeated_multiply (exp - 1))`. -/
def repeatedMul (M : Modulus) (n : ℤ) : ℕ → Option ℤ
  | 0 => some 1
  | e + 1 => (M.repeatedMul n e).bind (fun r => M.mul n r)

/-- `Modulus.power` asserts `check n` and `exponent >= 0`, then repeatedly
multiplies. -/
def power (M : Modulus) (n e : ℤ) : Option ℤ :=
  if M.checkB n then (if 0 ≤ e then M.repeatedMul n e.toNat else none) else none

end Modulus

namespace FractionMath

def zero : ℚ := 0

def one : ℚ := 1

def add (a b : ℚ) : ℚ := a + b

def mul (a b : ℚ) : ℚ := a * b

def negate (n : ℚ) : ℚ := -n

/-- `FractionMath.power` performs no exponent-sign check: Python
`Fraction ** int` gives an exact fraction for a negative exponent unless
the base is zero, in which case it raises `ZeroDivisionError`. -/
def power (n : ℚ) (e : ℤ) : Option ℚ :=
  if 0 ≤ e then some (n ^ e.toNat) else if n = 0 then none else some (n ^ e)

end FractionMath

/-! ## `poly.py`: variable powers -/

/-- The reserved characters of `enforce_legal_variable_name`. -/
def reservedChars : List Char := [',', '*', '+', '/', '-', '(', ')']

/-- A name is legal when it contains no reserved character.  Note the code
performs no non-emptiness check. -/
def legalNameB (n : Str) : Bool := n.all (fun c => !(reservedChars.contains c))

def legalName (n : Str) : Prop := legalNameB n = true

instance (n : Str) : Decidable (legalName n) :=
  inferInstanceAs (Decidable (_ = true))

structure VarPower where
  var_name : Str
  exponent : ℕ
  deriving DecidableEq, Repr

/-- `_VarPower.__init__`: checks the name is legal and the exponent is a
positive `int`. -/
def mkVarPower (var_name : Str) (exponent : ℤ) : Option VarPower :=
  if legalNameB var_name then
    if exponent ≤ 0 then none else some ⟨var_name, exponent.toNat⟩
  else none

/-- Join a list of strings with a separator character, as Python
`sep.join(...)`. -/
def joinSep (sep : Char) : List Str → Str
  | [] => []
  | [s] => s
  | s :: t :: rest => s ++ sep :: joinSep sep (t :: rest)

namespace VarPower

/-- `_VarPower.signature`: the bare name when the exponent equals
`Math.one`, otherwise `(name**exponent)`. -/
def sig (vp : VarPower) : Str :=
  if vp.exponent = 1 then vp.var_name
  else '(' :: (vp.var_name ++ '*' :: '*' :: (natNumeral vp.exponent ++ [')']))

/-- `_VarPower.compute_power`: `Math.power(x, exponent)` over the integer
ring. -/
def compute_power (vp : VarPower) (x : ℤ) : ℤ := x ^ vp.exponent

end VarPower

/-! ## `poly.py`: terms -/

structure Term where
  coeff : ℤ
  var_powers : List VarPower
  deriving DecidableEq, Repr

/-- Variable assignments (`**var_assignments` of `apply`/`eval`): a partial
map from names to integer ring values. -/
abbrev Assignment := Str → Option ℤ

namespace Term

/-- Term signature: the `*`-join of the factor signatures. -/
def sig (t : Term) : Str := joinSep '*' (t.var_powers.map VarPower.sig)

def var_names (t : Term) : List Str := t.var_powers.map VarPower.var_name

/-- `self.var_dict.get(var_name, 0)`.  (On well-formed terms the factor
names are distinct, so first-match lookup agrees with the Python dict.) -/
def degree_of_var (t : Term) (v : Str) : ℕ :=
  match t.var_powers.find? (fun vp => decide (vp.var_name = v)) with
  | some vp => vp.exponent
  | none => 0

/-- Python `str(c) if c > 0 else f"({c})"`. -/
def coeff_str (c : ℤ) : Str :=
  if 0 < c then intNumeral c else '(' :: (intNumeral c ++ [')'])

/-- `_Term.canonicalized_string`. -/
def canonicalized_string (t : Term) : Str :=
  if t.var_powers = [] then coeff_str t.coeff
  else if t.coeff = 1 then t.sig
  else coeff_str t.coeff ++ '*' :: t.sig

def is_constant (t : Term) : Bool := t.var_powers.isEmpty

def is_one (t : Term) : Bool := decide (t.coeff = 1) && t.var_powers.isEmpty

/-- `_Term.apply`: ignore unknown names; if no factor is assigned return
the term unchanged; otherwise fold each assigned factor into the
coefficient, keeping the unassigned factors in order. -/
def apply (A : Assignment) (t : Term) : Term :=
  if t.var_powers.all (fun vp => (A vp.var_name).isNone) then t
  else
    let acc := t.var_powers.foldl
      (fun (acc : ℤ × List VarPower) vp =>
        match A vp.var_name with
        | some x => (acc.1 * vp.compute_power x, acc.2)
        | none => (acc.1, acc.2 ++ [vp]))
      (t.coeff, [])
    ⟨acc.1, acc.2⟩

/-- Product of the evaluated factors of a term (the loop body of
`_Term.eval`), meaningful when every factor name is assigned. -/
def evalProd (A : Assignment) (t : Term) : ℤ :=
  t.var_powers.foldl (fun acc vp => acc * vp.compute_power ((A vp.var_name).getD 0)) 1

def evalVal (A : Assignment) (t : Term) : ℤ := t.coeff * t.evalProd A

/-- `_Term.eval`: raises when a factor name has no assignment. -/
def eval (A : Assignment) (t : Term) : Option ℤ :=
  if t.var_powers.all (fun vp => (A vp.var_name).isSome) then some (t.evalVal A) else none

/-- `_Term.factorize_on_var`: `(self, 0)` when the variable is absent,
otherwise the filtered term and the power of the substituted variable. -/
def factorize_on_var (t : Term) (v : Str) : Term × ℕ :=
  if t.var_powers.all (fun vp => decide (¬ vp.var_name = v)) then (t, 0)
  else (⟨t.coeff, t.var_powers.filter (fun vp => decide (¬ vp.var_name = v))⟩,
        t.degree_of_var v)

/-- `_Term.multiply_by_constant`: short-circuits ring zero and ring one. -/
def multiply_by_constant (c : ℤ) (t : Term) : Term :=
  if c = 0 then ⟨0, []⟩ else if c = 1 then t else ⟨c * t.coeff, t.var_powers⟩

def negate (t : Term) : Term := ⟨-t.coeff, t.var_powers⟩

/-- `_Term.raised_to_exponent` for a nonnegative exponent: `0` gives the
one term, `1` gives the term itself, otherwise the coefficient is raised
and every factor exponent is multiplied. -/
def raised_to_exponentN (t : Term) (e : ℕ) : Term :=
  if e = 0 then ⟨1, []⟩
  else if e = 1 then t
  else ⟨t.coeff ^ e, t.var_powers.map (fun vp => ⟨vp.var_name, vp.exponent * e⟩)⟩

/-- `_Term.raised_to_exponent`: negative exponents raise `ValueError`. -/
def raised_to_exponent (t : Term) (e : ℤ) : Option Term :=
  if e < 0 then none else some (t.raised_to_exponentN e.toNat)

/-- Python tuple comparison on `(name, exponent)` pairs, used by
`parms.sort()` inside `multiply_terms`. -/
def pairLe (p q : Str × ℕ) : Prop :=
  strLtB p.1 q.1 = true ∨ (p.1 = q.1 ∧ p.2 ≤ q.2)

instance : DecidableRel pairLe := fun _ _ => inferInstanceAs (Decidable (_ ∨ _))

/-- Dict assignment `d[k] = v` over an insertion-ordered association
list. -/
def setPair (ps : List (Str × ℕ)) (q : Str × ℕ) : List (Str × ℕ) :=
  if ps.any (fun p => decide (p.1 = q.1)) then
    ps.map (fun p => if p.1 = q.1 then q else p)
  else ps ++ [q]

/-- Dict update `d[k] += v` over an insertion-ordered association list
(with `defaultdict(int)` semantics for a missing key). -/
def addPair (ps : List (Str × ℕ)) (q : Str × ℕ) : List (Str × ℕ) :=
  if ps.any (fun p => decide (p.1 = q.1)) then
    ps.map (fun p => if p.1 = q.1 then (p.1, p.2 + q.2) else p)
  else ps ++ [q]

/-- The `defaultdict` merge of `_Term.multiply_terms`: assign the first
factor list, add the second, list the items and sort them. -/
def mergeVps (v1 v2 : List VarPower) : List VarPower :=
  (List.insertionSort pairLe
    (v2.foldl (fun ps vp => addPair ps (vp.var_name, vp.exponent))
      (v1.foldl (fun ps vp => setPair ps (vp.var_name, vp.exponent)) []))).map
    (fun p => ⟨p.1, p.2⟩)

/-- `_Term.multiply_terms` with its zero and one short-circuits. -/
def multiply_terms (t1 t2 : Term) : Term :=
  if t1.coeff = 0 ∨ t2.coeff = 0 then ⟨0, []⟩
  else if t1.is_one then t2
  else if t2.is_one then t1
  else ⟨t1.coeff * t2.coeff, mergeVps t1.var_powers t2.var_powers⟩

/-- `_Term.sum` on a nonempty bucket of like terms: coefficients are
added left to right onto the first term, whose factors are kept.  (The
empty-list case raises in Python and is never reached here.) -/
def sumTerms : List Term → Term
  | [] => ⟨0, []⟩
  | t :: rest => ⟨rest.foldl (fun c u => c + u.coeff) t.coeff, t.var_powers⟩

def transform_coefficient (f : ℤ → ℤ) (t : Term) : Term := ⟨f t.coeff, t.var_powers⟩

def constant (c : ℤ) : Term := ⟨c, []⟩

end Term

/-! ## Well-formedness: the runtime checks of `_VarPower.__init__` and
`_Term.__init__` guarantee these facts for every constructed value. -/

def VarPowerWF (vp : VarPower) : Prop := legalName vp.var_name ∧ 1 ≤ vp.exponent

/-- `_Term.__init__` enforces a sorted duplicate-free factor name list,
and each factor went through `_VarPower.__init__`. -/
def TermWF (t : Term) : Prop :=
  List.Pairwise (fun a b : VarPower => strLtB a.var_name b.var_name = true) t.var_powers ∧
  ∀ vp ∈ t.var_powers, VarPowerWF vp

/-- Nonempty variable names; the code does not enforce this, and several
spec properties fail without it. -/
def NamesNonempty (t : Term) : Prop := ∀ vp ∈ t.var_powers, vp.var_name ≠ []

/-! ## `poly.py`: polynomials -/

structure Poly where
  terms : List Term
  deriving DecidableEq, Repr

namespace Poly

/-- All factor names of a term list (with multiplicity). -/
def allNames (ts : List Term) : List Str := (ts.map Term.var_names).flatten

/-- Keep the first occurrence of each element (the iteration order of a
Python set built by insertion, before sorting canonicalizes it). -/
def firstDedupAux {α : Type} [DecidableEq α] (seen : List α) : List α → List α
  | [] => []
  | x :: xs => if x ∈ seen then firstDedupAux seen xs else x :: firstDedupAux (x :: seen) xs

def firstDedup {α : Type} [DecidableEq α] (l : List α) : List α := firstDedupAux [] l

/-- `sorted(self.variables())`: the duplicate-free, ascending list of all
variable names of a term list. -/
def variablesSorted (ts : List Term) : List Str :=
  List.insertionSort strLe (firstDedup (allNames ts))

def variablesList (p : Poly) : List Str := variablesSorted p.terms

/-- The signature buckets of `Poly.simplify`: all terms sharing a
signature, buckets in first-occurrence order, insertion order inside a
bucket (`collections.defaultdict(list)` over an insertion-ordered dict). -/
def groupBySig : List Term → List (List Term)
  | [] => []
  | t :: rest =>
      (t :: rest.filter (fun u => decide (u.sig = t.sig))) ::
        groupBySig (rest.filter (fun u => decide (¬ u.sig = t.sig)))
  termination_by l => l.length
  decreasing_by
    simp only [List.length_cons]
    exact Nat.lt_succ_of_le (List.length_filter_le _ _)

/-- A fuel-indexed structural rendering of `groupBySig` (which recurses on
a length measure), used to evaluate it on concrete term lists. -/
def groupBySigFuel : ℕ → List Term → List (List Term)
  | _, [] => []
  | 0, _ :: _ => []
  | fuel + 1, t :: rest =>
      (t :: rest.filter (fun u => decide (u.sig = t.sig))) ::
        groupBySigFuel fuel (rest.filter (fun u => decide (¬ u.sig = t.sig)))

/-- `Poly.simplify`: length 0 and 1 short-circuits, otherwise bucket by
signature, sum each bucket, drop ring-zero coefficients. -/
def simplify (ts : List Term) : List Term :=
  match ts with
  | [] => []
  | [t] => if t.coeff = 0 then [] else [t]
  | _ => ((groupBySig ts).map Term.sumTerms).filter (fun t => decide (¬ t.coeff = 0))

/-- `_Term.sort_key`: the tuple of exponents indexed by the sorted
variable-name list of the owning polynomial. -/
def sort_key (t : Term) (vars : List Str) : List ℕ :=
  vars.map (fun v => t.degree_of_var v)

/-- Descending order on terms by sort key (`reverse=True`): `a` may be
placed before `b` iff the key of `a` is not below the key of `b`. -/
def termOrd (vars : List Str) (a b : Term) : Prop :=
  keyLtB (sort_key a vars) (sort_key b vars) = false

instance termOrdDec (vars : List Str) : DecidableRel (termOrd vars) :=
  fun _ _ => inferInstanceAs (Decidable (_ = false))

/-- `Poly.put_terms_in_order`: stable sort, descending by sort key over
the alphabetically sorted variable list. -/
def put_terms_in_order (ts : List Term) : List Term :=
  if ts.length ≤ 1 then ts
  else List.insertionSort (termOrd (variablesSorted ts)) ts

/-- `Poly.__init__`: every `Poly` is simplified and ordered on
construction and never mutated afterwards. -/
def mkPoly (ts : List Term) : Poly := ⟨put_terms_in_order (simplify ts)⟩

/-- `Poly.canonicalized_string`: `str(Math.zero)` for no terms, else the
`+`-join of the term strings. -/
def canonicalized_string (p : Poly) : Str :=
  if p.terms = [] then intNumeral 0
  else joinSep '+' (p.terms.map Term.canonicalized_string)

def is_zero (p : Poly) : Bool := p.terms.isEmpty

def is_one (p : Poly) : Bool :=
  match p.terms with
  | [t] => t.is_one
  | _ => false

/-- `Poly.eval`: raises unless every variable of the polynomial is
assigned; then folds `Math.add` over the term values from `Math.zero`. -/
def eval (A : Assignment) (p : Poly) : Option ℤ :=
  if (allNames p.terms).all (fun v => (A v).isSome) then
    some (p.terms.foldl (fun acc t => acc + t.evalVal A) 0)
  else none

def zero : Poly := mkPoly []

def constant (c : ℤ) : Poly := mkPoly [Term.constant c]

def one : Poly := constant 1

/-- `Poly.var`: builds the single-term polynomial `1 * label**1`; the
`_VarPower` constructor rejects illegal names. -/
def varCore (label : Str) : Poly := mkPoly [⟨1, [⟨label, 1⟩]⟩]

def var (label : Str) : Option Poly :=
  if legalNameB label then some (varCore label) else none

/-- `Poly.add_polys` with its zero short-circuits. -/
def add_polys (p q : Poly) : Poly :=
  if p.terms.isEmpty then q
  else if q.terms.isEmpty then p
  else mkPoly (p.terms ++ q.terms)

/-- `Poly.add_with_constant`: ring zero returns `self` unchanged. -/
def add_with_constant (c : ℤ) (p : Poly) : Poly :=
  if c = 0 then p else add_polys p (constant c)

/-- `Poly.multiply_by_constant`: multiply every term by the constant. -/
def multiply_by_constant (c : ℤ) (p : Poly) : Poly :=
  mkPoly (p.terms.map (Term.multiply_by_constant c))

/-- `Poly.multiply_polys` with its zero and one short-circuits, then the
full term-by-term cross product. -/
def multiply_polys (p q : Poly) : Poly :=
  if p.terms.isEmpty then p
  else if q.terms.isEmpty then q
  else if p.is_one then q
  else if q.is_one then p
  else mkPoly ((p.terms.map (fun t1 => q.terms.map (fun t2 => Term.multiply_terms t1 t2))).flatten)

def negated (p : Poly) : Poly := mkPoly (p.terms.map Term.negate)

/-- `Poly.subtract_polys`: `poly1 + poly2.negated()` unless `poly2` is
zero. -/
def subtract_polys (p q : Poly) : Poly :=
  if q.terms.isEmpty then p else add_polys p (negated q)

/-- `Poly.raised_to_exponent` for nonnegative exponents: `p ** 0 = one`,
`p ** 1 = p`, else `p * p ** (e - 1)`. -/
def raised_to_exponentN (p : Poly) : ℕ → Poly
  | 0 => one
  | 1 => p
  | e + 2 => multiply_polys p (p.raised_to_exponentN (e + 1))

/-- `Poly.raised_to_exponent`: negative exponents raise `ValueError`. -/
def raised_to_exponent (p : Poly) (e : ℤ) : Option Poly :=
  if e < 0 then none else some (p.raised_to_exponentN e.toNat)

/-- The reconstruction step of `Poly.apply` (after its argument checks). -/
def applyCore (A : Assignment) (p : Poly) : Poly :=
  mkPoly (p.terms.map (Term.apply A))

/-- `Poly.sum`: zero for the empty list, the polynomial itself for a
singleton, else one reconstruction from all the terms. -/
def sumPolys (ps : List Poly) : Poly :=
  match ps with
  | [] => zero
  | [p] => p
  | _ => mkPoly ((ps.map Poly.terms).flatten)

/-- `Poly.poly_based_on_term_with_variable_substitution`. -/
def poly_based_on_term (t : Term) (v : Str) (rp : Poly) : Poly :=
  let fz := t.factorize_on_var v
  if fz.2 = 0 then mkPoly [fz.1]
  else multiply_polys (mkPoly [fz.1]) (rp.raised_to_exponentN fz.2)

/-- The body of `Poly.substitute` after its variable check. -/
def substituteCore (p : Poly) (v : Str) (rp : Poly) : Poly :=
  sumPolys (p.terms.map (fun t => poly_based_on_term t v rp))

/-- `Poly.substitute`: raises when the substituted name is not a variable
of the polynomial. -/
def substitute (p : Poly) (v : Str) (rp : Poly) : Option Poly :=
  if v ∈ variablesList p then some (substituteCore p v rp) else none

/-- `Poly.transform_coefficients`. -/
def transform_coefficients (f : ℤ → ℤ) (p : Poly) : Poly :=
  mkPoly (p.terms.map (Term.transform_coefficient f))

/-- `Poly.numpy_vector`: only for single-variable polynomials; dense
coefficients from degree 0 to the maximal degree, missing degrees filled
with 0.  (On an invariant-respecting polynomial the degrees are distinct,
so first-match lookup agrees with the Python dict comprehension, and the
fold computes `max(degree_coeffs)`.) -/
def numpy_vector (p : Poly) : Option (List ℤ) :=
  match variablesList p with
  | [v] =>
    let pairs := p.terms.map (fun t => (t.degree_of_var v, t.coeff))
    let maxDegree := (p.terms.map (fun t => t.degree_of_var v)).foldl max 0
    some ((List.range (1 + maxDegree)).map (fun d =>
      match pairs.find? (fun pr => decide (pr.1 = d)) with
      | some pr => pr.2
      | none => 0))
  | _ => none

end Poly

/-- Python values a `Poly` may be compared against with `==`. -/
inductive PyValue where
  | pypoly (p : Poly)
  | pyint (n : ℤ)
  | pystr (s : Str)
  | pynone
  | pyterm (t : Term)

/-- `Poly.__eq__`: `enforce_type(other, Poly)` raises `TypeError` on any
non-`Poly` argument; two polynomials compare by canonical string. -/
def polyEq (p : Poly) (other : PyValue) : Option Bool :=
  match other with
  | .pypoly q => some (decide (p.canonicalized_string = q.canonicalized_string))
  | _ => none

/-! ## Polynomial invariants and reachability -/

/-- The three construction invariants of the spec: duplicate-free term
signatures, no ring-zero coefficient, terms descending by sort key over
the alphabetically sorted variable list. -/
def PolyInv (p : Poly) : Prop :=
  (p.terms.map Term.sig).Nodup ∧
  (∀ t ∈ p.terms, t.coeff ≠ 0) ∧
  List.Pairwise (Poly.termOrd (Poly.variablesSorted p.terms)) p.terms

def PolyWF (p : Poly) : Prop := PolyInv p ∧ ∀ t ∈ p.terms, TermWF t

/-- Well-formed with nonempty variable names. -/
def PolyGood (p : Poly) : Prop := PolyWF p ∧ ∀ t ∈ p.terms, NamesNonempty t

instance (vp : VarPower) : Decidable (VarPowerWF vp) :=
  inferInstanceAs (Decidable (_ ∧ _))

instance (t : Term) : Decidable (TermWF t) := by
  unfold TermWF
  have : DecidableRel (fun a b : VarPower => strLtB a.var_name b.var_name = true) :=
    fun _ _ => inferInstanceAs (Decidable (_ = true))
  exact inferInstanceAs (Decidable (_ ∧ _))

instance (t : Term) : Decidable (NamesNonempty t) := by
  unfold NamesNonempty
  exact inferInstanceAs (Decidable _)

instance (p : Poly) : Decidable (PolyInv p) := by
  unfold PolyInv
  exact inferInstanceAs (Decidable (_ ∧ _ ∧ _))

instance (p : Poly) : Decidable (PolyWF p) := by
  unfold PolyWF
  exact inferInstanceAs (Decidable (_ ∧ _))

instance (p : Poly) : Decidable (PolyGood p) := by
  unfold PolyGood
  exact inferInstanceAs (Decidable (_ ∧ _))

/-- The polynomials reachable through the public API over the integer
ring: the constructors and every arithmetic, application, substitution and
transformation operation. -/
inductive Reachable : Poly → Prop where
  | var (label : Str) (h : legalName label) : Reachable (Poly.varCore label)
  | constant (c : ℤ) : Reachable (Poly.constant c)
  | zero : Reachable Poly.zero
  | one : Reachable Poly.one
  | add (p q : Poly) : Reachable p → Reachable q → Reachable (Poly.add_polys p q)
  | add_const (c : ℤ) (p : Poly) : Reachable p → Reachable (Poly.add_with_constant c p)
  | sub (p q : Poly) : Reachable p → Reachable q → Reachable (Poly.subtract_polys p q)
  | mul (p q : Poly) : Reachable p → Reachable q → Reachable (Poly.multiply_polys p q)
  | mul_const (c : ℤ) (p : Poly) : Reachable p → Reachable (Poly.multiply_by_constant c p)
  | neg (p : Poly) : Reachable p → Reachable (Poly.negated p)
  | raise (p : Poly) (e : ℕ) : Reachable p → Reachable (p.raised_to_exponentN e)
  | app (A : Assignment) (p : Poly) (h : ∀ v, (A v).isSome → v ∈ Poly.variablesList p) :
      Reachable p → Reachable (Poly.applyCore A p)
  | subst (p : Poly) (v : Str) (rp : Poly) (hv : v ∈ Poly.variablesList p) :
      Reachable p → Reachable rp → Reachable (Poly.substituteCore p v rp)
  | transform (f : ℤ → ℤ) (p : Poly) : Reachable p → Reachable (Poly.transform_coefficients f p)
  | sum (ps : List Poly) : (∀ p ∈ ps, Reachable p) → Reachable (Poly.sumPolys ps)

/-- A concrete `Modulus(5)` ring used in witnesses. -/
def modFive : Modulus := ⟨5, by decide⟩

/-! ## Semantic content (proof-side only): each term list is mapped to a
multivariate polynomial over the variable names, so that ring algebra can
be carried out abstractly. -/

/-- The exponent map of a factor list. -/
noncomputable def vpsF (vps : List VarPower) : Str →₀ ℕ :=
  (vps.map (fun vp => Finsupp.single vp.var_name vp.exponent)).sum

/-- The monomial content of a term. -/
noncomputable def termMv (t : Term) : MvPolynomial Str ℤ :=
  MvPolynomial.monomial (vpsF t.var_powers) t.coeff

/-- The polynomial content of a term list. -/
noncomputable def content (ts : List Term) : MvPolynomial Str ℤ :=
  (ts.map termMv).sum

/-- Total exponent registered for a name in a `(name, exponent)`
association list (proof-side). -/
def pairTotal (ps : List (Str × ℕ)) (v : Str) : ℕ :=
  ((ps.map (fun p => if p.1 = v then p.2 else 0)).sum)

/-- Factor lists that went through `_VarPower.__init__` with a nonempty
name. -/
def GoodVP (vp : VarPower) : Prop :=
  legalName vp.var_name ∧ vp.var_name ≠ [] ∧ 1 ≤ vp.exponent

end poly

/-! ## Theorems -/

namespace poly

/-! ### Order lemmas for the Python sequence comparisons -/

theorem lexLtB_irrefl {α : Type} [LinearOrder α] : ∀ a : List α, lexLtB a a = false := by
  intro a
  induction a with
  | nil => rfl
  | cons c cs ih => simp [lexLtB, ih]

theorem lexLtB_trans {α : Type} [LinearOrder α] :
    ∀ {a b c : List α}, lexLtB a b = true → lexLtB b c = true → lexLtB a c = true := by
  intro a
  induction a with
  | nil =>
    intro b c h1 h2
    cases b with
    | nil => simp [lexLtB] at h1
    | cons y ys =>
      cases c with
      | nil => simp [lexLtB] at h2
      | cons z zs => simp [lexLtB]
  | cons x xs ih =>
    intro b c h1 h2
    cases b with
    | nil => simp [lexLtB] at h1
    | cons y ys =>
      cases c with
      | nil => simp [lexLtB] at h2
      | cons z zs =>
        simp only [lexLtB] at h1 h2 ⊢
        by_cases hxy : x < y
        · by_cases hyz : y < z
          · simp [lt_trans hxy hyz]
          · by_cases hyz2 : y = z
            · subst hyz2
              simp [hxy]
            · simp [hyz, hyz2] at h2
        · by_cases hxy2 : x = y
          · subst hxy2
            by_cases hyz : x < z
            · simp [hyz]
            · by_cases hyz2 : x = z
              · subst hyz2
                simp only [lt_irrefl, if_false, if_pos rfl] at h1 h2 ⊢
                exact ih h1 h2
              · simp [hyz, hyz2] at h2
          · simp [hxy, hxy2] at h1

theorem lexLtB_asymm {α : Type} [LinearOrder α] {a b : List α}
    (h1 : lexLtB a b = true) (h2 : lexLtB b a = true) : False := by
  have h := lexLtB_trans h1 h2
  rw [lexLtB_irrefl] at h
  exact Bool.false_ne_true h

theorem lexLtB_eq_of_not_lt {α : Type} [LinearOrder α] :
    ∀ {a b : List α}, lexLtB a b = false → lexLtB b a = false → a = b := by
  intro a
  induction a with
  | nil =>
    intro b h1 _
    cases b with
    | nil => rfl
    | cons y ys => simp [lexLtB] at h1
  | cons x xs ih =>
    intro b h1 h2
    cases b with
    | nil => simp [lexLtB] at h2
    | cons y ys =>
      simp only [lexLtB] at h1 h2
      by_cases hxy : x < y
      · simp [hxy] at h1
      · by_cases hyx : y < x
        · simp [hyx] at h2
        · have hxy2 : x = y := le_antisymm (not_lt.mp hyx) (not_lt.mp hxy)
          subst hxy2
          simp only [lt_irrefl, if_false, if_pos rfl] at h1 h2
          rw [ih h1 h2]

theorem lexLtB_total {α : Type} [LinearOrder α] (a b : List α) :
    lexLtB a b = true ∨ lexLtB b a = true ∨ a = b := by
  by_cases h1 : lexLtB a b = true
  · exact Or.inl h1
  · by_cases h2 : lexLtB b a = true
    · exact Or.inr (Or.inl h2)
    · exact Or.inr (Or.inr (lexLtB_eq_of_not_lt
        (Bool.eq_false_iff.mpr h1) (Bool.eq_false_iff.mpr h2)))

/-! ### Claim C4: modulus-ring negate -/

/-- Claim C4 (as stated) is false: at modulus 5, `negate 0` returns `5`,
which FAILS the ring's own domain check, and feeding it back into `add`
raises. -/
theorem C4_counterexample :
    modFive.negate 0 = some 5 ∧ modFive.checkB 5 = false ∧ modFive.add 5 0 = none := by
  decide

/-- Claim C4, amended: for `0 ≤ n < m`, `negate n = m - n`; in particular
`negate 0 = m`, and `m` fails the ring's own domain check, so the result
of `negate 0` raises when fed back into `add`, `mul`, or `power`
(`negate` is not closed on the ring's value domain at `0`). -/
theorem C4_negate_amended (M : Modulus) (n : ℤ) (h0 : 0 ≤ n) (h1 : n < M.modulus) :
    M.negate n = some (M.modulus - n) ∧
    M.negate 0 = some M.modulus ∧
    M.checkB M.modulus = false ∧
    (∀ b, M.add M.modulus b = none) ∧
    (∀ b, M.mul M.modulus b = none) ∧
    (∀ e, M.power M.modulus e = none) := by
  have hchk : M.checkB n = true := by simp [Modulus.checkB, h0, h1]
  have hchk0 : M.checkB 0 = true := by simp [Modulus.checkB, le_refl, M.pos]
  have hchkm : M.checkB M.modulus = false := by simp [Modulus.checkB]
  refine ⟨?_, ?_, hchkm, ?_, ?_, ?_⟩
  · simp [Modulus.negate, hchk]
  · simp [Modulus.negate, hchk0]
  · intro b
    simp [Modulus.add, hchkm]
  · intro b
    simp [Modulus.mul, hchkm]
  · intro e
    simp [Modulus.power, hchkm]

theorem C4_negate_amended_witness :
    (0 : ℤ) ≤ 3 ∧ (3 : ℤ) < modFive.modulus ∧
    modFive.negate 3 = some (modFive.modulus - 3) ∧
    modFive.negate 0 = some modFive.modulus ∧
    modFive.checkB modFive.modulus = false ∧
    modFive.add modFive.modulus 0 = none :=
  ⟨by decide, by decide,
   (C4_negate_amended modFive 3 (by decide) (by decide)).1,
   (C4_negate_amended modFive 3 (by decide) (by decide)).2.1,
   (C4_negate_amended modFive 3 (by decide) (by decide)).2.2.1,
   (C4_negate_amended modFive 3 (by decide) (by decide)).2.2.2.1 0⟩

/-! ### Claim C5: `power(base, 0)` returns one in all three rings -/

/-- Claim C5: in each provided ring, `power` with exponent 0 returns the
ring's `one` for every in-domain base, including the ring's `zero`. -/
theorem C5_power_zero_is_one :
    (∀ n : ℤ, Integer.power n 0 = Integer.PowResult.intval Integer.one) ∧
    (∀ (M : Modulus) (n : ℤ), 0 ≤ n → n < M.modulus → M.power n 0 = some (M.one)) ∧
    (∀ q : ℚ, FractionMath.power q 0 = some FractionMath.one) := by
  refine ⟨?_, ?_, ?_⟩
  · intro n
    simp [Integer.power, Integer.one]
  · intro M n h0 h1
    have hchk : M.checkB n = true := by simp [Modulus.checkB, h0, h1]
    simp [Modulus.power, hchk, Modulus.repeatedMul, Modulus.one]
  · intro q
    simp [FractionMath.power, FractionMath.one]

theorem C5_power_zero_is_one_witness :
    Integer.power 0 0 = Integer.PowResult.intval Integer.one ∧
    ((0 : ℤ) ≤ 0 ∧ (0 : ℤ) < modFive.modulus ∧ modFive.power 0 0 = some (modFive.one)) ∧
    FractionMath.power 0 0 = some FractionMath.one :=
  ⟨C5_power_zero_is_one.1 0,
   ⟨by decide, by decide, C5_power_zero_is_one.2.1 modFive 0 (by decide) (by decide)⟩,
   C5_power_zero_is_one.2.2 0⟩

/-! ### Claim C6: rejection of negative exponents -/

/-- Claim C6 (as stated) is false: the plain-integer ring's `power` does
not fail on a negative exponent with nonzero base; Python returns a float
value. -/
theorem C6_counterexample :
    Integer.power 2 (-1) = Integer.PowResult.floatval ∧
    Integer.power 2 (-1) ≠ Integer.PowResult.err := by
  decide

/-- Claim C6, amended: `raise_to` on polynomials and terms always rejects
negative exponents, and so does `Modulus.power`; but `Integer.power` and
`FractionMath.power` accept a negative exponent whenever the base is
nonzero (returning a float, resp. an exact fraction). -/
theorem C6_negative_exponent_amended :
    (∀ (p : Poly) (e : ℤ), e < 0 → p.raised_to_exponent e = none) ∧
    (∀ (t : Term) (e : ℤ), e < 0 → t.raised_to_exponent e = none) ∧
    (∀ (M : Modulus) (n e : ℤ), e < 0 → M.power n e = none) ∧
    (∀ (n e : ℤ), e < 0 → n ≠ 0 → Integer.power n e = Integer.PowResult.floatval) ∧
    (∀ (q : ℚ) (e : ℤ), e < 0 → q ≠ 0 → FractionMath.power q e = some (q ^ e)) := by
  refine ⟨?_, ?_, ?_, ?_, ?_⟩
  · intro p e he
    simp [Poly.raised_to_exponent, he]
  · intro t e he
    simp [Term.raised_to_exponent, he]
  · intro M n e he
    have hne : ¬ (0 ≤ e) := by omega
    by_cases hc : M.checkB n <;> simp [Modulus.power, hc, hne]
  · intro n e he hn
    have hne : ¬ (0 ≤ e) := by omega
    simp [Integer.power, hne, hn]
  · intro q e he hq
    have hne : ¬ (0 ≤ e) := by omega
    simp [FractionMath.power, hne, hq]

theorem C6_negative_exponent_amended_witness :
    ((-1 : ℤ) < 0 ∧ Poly.zero.raised_to_exponent (-1) = none) ∧
    ((2 : ℤ) ≠ 0 ∧ Integer.power 2 (-1) = Integer.PowResult.floatval) ∧
    modFive.power 2 (-1) = none :=
  ⟨⟨by decide, C6_negative_exponent_amended.1 Poly.zero (-1) (by decide)⟩,
   ⟨by decide, C6_negative_exponent_amended.2.2.2.1 2 (-1) (by decide) (by decide)⟩,
   C6_negative_exponent_amended.2.2.1 modFive 2 (-1) (by decide)⟩

/-! ### Claim C9: VarPower construction -/

theorem legalName_iff (n : Str) : legalName n ↔ ∀ c ∈ n, c ∉ reservedChars := by
  simp [legalName, legalNameB, List.all_eq_true]

/-- Claim C9 (as stated) is false: the code performs no non-emptiness
check, so `_VarPower("", 1)` succeeds. -/
theorem C9_counterexample : mkVarPower [] 1 = some ⟨[], 1⟩ := by
  rfl

/-- Claim C9, amended: VarPower construction fails exactly when the name
contains a reserved character or the exponent is below 1; it succeeds for
every other string name (including the empty string) with exponent ≥ 1,
and `Poly.var` succeeds exactly on reserved-character-free names. -/
theorem C9_varpower_amended (name : Str) (e : ℤ) :
    (mkVarPower name e = none ↔ ((∃ c ∈ name, c ∈ reservedChars) ∨ e < 1)) ∧
    ((∀ c ∈ name, c ∉ reservedChars) → 1 ≤ e → mkVarPower name e = some ⟨name, e.toNat⟩) ∧
    ((Poly.var name).isSome ↔ ∀ c ∈ name, c ∉ reservedChars) := by
  by_cases hL : legalNameB name
  · have hfree : ∀ c ∈ name, c ∉ reservedChars := (legalName_iff name).mp hL
    have hnoex : ¬ ∃ c ∈ name, c ∈ reservedChars := by
      rintro ⟨c, hc, hmem⟩
      exact hfree c hc hmem
    refine ⟨?_, ?_, ?_⟩
    · by_cases he : e ≤ 0
      · have h1 : e < 1 := by omega
        simp [mkVarPower, hL, he, h1, hnoex]
      · have h1 : ¬ e < 1 := by omega
        simp [mkVarPower, hL, he, h1, hnoex]
    · intro _ h1
      have he : ¬ e ≤ 0 := by omega
      simp [mkVarPower, hL, he]
    · simp [Poly.var, hL]
      exact hfree
  · have hex : ∃ c ∈ name, c ∈ reservedChars := by
      have := (legalName_iff name).not.mp (by simpa [legalName] using hL)
      push_neg at this
      obtain ⟨c, hc, hmem⟩ := this
      exact ⟨c, hc, hmem⟩
    refine ⟨?_, ?_, ?_⟩
    · simp [mkVarPower, hL, hex]
    · intro hfree _
      obtain ⟨c, hc, hmem⟩ := hex
      exact absurd hmem (hfree c hc)
    · simp [Poly.var, hL]
      exact hex

theorem C9_varpower_amended_witness :
    (∀ c ∈ (['x'] : Str), c ∉ reservedChars) ∧ (1 : ℤ) ≤ 1 ∧
    mkVarPower ['x'] 1 = some (VarPower.mk ['x'] 1) :=
  ⟨by decide, by decide, (C9_varpower_amended ['x'] 1).2.1 (by decide) (by decide)⟩

/-! ### Claim C10: `==` against non-polynomials raises -/

/-- Claim C10: comparing a `Poly` with `==` against any non-`Poly` value
raises `TypeError` instead of returning `False`. -/
theorem C10_eq_requires_poly (p : Poly) (v : PyValue) (h : ∀ q, v ≠ PyValue.pypoly q) :
    polyEq p v = none := by
  cases v with
  | pypoly q => exact absurd rfl (h q)
  | pyint n => rfl
  | pystr s => rfl
  | pynone => rfl
  | pyterm t => rfl

theorem C10_eq_requires_poly_witness :
    (∀ q, PyValue.pyint 0 ≠ PyValue.pypoly q) ∧
    polyEq Poly.zero (PyValue.pyint 0) = none :=
  ⟨fun _ hq => PyValue.noConfusion hq,
   C10_eq_requires_poly Poly.zero (PyValue.pyint 0) (fun _ hq => PyValue.noConfusion hq)⟩

/-! ### More order lemmas -/

theorem lexLtB_false_trans {α : Type} [LinearOrder α] {a b c : List α}
    (h1 : lexLtB a b = false) (h2 : lexLtB b c = false) : lexLtB a c = false := by
  by_contra h
  have hac : lexLtB a c = true := Bool.of_not_eq_false h
  rcases lexLtB_total c b with hcb | hbc | hcb2
  · have := lexLtB_trans hac hcb
    rw [h1] at this
    exact Bool.false_ne_true this
  · rw [h2] at hbc
    exact Bool.false_ne_true hbc
  · rw [hcb2] at hac
    rw [h1] at hac
    exact Bool.false_ne_true hac

theorem strLe_total (a b : Str) : strLe a b ∨ strLe b a := by
  by_cases h1 : strLtB b a = true
  · by_cases h2 : strLtB a b = true
    · exact (lexLtB_asymm h2 h1).elim
    · exact Or.inr (Bool.eq_false_iff.mpr h2)
  · exact Or.inl (Bool.eq_false_iff.mpr h1)

theorem strLe_trans {a b c : Str} (h1 : strLe a b) (h2 : strLe b c) : strLe a c :=
  lexLtB_false_trans h2 h1

theorem strLe_antisymm {a b : Str} (h1 : strLe a b) (h2 : strLe b a) : a = b :=
  lexLtB_eq_of_not_lt h2 h1

theorem termOrd_total (vars : List Str) (a b : Term) :
    Poly.termOrd vars a b ∨ Poly.termOrd vars b a := by
  by_cases h1 : keyLtB (Poly.sort_key a vars) (Poly.sort_key b vars) = true
  · by_cases h2 : keyLtB (Poly.sort_key b vars) (Poly.sort_key a vars) = true
    · exact (lexLtB_asymm h1 h2).elim
    · exact Or.inr (Bool.eq_false_iff.mpr h2)
  · exact Or.inl (Bool.eq_false_iff.mpr h1)

theorem termOrd_trans (vars : List Str) {a b c : Term} (h1 : Poly.termOrd vars a b)
    (h2 : Poly.termOrd vars b c) : Poly.termOrd vars a c :=
  lexLtB_false_trans h1 h2

/-! ### First-occurrence dedup -/

theorem mem_firstDedupAux {α : Type} [DecidableEq α] :
    ∀ (l seen : List α) (x : α), x ∈ Poly.firstDedupAux seen l ↔ x ∈ l ∧ x ∉ seen := by
  intro l
  induction l with
  | nil =>
    intro seen x
    simp [Poly.firstDedupAux]
  | cons y ys ih =>
    intro seen x
    by_cases hy : y ∈ seen
    · rw [Poly.firstDedupAux, if_pos hy, ih]
      constructor
      · rintro ⟨hx, hs⟩
        exact ⟨List.mem_cons_of_mem _ hx, hs⟩
      · rintro ⟨hx, hs⟩
        rcases List.mem_cons.mp hx with rfl | hx2
        · exact absurd hy hs
        · exact ⟨hx2, hs⟩
    · rw [Poly.firstDedupAux, if_neg hy]
      simp only [List.mem_cons, ih]
      constructor
      · rintro (rfl | ⟨hx, hs⟩)
        · exact ⟨Or.inl rfl, hy⟩
        · refine ⟨Or.inr hx, ?_⟩
          intro hsx
          exact hs (Or.inr hsx)
      · rintro ⟨rfl | hx, hs⟩
        · exact Or.inl rfl
        · by_cases hxy : x = y
          · exact Or.inl hxy
          · refine Or.inr ⟨hx, ?_⟩
            intro hsx
            rcases hsx with rfl | h2
            · exact hxy rfl
            · exact hs h2

theorem mem_firstDedup {α : Type} [DecidableEq α] (l : List α) (x : α) :
    x ∈ Poly.firstDedup l ↔ x ∈ l := by
  simp [Poly.firstDedup, mem_firstDedupAux]

theorem nodup_firstDedupAux {α : Type} [DecidableEq α] :
    ∀ (l seen : List α), (Poly.firstDedupAux seen l).Nodup := by
  intro l
  induction l with
  | nil =>
    intro seen
    simp [Poly.firstDedupAux]
  | cons y ys ih =>
    intro seen
    by_cases hy : y ∈ seen
    · rw [Poly.firstDedupAux, if_pos hy]
      exact ih seen
    · rw [Poly.firstDedupAux, if_neg hy]
      refine List.Nodup.cons ?_ (ih _)
      intro hmem
      exact ((mem_firstDedupAux ys (y :: seen) y).mp hmem).2 (List.mem_cons_self y seen)

theorem nodup_firstDedup {α : Type} [DecidableEq α] (l : List α) :
    (Poly.firstDedup l).Nodup := nodup_firstDedupAux l []

/-! ### Sorted variable lists -/

theorem sorted_variablesSorted (ts : List Term) :
    List.Sorted strLe (Poly.variablesSorted ts) :=
  @List.sorted_insertionSort Str strLe _ ⟨strLe_total⟩ ⟨fun _ _ _ => strLe_trans⟩ _

theorem nodup_variablesSorted (ts : List Term) : (Poly.variablesSorted ts).Nodup :=
  (List.perm_insertionSort strLe _).symm.nodup (nodup_firstDedup _)

theorem mem_variablesSorted (ts : List Term) (x : Str) :
    x ∈ Poly.variablesSorted ts ↔ x ∈ Poly.allNames ts := by
  simp [Poly.variablesSorted, mem_firstDedup]

theorem variablesSorted_eq_of_mem_iff {ts1 ts2 : List Term}
    (h : ∀ x, x ∈ Poly.allNames ts1 ↔ x ∈ Poly.allNames ts2) :
    Poly.variablesSorted ts1 = Poly.variablesSorted ts2 := by
  refine @List.eq_of_perm_of_sorted Str strLe ⟨fun _ _ => strLe_antisymm⟩ _ _ ?_
    (sorted_variablesSorted ts1) (sorted_variablesSorted ts2)
  refine (List.perm_ext_iff_of_nodup (nodup_variablesSorted ts1)
    (nodup_variablesSorted ts2)).mpr ?_
  intro a
  rw [mem_variablesSorted, mem_variablesSorted]
  exact h a

theorem allNames_mem_iff_of_perm {ts1 ts2 : List Term} (h : ts1.Perm ts2) (x : Str) :
    x ∈ Poly.allNames ts1 ↔ x ∈ Poly.allNames ts2 :=
  ((h.map Term.var_names).join).mem_iff

/-! ### Signature buckets -/

theorem groupBySig_flatten_perm (ts : List Term) : (Poly.groupBySig ts).flatten.Perm ts := by
  induction ts using Poly.groupBySig.induct with
  | case1 => simp [Poly.groupBySig]
  | case2 t rest ih =>
    rw [Poly.groupBySig]
    simp only [List.flatten_cons]
    refine (List.Perm.append_left _ ih).trans ?_
    refine List.Perm.cons t ?_
    have h := List.filter_append_perm (fun u => decide (u.sig = t.sig)) rest
    simpa [decide_not] using h

theorem groupBySig_mem_sub {ts : List Term} {g : List Term} (hg : g ∈ Poly.groupBySig ts) :
    ∀ u ∈ g, u ∈ ts := by
  intro u hu
  exact (groupBySig_flatten_perm ts).mem_iff.mp (List.mem_flatten.mpr ⟨g, hg, hu⟩)

theorem groupBySig_shape {ts : List Term} {g : List Term} (hg : g ∈ Poly.groupBySig ts) :
    ∃ t r, g = t :: r ∧ ∀ u ∈ r, u.sig = t.sig := by
  induction ts using Poly.groupBySig.induct with
  | case1 => simp [Poly.groupBySig] at hg
  | case2 t rest ih =>
    rw [Poly.groupBySig] at hg
    rcases List.mem_cons.mp hg with rfl | hg2
    · refine ⟨t, _, rfl, ?_⟩
      intro u hu
      exact of_decide_eq_true (List.mem_filter.mp hu).2
    · exact ih hg2

theorem sumTerms_var_powers (t : Term) (r : List Term) :
    (Term.sumTerms (t :: r)).var_powers = t.var_powers := rfl

theorem sumTerms_sig (t : Term) (r : List Term) :
    (Term.sumTerms (t :: r)).sig = t.sig := rfl

theorem groupBySig_sigs_nodup (ts : List Term) :
    ((Poly.groupBySig ts).map (fun g => (Term.sumTerms g).sig)).Nodup := by
  induction ts using Poly.groupBySig.induct with
  | case1 => simp [Poly.groupBySig]
  | case2 t rest ih =>
    rw [Poly.groupBySig]
    simp only [List.map_cons]
    refine List.Nodup.cons ?_ ih
    intro hmem
    rcases List.mem_map.mp hmem with ⟨g, hg, hsig⟩
    rcases groupBySig_shape hg with ⟨u, r, rfl, _⟩
    rw [sumTerms_sig] at hsig
    have hu : u ∈ rest.filter (fun v => decide (¬ v.sig = t.sig)) :=
      groupBySig_mem_sub hg u (List.mem_cons_self u r)
    have : ¬ u.sig = t.sig := of_decide_eq_true (List.mem_filter.mp hu).2
    rw [sumTerms_sig] at hsig
    exact this hsig

/-! ### Simplify -/

theorem simplify_eq (ts : List Term) :
    Poly.simplify ts =
      ((Poly.groupBySig ts).map Term.sumTerms).filter (fun t => decide (¬ t.coeff = 0)) := by
  match ts with
  | [] => simp [Poly.simplify, Poly.groupBySig]
  | [t] =>
    show (if t.coeff = 0 then [] else [t]) = _
    rw [Poly.groupBySig]
    simp only [List.filter_nil, List.map_cons]
    rw [Poly.groupBySig]
    by_cases h : t.coeff = 0
    · simp [h, Term.sumTerms]
    · simp [h, Term.sumTerms]
  | t1 :: t2 :: rest => rfl

theorem mem_simplify_coeff_ne_zero {ts : List Term} {t : Term} (h : t ∈ Poly.simplify ts) :
    t.coeff ≠ 0 := by
  rw [simplify_eq] at h
  exact of_decide_eq_true (List.mem_filter.mp h).2

theorem simplify_sigs_nodup (ts : List Term) :
    ((Poly.simplify ts).map Term.sig).Nodup := by
  rw [simplify_eq]
  have h1 : (((Poly.groupBySig ts).map Term.sumTerms).map Term.sig).Nodup := by
    rw [List.map_map]
    exact groupBySig_sigs_nodup ts
  exact h1.sublist (List.Sublist.map Term.sig (List.filter_sublist _))

theorem mem_simplify_vps {ts : List Term} {t : Term} (h : t ∈ Poly.simplify ts) :
    ∃ u ∈ ts, t.var_powers = u.var_powers := by
  rw [simplify_eq] at h
  have h2 := (List.mem_filter.mp h).1
  rcases List.mem_map.mp h2 with ⟨g, hg, rfl⟩
  rcases groupBySig_shape hg with ⟨u, r, rfl, _⟩
  exact ⟨u, groupBySig_mem_sub hg u (List.mem_cons_self u r), sumTerms_var_powers u r⟩

/-! ### Construction invariants (claim C1) -/

theorem put_terms_in_order_eq (ts : List Term) :
    Poly.put_terms_in_order ts =
      List.insertionSort (Poly.termOrd (Poly.variablesSorted ts)) ts := by
  by_cases h : ts.length ≤ 1
  · rw [Poly.put_terms_in_order, if_pos h]
    cases ts with
    | nil => rfl
    | cons t rest =>
      cases rest with
      | nil => rfl
      | cons t2 rest2 => simp at h
  · rw [Poly.put_terms_in_order, if_neg h]

theorem mkPoly_terms (ts : List Term) :
    (Poly.mkPoly ts).terms =
      List.insertionSort (Poly.termOrd (Poly.variablesSorted (Poly.simplify ts)))
        (Poly.simplify ts) := by
  rw [Poly.mkPoly, put_terms_in_order_eq]

theorem mkPoly_perm_simplify (ts : List Term) :
    (Poly.mkPoly ts).terms.Perm (Poly.simplify ts) := by
  rw [mkPoly_terms]
  exact List.perm_insertionSort _ _

/-- Every constructed polynomial satisfies the three construction
invariants, whatever term list it is built from. -/
theorem mkPoly_inv (ts : List Term) : PolyInv (Poly.mkPoly ts) := by
  have hperm := mkPoly_perm_simplify ts
  refine ⟨?_, ?_, ?_⟩
  · exact (hperm.map Term.sig).symm.nodup (simplify_sigs_nodup ts)
  · intro t ht
    exact mem_simplify_coeff_ne_zero (hperm.mem_iff.mp ht)
  · have hvars : Poly.variablesSorted (Poly.mkPoly ts).terms =
        Poly.variablesSorted (Poly.simplify ts) :=
      variablesSorted_eq_of_mem_iff (allNames_mem_iff_of_perm hperm)
    rw [hvars, mkPoly_terms]
    exact @List.sorted_insertionSort Term _ _ ⟨termOrd_total _⟩
      ⟨fun _ _ _ => termOrd_trans _⟩ (Poly.simplify ts)

theorem mkPoly_vps {ts : List Term} {t : Term} (h : t ∈ (Poly.mkPoly ts).terms) :
    ∃ u ∈ ts, t.var_powers = u.var_powers :=
  mem_simplify_vps ((mkPoly_perm_simplify ts).mem_iff.mp h)

theorem add_polys_inv {p q : Poly} (hp : PolyInv p) (hq : PolyInv q) :
    PolyInv (Poly.add_polys p q) := by
  rw [Poly.add_polys]
  split
  · exact hq
  · split
    · exact hp
    · exact mkPoly_inv _

theorem add_with_constant_inv {p : Poly} (c : ℤ) (hp : PolyInv p) :
    PolyInv (Poly.add_with_constant c p) := by
  rw [Poly.add_with_constant]
  split
  · exact hp
  · exact add_polys_inv hp (mkPoly_inv _)

theorem subtract_polys_inv {p q : Poly} (hp : PolyInv p) (hq : PolyInv q) :
    PolyInv (Poly.subtract_polys p q) := by
  rw [Poly.subtract_polys]
  split
  · exact hp
  · exact add_polys_inv hp (mkPoly_inv _)

theorem multiply_polys_inv {p q : Poly} (hp : PolyInv p) (hq : PolyInv q) :
    PolyInv (Poly.multiply_polys p q) := by
  rw [Poly.multiply_polys]
  split
  · exact hp
  · split
    · exact hq
    · split
      · exact hq
      · split
        · exact hp
        · exact mkPoly_inv _

theorem raised_inv {p : Poly} (hp : PolyInv p) : ∀ e : ℕ, PolyInv (p.raised_to_exponentN e)
  | 0 => mkPoly_inv _
  | 1 => hp
  | e + 2 => multiply_polys_inv hp (raised_inv hp (e + 1))

theorem sumPolys_inv {ps : List Poly} (h : ∀ p ∈ ps, PolyInv p) :
    PolyInv (Poly.sumPolys ps) := by
  match ps with
  | [] => exact mkPoly_inv _
  | [p] => exact h p (List.mem_cons_self p [])
  | p1 :: p2 :: rest => exact mkPoly_inv _

theorem poly_based_on_term_inv (t : Term) (v : Str) {rp : Poly} (hrp : PolyInv rp) :
    PolyInv (Poly.poly_based_on_term t v rp) := by
  rw [Poly.poly_based_on_term]
  split
  · exact mkPoly_inv _
  · exact multiply_polys_inv (mkPoly_inv _) (raised_inv hrp _)

theorem substituteCore_inv (p : Poly) (v : Str) {rp : Poly} (hrp : PolyInv rp) :
    PolyInv (Poly.substituteCore p v rp) := by
  rw [Poly.substituteCore]
  refine sumPolys_inv ?_
  intro q hq
  rcases List.mem_map.mp hq with ⟨t, _, rfl⟩
  exact poly_based_on_term_inv t v hrp

/-- Claim C1: every polynomial reachable through the public API satisfies
the three construction invariants: duplicate-free term signatures, no
ring-zero coefficient, and terms sorted descending by the tuple of
per-variable exponents indexed by the alphabetically sorted variable
list. -/
theorem C1_reachable_invariants (p : Poly) (h : Reachable p) : PolyInv p := by
  induction h with
  | var label hl => exact mkPoly_inv _
  | constant c => exact mkPoly_inv _
  | zero => exact mkPoly_inv _
  | one => exact mkPoly_inv _
  | add p q _ _ ihp ihq => exact add_polys_inv ihp ihq
  | add_const c p _ ihp => exact add_with_constant_inv c ihp
  | sub p q _ _ ihp ihq => exact subtract_polys_inv ihp ihq
  | mul p q _ _ ihp ihq => exact multiply_polys_inv ihp ihq
  | mul_const c p _ _ => exact mkPoly_inv _
  | neg p _ _ => exact mkPoly_inv _
  | raise p e _ ihp => exact raised_inv ihp e
  | app A p hA _ _ => exact mkPoly_inv _
  | subst p v rp hv _ _ _ ihrp => exact substituteCore_inv p v ihrp
  | transform f p _ _ => exact mkPoly_inv _
  | sum ps _ ih => exact sumPolys_inv ih

theorem C1_reachable_invariants_witness :
    PolyInv (Poly.add_polys (Poly.varCore ['x']) Poly.one) :=
  C1_reachable_invariants _
    (Reachable.add _ _ (Reachable.var ['x'] rfl) Reachable.one)

/-! ### Decimal numerals -/

theorem ofDigits_digitsLE : ∀ (fuel n : ℕ), n ≤ fuel → Nat.ofDigits 10 (digitsLE fuel n) = n := by
  intro fuel
  induction fuel with
  | zero =>
    intro n h
    interval_cases n
    rfl
  | succ f ih =>
    intro n h
    cases n with
    | zero => rfl
    | succ m =>
      rw [digitsLE, Nat.ofDigits_cons]
      have hdiv : (m + 1) / 10 ≤ f := by
        have h1 : (m + 1) / 10 < m + 1 := Nat.div_lt_self (Nat.succ_pos m) (by norm_num)
        omega
      rw [ih _ hdiv]
      omega

theorem digitsLE_lt_base : ∀ (fuel n : ℕ), ∀ d ∈ digitsLE fuel n, d < 10 := by
  intro fuel
  induction fuel with
  | zero =>
    intro n d hd
    simp [digitsLE] at hd
  | succ f ih =>
    intro n d hd
    cases n with
    | zero => simp [digitsLE] at hd
    | succ m =>
      rw [digitsLE] at hd
      rcases List.mem_cons.mp hd with rfl | hd2
      · exact Nat.mod_lt _ (by norm_num)
      · exact ih _ d hd2

theorem digitChar_inj_lt :
    ∀ a < 10, ∀ b < 10, Nat.digitChar a = Nat.digitChar b → a = b := by
  decide

theorem map_digitChar_inj :
    ∀ {l1 l2 : List ℕ}, (∀ d ∈ l1, d < 10) → (∀ d ∈ l2, d < 10) →
      l1.map Nat.digitChar = l2.map Nat.digitChar → l1 = l2 := by
  intro l1
  induction l1 with
  | nil =>
    intro l2 _ _ h
    cases l2 with
    | nil => rfl
    | cons b bs => simp at h
  | cons a as ih =>
    intro l2 h1 h2 h
    cases l2 with
    | nil => simp at h
    | cons b bs =>
      simp only [List.map_cons, List.cons.injEq] at h
      have ha : a < 10 := h1 a (List.mem_cons_self a as)
      have hb : b < 10 := h2 b (List.mem_cons_self b bs)
      rw [digitChar_inj_lt a ha b hb h.1,
        ih (fun d hd => h1 d (List.mem_cons_of_mem _ hd))
           (fun d hd => h2 d (List.mem_cons_of_mem _ hd)) h.2]

theorem natNumeral_inj : ∀ {a b : ℕ}, natNumeral a = natNumeral b → a = b := by
  have key : ∀ c : ℕ, c ≠ 0 → natNumeral c ≠ ['0'] := by
    intro c hc h
    rw [natNumeral, if_neg hc] at h
    have hlists : (digitsLE c c).reverse = [0] := by
      have h10 : (0 : ℕ) < 10 := by norm_num
      refine map_digitChar_inj ?_ ?_ ?_
      · intro d hd
        exact digitsLE_lt_base c c d (List.mem_reverse.mp hd)
      · intro d hd
        simp at hd
        omega
      · simpa using h
    have : digitsLE c c = [0] := by
      have := congrArg List.reverse hlists
      simpa using this
    have h0 := ofDigits_digitsLE c c le_rfl
    rw [this] at h0
    simp [Nat.ofDigits] at h0
    exact hc h0.symm
  intro a b h
  by_cases ha : a = 0
  · by_cases hb : b = 0
    · rw [ha, hb]
    · subst ha
      rw [natNumeral, if_pos rfl] at h
      exact absurd h.symm (key b hb)
  · by_cases hb : b = 0
    · subst hb
      have h0 : natNumeral 0 = ['0'] := rfl
      rw [h0] at h
      exact absurd h (key a ha)
    · rw [natNumeral, if_neg ha, natNumeral, if_neg hb] at h
      have hrev := map_digitChar_inj
        (fun d hd => digitsLE_lt_base a a d (List.mem_reverse.mp hd))
        (fun d hd => digitsLE_lt_base b b d (List.mem_reverse.mp hd)) h
      have hdig : digitsLE a a = digitsLE b b := by
        have := congrArg List.reverse hrev
        simpa using this
      have h1 := ofDigits_digitsLE a a le_rfl
      have h2 := ofDigits_digitsLE b b le_rfl
      rw [hdig] at h1
      rw [h2] at h1
      exact h1.symm

theorem digitChar_isDigit_lt : ∀ d < 10, (Nat.digitChar d).isDigit = true := by
  decide

theorem natNumeral_all_digits (n : ℕ) : ∀ c ∈ natNumeral n, c.isDigit = true := by
  intro c hc
  rw [natNumeral] at hc
  by_cases h : n = 0
  · rw [if_pos h] at hc
    simp at hc
    subst hc
    decide
  · rw [if_neg h] at hc
    rcases List.mem_map.mp hc with ⟨d, hd, rfl⟩
    exact digitChar_isDigit_lt d (digitsLE_lt_base n n d (List.mem_reverse.mp hd))

theorem natNumeral_ne_nil (n : ℕ) : natNumeral n ≠ [] := by
  rw [natNumeral]
  by_cases h : n = 0
  · rw [if_pos h]
    simp
  · rw [if_neg h]
    intro hmap
    have : digitsLE n n = [] := by
      have := congrArg List.length hmap
      simp at this
      simpa using this
    have h0 := ofDigits_digitsLE n n le_rfl
    rw [this] at h0
    simp [Nat.ofDigits] at h0
    exact h (h0.symm)

theorem isDigit_not_reserved {c : Char} (h : c.isDigit = true) : c ∉ reservedChars := by
  intro hmem
  simp only [reservedChars, List.mem_cons, List.not_mem_nil, or_false] at hmem
  rcases hmem with rfl | rfl | rfl | rfl | rfl | rfl | rfl <;> exact absurd h (by decide)

/-! ### Separator splitting -/

theorem append_sep_ne {sep : Char} {a x b : Str} (hb : sep ∉ b) : a ++ sep :: x ≠ b := by
  intro h
  exact hb (h ▸ List.mem_append_right a (List.mem_cons_self sep x))

theorem append_sep_inj {sep : Char} :
    ∀ {a b x y : Str}, sep ∉ a → sep ∉ b → a ++ sep :: x = b ++ sep :: y →
      a = b ∧ x = y := by
  intro a
  induction a with
  | nil =>
    intro b x y _ hb h
    cases b with
    | nil => simpa using h
    | cons c cs =>
      simp only [List.nil_append, List.cons_append, List.cons.injEq] at h
      exact absurd (h.1 ▸ List.mem_cons_self c cs) (by
        intro hmem
        exact hb (by simpa [h.1] using List.mem_cons_self c cs))
  | cons c cs ih =>
    intro b x y ha hb h
    cases b with
    | nil =>
      simp only [List.cons_append, List.nil_append, List.cons.injEq] at h
      exact absurd h.1.symm (fun hc => ha (hc ▸ List.mem_cons_self c cs))
    | cons d ds =>
      simp only [List.cons_append, List.cons.injEq] at h
      have hrec := ih (fun hm => ha (List.mem_cons_of_mem _ hm))
        (fun hm => hb (List.mem_cons_of_mem _ hm)) h.2
      exact ⟨by rw [h.1, hrec.1], hrec.2⟩

theorem joinSep_two (sep : Char) (s : Str) (r : List Str) (hr : r ≠ []) :
    joinSep sep (s :: r) = s ++ sep :: joinSep sep r := by
  cases r with
  | nil => exact absurd rfl hr
  | cons a as => rw [joinSep]

theorem mem_joinSep {sep : Char} :
    ∀ {l : List Str} {c : Char}, c ∈ joinSep sep l → c = sep ∨ ∃ s ∈ l, c ∈ s := by
  intro l
  induction l with
  | nil =>
    intro c hc
    simp [joinSep] at hc
  | cons s r ih =>
    intro c hc
    cases r with
    | nil =>
      rw [joinSep] at hc
      exact Or.inr ⟨s, List.mem_cons_self s [], hc⟩
    | cons a as =>
      rw [joinSep_two sep s (a :: as) (by simp)] at hc
      rcases List.mem_append.mp hc with hs | hrest
      · exact Or.inr ⟨s, List.mem_cons_self _ _, hs⟩
      · rcases List.mem_cons.mp hrest with rfl | hr2
        · exact Or.inl rfl
        · rcases ih hr2 with rfl | ⟨u, hu, hcu⟩
          · exact Or.inl rfl
          · exact Or.inr ⟨u, List.mem_cons_of_mem _ hu, hcu⟩

theorem joinSep_inj {sep : Char} :
    ∀ {l1 l2 : List Str}, (∀ s ∈ l1, sep ∉ s) → (∀ s ∈ l2, sep ∉ s) →
      l1 ≠ [] → l2 ≠ [] → joinSep sep l1 = joinSep sep l2 → l1 = l2 := by
  intro l1
  induction l1 with
  | nil =>
    intro l2 _ _ hne _ _
    exact absurd rfl hne
  | cons s1 r1 ih =>
    intro l2 h1 h2 _ hne2 heq
    cases l2 with
    | nil => exact absurd rfl hne2
    | cons s2 r2 =>
      have hs1 : sep ∉ s1 := h1 s1 (List.mem_cons_self _ _)
      have hs2 : sep ∉ s2 := h2 s2 (List.mem_cons_self _ _)
      cases r1 with
      | nil =>
        cases r2 with
        | nil =>
          rw [joinSep, joinSep] at heq
          rw [heq]
        | cons a2 as2 =>
          rw [joinSep, joinSep_two sep s2 (a2 :: as2) (by simp)] at heq
          exact absurd heq.symm (append_sep_ne hs1)
      | cons a1 as1 =>
        cases r2 with
        | nil =>
          rw [joinSep_two sep s1 (a1 :: as1) (by simp), joinSep] at heq
          exact absurd heq (append_sep_ne hs2)
        | cons a2 as2 =>
          rw [joinSep_two sep s1 (a1 :: as1) (by simp),
            joinSep_two sep s2 (a2 :: as2) (by simp)] at heq
          have hsp := append_sep_inj hs1 hs2 heq
          have htail := ih (fun s hs => h1 s (List.mem_cons_of_mem _ hs))
            (fun s hs => h2 s (List.mem_cons_of_mem _ hs)) (by simp) (by simp) hsp.2
          rw [hsp.1, htail]

/-! ### Signature injectivity -/

theorem legalName_not_mem {n : Str} (h : legalName n) {c : Char} (hc : c ∈ n) :
    c ∉ reservedChars :=
  (legalName_iff n).mp h c hc

theorem legalName_no_star {n : Str} (h : legalName n) : '*' ∉ n :=
  fun hc => legalName_not_mem h hc (by decide)

theorem legalName_no_lparen {n : Str} (h : legalName n) : '(' ∉ n :=
  fun hc => legalName_not_mem h hc (by decide)

theorem legalName_no_plus {n : Str} (h : legalName n) : '+' ∉ n :=
  fun hc => legalName_not_mem h hc (by decide)

theorem natNumeral_not_mem {c : Char} (h : c.isDigit = false) (n : ℕ) :
    c ∉ natNumeral n := by
  intro hc
  have hd := natNumeral_all_digits n c hc
  rw [hd] at h
  exact Bool.noConfusion h

theorem natNumeral_no_star (n : ℕ) : '*' ∉ natNumeral n :=
  natNumeral_not_mem (by decide) n

theorem natNumeral_no_rparen (n : ℕ) : ')' ∉ natNumeral n :=
  natNumeral_not_mem (by decide) n

theorem natNumeral_no_plus (n : ℕ) : '+' ∉ natNumeral n :=
  natNumeral_not_mem (by decide) n

theorem vpSig_ne_nil {vp : VarPower} (hn : vp.var_name ≠ []) : vp.sig ≠ [] := by
  rw [VarPower.sig]
  split
  · exact hn
  · simp

/-- Heads of signature strings parse unambiguously: two factor signatures
followed by rests that are empty or `*`-separated agree only if the factors
and the rests agree. -/
theorem vpSig_append_inj {vp1 vp2 : VarPower} {r1 r2 : Str}
    (h1 : legalName vp1.var_name) (hn1 : vp1.var_name ≠ [])
    (h2 : legalName vp2.var_name) (hn2 : vp2.var_name ≠ [])
    (hr1 : r1 = [] ∨ ∃ t, r1 = '*' :: t) (hr2 : r2 = [] ∨ ∃ t, r2 = '*' :: t)
    (heq : vp1.sig ++ r1 = vp2.sig ++ r2) : vp1 = vp2 ∧ r1 = r2 := by
  obtain ⟨n1, e1⟩ := vp1
  obtain ⟨n2, e2⟩ := vp2
  simp only [VarPower.sig] at heq
  simp only at h1 hn1 h2 hn2
  by_cases he1 : e1 = 1 <;> by_cases he2 : e2 = 1
  · rw [if_pos he1, if_pos he2] at heq
    subst he1
    subst he2
    rcases hr1 with rfl | ⟨t1, rfl⟩
    · rcases hr2 with rfl | ⟨t2, rfl⟩
      · simp only [List.append_nil] at heq
        simp [heq]
      · rw [List.append_nil] at heq
        exact absurd heq.symm (append_sep_ne (legalName_no_star h1))
    · rcases hr2 with rfl | ⟨t2, rfl⟩
      · rw [List.append_nil] at heq
        exact absurd heq (append_sep_ne (legalName_no_star h2))
      · have hsp := append_sep_inj (legalName_no_star h1) (legalName_no_star h2) heq
        simp [hsp.1, hsp.2]
  · rw [if_pos he1, if_neg he2] at heq
    subst he1
    cases n1 with
    | nil => exact absurd rfl hn1
    | cons c cs =>
      simp only [List.cons_append, List.cons.injEq] at heq
      exact absurd (heq.1 ▸ List.mem_cons_self c cs) (legalName_no_lparen h1)
  · rw [if_neg he1, if_pos he2] at heq
    subst he2
    cases n2 with
    | nil => exact absurd rfl hn2
    | cons c cs =>
      simp only [List.cons_append, List.cons.injEq] at heq
      exact absurd (heq.1.symm ▸ List.mem_cons_self c cs) (legalName_no_lparen h2)
  · rw [if_neg he1, if_neg he2] at heq
    simp only [List.cons_append, List.append_assoc, List.cons.injEq, true_and] at heq
    have heq2 : n1 ++ '*' :: ('*' :: (natNumeral e1 ++ ')' :: r1)) =
        n2 ++ '*' :: ('*' :: (natNumeral e2 ++ ')' :: r2)) := by
      simpa using heq
    have hsp := append_sep_inj (legalName_no_star h1) (legalName_no_star h2) heq2
    have hsp2 := (List.cons.inj hsp.2).2
    have hsp3 := append_sep_inj (natNumeral_no_rparen e1) (natNumeral_no_rparen e2) hsp2
    have hee := natNumeral_inj hsp3.1
    simp [hsp.1, hee, hsp3.2]

theorem sigList_ne_nil {l : List VarPower}
    (h : ∀ u ∈ l, legalName u.var_name ∧ u.var_name ≠ []) (hne : l ≠ []) :
    joinSep '*' (l.map VarPower.sig) ≠ [] := by
  cases l with
  | nil => exact absurd rfl hne
  | cons vp r =>
    cases r with
    | nil =>
      simp only [List.map_cons, List.map_nil]
      rw [joinSep]
      exact vpSig_ne_nil (h vp (List.mem_cons_self _ _)).2
    | cons b bs =>
      simp only [List.map_cons]
      rw [joinSep_two _ _ _ (by simp)]
      simp

theorem sigJoin_cons (vp : VarPower) (r : List VarPower) :
    joinSep '*' ((vp :: r).map VarPower.sig) =
      vp.sig ++ (if r = [] then [] else '*' :: joinSep '*' (r.map VarPower.sig)) := by
  cases r with
  | nil =>
    simp only [List.map_cons, List.map_nil]
    rw [joinSep.eq_2]
    simp
  | cons b bs =>
    simp only [List.map_cons]
    rw [joinSep_two _ _ _ (by simp)]
    simp

theorem sigList_inj : ∀ {l1 l2 : List VarPower},
    (∀ u ∈ l1, legalName u.var_name ∧ u.var_name ≠ []) →
    (∀ u ∈ l2, legalName u.var_name ∧ u.var_name ≠ []) →
    l1 ≠ [] → l2 ≠ [] →
    joinSep '*' (l1.map VarPower.sig) = joinSep '*' (l2.map VarPower.sig) →
    l1 = l2 := by
  intro l1
  induction l1 with
  | nil =>
    intro l2 _ _ hne _ _
    exact absurd rfl hne
  | cons vp1 r1 ih =>
    intro l2 h1 h2 _ hne2 heq
    cases l2 with
    | nil => exact absurd rfl hne2
    | cons vp2 r2 =>
      have hw1 := h1 vp1 (List.mem_cons_self _ _)
      have hw2 := h2 vp2 (List.mem_cons_self _ _)
      rw [sigJoin_cons, sigJoin_cons] at heq
      have hr1 : (if r1 = [] then ([] : Str)
          else '*' :: joinSep '*' (r1.map VarPower.sig)) = [] ∨
          ∃ t, (if r1 = [] then ([] : Str)
          else '*' :: joinSep '*' (r1.map VarPower.sig)) = '*' :: t := by
        by_cases h : r1 = [] <;> simp [h]
      have hr2 : (if r2 = [] then ([] : Str)
          else '*' :: joinSep '*' (r2.map VarPower.sig)) = [] ∨
          ∃ t, (if r2 = [] then ([] : Str)
          else '*' :: joinSep '*' (r2.map VarPower.sig)) = '*' :: t := by
        by_cases h : r2 = [] <;> simp [h]
      have hsp := vpSig_append_inj hw1.1 hw1.2 hw2.1 hw2.2 hr1 hr2 heq
      have htails := hsp.2
      cases r1 with
      | nil =>
        cases r2 with
        | nil => rw [hsp.1]
        | cons b2 bs2 => simp at htails
      | cons b1 bs1 =>
        cases r2 with
        | nil => simp at htails
        | cons b2 bs2 =>
          simp only [if_neg (by simp : ¬ (b1 :: bs1 : List VarPower) = []),
            if_neg (by simp : ¬ (b2 :: bs2 : List VarPower) = []),
            List.cons.injEq, true_and] at htails
          have htail := ih (fun u hu => h1 u (List.mem_cons_of_mem _ hu))
            (fun u hu => h2 u (List.mem_cons_of_mem _ hu)) (by simp) (by simp) htails
          rw [hsp.1, htail]

/-- With nonempty legal variable names a term signature determines the
factor list. -/
theorem vps_eq_of_sig_eq {t1 t2 : Term}
    (h1 : ∀ u ∈ t1.var_powers, legalName u.var_name ∧ u.var_name ≠ [])
    (h2 : ∀ u ∈ t2.var_powers, legalName u.var_name ∧ u.var_name ≠ [])
    (h : t1.sig = t2.sig) : t1.var_powers = t2.var_powers := by
  rw [Term.sig, Term.sig] at h
  by_cases hn1 : t1.var_powers = []
  · by_cases hn2 : t2.var_powers = []
    · rw [hn1, hn2]
    · rw [hn1] at h
      simp only [List.map_nil] at h
      rw [joinSep] at h
      exact absurd h.symm (sigList_ne_nil h2 hn2)
  · by_cases hn2 : t2.var_powers = []
    · rw [hn2] at h
      simp only [List.map_nil] at h
      rw [joinSep] at h
      exact absurd h (sigList_ne_nil h1 hn1)
    · exact sigList_inj h1 h2 hn1 hn2 h

theorem termGoodNames {t : Term} (hw : TermWF t) (hn : NamesNonempty t) :
    ∀ u ∈ t.var_powers, legalName u.var_name ∧ u.var_name ≠ [] :=
  fun u hu => ⟨(hw.2 u hu).1, hn u hu⟩

/-! ### Exponent maps -/

theorem vpsF_nil : vpsF [] = 0 := by
  simp [vpsF]

theorem vpsF_cons (vp : VarPower) (rest : List VarPower) :
    vpsF (vp :: rest) = Finsupp.single vp.var_name vp.exponent + vpsF rest := by
  simp [vpsF]

theorem vpsF_apply_not_mem : ∀ {vps : List VarPower} {v : Str},
    (∀ vp ∈ vps, vp.var_name ≠ v) → vpsF vps v = 0 := by
  intro vps
  induction vps with
  | nil =>
    intro v _
    simp [vpsF]
  | cons vp rest ih =>
    intro v h
    rw [vpsF_cons, Finsupp.add_apply, Finsupp.single_apply,
      if_neg (h vp (List.mem_cons_self _ _)), zero_add]
    exact ih (fun u hu => h u (List.mem_cons_of_mem _ hu))

theorem lexLtB_ne {α : Type} [LinearOrder α] {a b : List α} (h : lexLtB a b = true) :
    a ≠ b := by
  intro hab
  subst hab
  rw [lexLtB_irrefl] at h
  exact Bool.noConfusion h

/-- Strictly name-sorted factor lists with positive exponents are
determined by their exponent map. -/
theorem vps_eq_of_vpsF : ∀ {l1 l2 : List VarPower},
    List.Pairwise (fun a b : VarPower => strLtB a.var_name b.var_name = true) l1 →
    List.Pairwise (fun a b : VarPower => strLtB a.var_name b.var_name = true) l2 →
    (∀ vp ∈ l1, 1 ≤ vp.exponent) → (∀ vp ∈ l2, 1 ≤ vp.exponent) →
    (∀ v, vpsF l1 v = vpsF l2 v) → l1 = l2 := by
  intro l1
  induction l1 with
  | nil =>
    intro l2 _ hs2 _ he2 hdeg
    cases l2 with
    | nil => rfl
    | cons vp2 r2 =>
      have h2 := hdeg vp2.var_name
      rw [vpsF_nil, vpsF_cons, Finsupp.add_apply, Finsupp.single_apply, if_pos rfl,
        vpsF_apply_not_mem (fun u hu =>
          lexLtB_ne ((List.pairwise_cons.mp hs2).1 u hu) ∘ Eq.symm)] at h2
      have := he2 vp2 (List.mem_cons_self _ _)
      simp at h2
      omega
  | cons vp1 r1 ih =>
    intro l2 hs1 hs2 he1 he2 hdeg
    cases l2 with
    | nil =>
      have h1 := hdeg vp1.var_name
      rw [vpsF_nil, vpsF_cons, Finsupp.add_apply, Finsupp.single_apply, if_pos rfl,
        vpsF_apply_not_mem (fun u hu =>
          lexLtB_ne ((List.pairwise_cons.mp hs1).1 u hu) ∘ Eq.symm)] at h1
      have := he1 vp1 (List.mem_cons_self _ _)
      simp at h1
      omega
    | cons vp2 r2 =>
      rcases List.pairwise_cons.mp hs1 with ⟨hh1, ht1⟩
      rcases List.pairwise_cons.mp hs2 with ⟨hh2, ht2⟩
      rcases lexLtB_total vp1.var_name vp2.var_name with hlt | hlt | heqn
      · exfalso
        have h1 := hdeg vp1.var_name
        rw [vpsF_cons, Finsupp.add_apply, Finsupp.single_apply, if_pos rfl,
          vpsF_apply_not_mem (fun u hu =>
            lexLtB_ne (hh1 u hu) ∘ Eq.symm)] at h1
        rw [vpsF_cons, Finsupp.add_apply, Finsupp.single_apply,
          if_neg (fun h => lexLtB_ne hlt h.symm),
          vpsF_apply_not_mem (fun u hu => fun h =>
            lexLtB_ne (lexLtB_trans hlt (hh2 u hu)) h.symm)] at h1
        have := he1 vp1 (List.mem_cons_self _ _)
        simp at h1
        omega
      · exfalso
        have h1 := hdeg vp2.var_name
        rw [vpsF_cons, Finsupp.add_apply, Finsupp.single_apply,
          if_neg (fun h => lexLtB_ne hlt h.symm),
          vpsF_apply_not_mem (fun u hu => fun h =>
            lexLtB_ne (lexLtB_trans hlt (hh1 u hu)) h.symm)] at h1
        rw [vpsF_cons, Finsupp.add_apply, Finsupp.single_apply, if_pos rfl,
          vpsF_apply_not_mem (fun u hu =>
            lexLtB_ne (hh2 u hu) ∘ Eq.symm)] at h1
        have := he2 vp2 (List.mem_cons_self _ _)
        simp at h1
        omega
      · have hexp : vp1.exponent = vp2.exponent := by
          have h1 := hdeg vp1.var_name
          rw [vpsF_cons, Finsupp.add_apply, Finsupp.single_apply, if_pos rfl,
            vpsF_apply_not_mem (fun u hu =>
              lexLtB_ne (hh1 u hu) ∘ Eq.symm)] at h1
          rw [vpsF_cons, Finsupp.add_apply, Finsupp.single_apply, heqn, if_pos rfl,
            vpsF_apply_not_mem (fun u hu =>
              lexLtB_ne (hh2 u hu) ∘ Eq.symm)] at h1
          omega
        have hhead : vp1 = vp2 := by
          obtain ⟨n1, e1⟩ := vp1
          obtain ⟨n2, e2⟩ := vp2
          simp only at heqn hexp
          rw [heqn, hexp]
        have htails : ∀ v, vpsF r1 v = vpsF r2 v := by
          intro v
          by_cases hv : vp1.var_name = v
          · rw [vpsF_apply_not_mem (fun u hu => fun h =>
              lexLtB_ne (hh1 u hu) (hv ▸ h.symm)),
              vpsF_apply_not_mem (fun u hu => fun h =>
              lexLtB_ne (hh2 u hu) ((heqn ▸ hv) ▸ h.symm))]
          · have h1 := hdeg v
            rw [vpsF_cons, vpsF_cons, Finsupp.add_apply, Finsupp.add_apply,
              Finsupp.single_apply, Finsupp.single_apply, if_neg hv,
              if_neg (heqn ▸ hv)] at h1
            simpa using h1
        rw [hhead, ih ht1 ht2 (fun u hu => he1 u (List.mem_cons_of_mem _ hu))
          (fun u hu => he2 u (List.mem_cons_of_mem _ hu)) htails]

/-! ### Content algebra -/

theorem termMv_zero_coeff {t : Term} (h : t.coeff = 0) : termMv t = 0 := by
  simp [termMv, h]

theorem content_nil : content [] = 0 := by
  simp [content]

theorem content_cons (t : Term) (ts : List Term) :
    content (t :: ts) = termMv t + content ts := by
  simp [content]

theorem content_append (a b : List Term) : content (a ++ b) = content a + content b := by
  simp [content]

theorem content_perm {a b : List Term} (h : a.Perm b) : content a = content b :=
  List.Perm.sum_eq (h.map termMv)

theorem content_filter_ne_zero (ts : List Term) :
    content (ts.filter (fun t => decide (¬ t.coeff = 0))) = content ts := by
  induction ts with
  | nil => rfl
  | cons t rest ih =>
    by_cases h : t.coeff = 0
    · rw [List.filter_cons, if_neg (by simp [h]), ih, content_cons,
        termMv_zero_coeff h, zero_add]
    · rw [List.filter_cons, if_pos (by simp [h]), content_cons, content_cons, ih]

theorem content_sumTerms : ∀ (t : Term) (r : List Term),
    (∀ u ∈ r, u.var_powers = t.var_powers) →
    termMv (Term.sumTerms (t :: r)) = content (t :: r) := by
  intro t r
  induction r generalizing t with
  | nil =>
    intro _
    rw [content_cons, content_nil, add_zero, Term.sumTerms]
    rfl
  | cons u r2 ih =>
    intro hvps
    have hstep : Term.sumTerms (t :: u :: r2) =
        Term.sumTerms (Term.mk (t.coeff + u.coeff) t.var_powers :: r2) := by
      rw [Term.sumTerms, Term.sumTerms]
      rfl
    rw [hstep, ih (Term.mk (t.coeff + u.coeff) t.var_powers)
      (fun w hw => hvps w (List.mem_cons_of_mem _ hw))]
    rw [content_cons, content_cons, content_cons]
    rw [← add_assoc]
    congr 1
    rw [termMv, termMv, termMv]
    simp only
    rw [hvps u (List.mem_cons_self _ _), map_add]

theorem content_groups : ∀ {gs : List (List Term)},
    (∀ g ∈ gs, ∃ t r, g = t :: r ∧ ∀ u ∈ r, u.var_powers = t.var_powers) →
    content (gs.map Term.sumTerms) = content gs.flatten := by
  intro gs
  induction gs with
  | nil =>
    intro _
    rfl
  | cons g gs2 ih =>
    intro h
    rcases h g (List.mem_cons_self _ _) with ⟨t, r, rfl, hvps⟩
    rw [List.map_cons, List.flatten_cons, content_cons, content_append,
      content_sumTerms t r hvps, ih (fun g2 hg2 => h g2 (List.mem_cons_of_mem _ hg2))]

/-- Reconstruction preserves content: the canonical polynomial built from
any well-formed, nonempty-named term list has the same semantic content. -/
theorem content_mkPoly {ts : List Term}
    (h : ∀ t ∈ ts, TermWF t ∧ NamesNonempty t) :
    content (Poly.mkPoly ts).terms = content ts := by
  rw [content_perm (mkPoly_perm_simplify ts), simplify_eq, content_filter_ne_zero]
  have hshape : ∀ g ∈ Poly.groupBySig ts,
      ∃ t r, g = t :: r ∧ ∀ u ∈ r, u.var_powers = t.var_powers := by
    intro g hg
    rcases groupBySig_shape hg with ⟨t, r, rfl, hsig⟩
    refine ⟨t, r, rfl, fun u hu => ?_⟩
    have hu2 := h u (groupBySig_mem_sub hg u (List.mem_cons_of_mem _ hu))
    have ht2 := h t (groupBySig_mem_sub hg t (List.mem_cons_self _ _))
    exact vps_eq_of_sig_eq (termGoodNames hu2.1 hu2.2) (termGoodNames ht2.1 ht2.2)
      (hsig u hu)
  rw [content_groups hshape, content_perm (groupBySig_flatten_perm ts)]

/-! ### Well-formedness through reconstruction -/

theorem termWF_of_vps_eq {t u : Term} (h : t.var_powers = u.var_powers)
    (hu : TermWF u) : TermWF t := by
  unfold TermWF at hu ⊢
  rw [h]
  exact hu

theorem namesNonempty_of_vps_eq {t u : Term} (h : t.var_powers = u.var_powers)
    (hu : NamesNonempty u) : NamesNonempty t := by
  unfold NamesNonempty at hu ⊢
  rw [h]
  exact hu

theorem mkPoly_wf {ts : List Term} (h : ∀ t ∈ ts, TermWF t) :
    PolyWF (Poly.mkPoly ts) := by
  refine ⟨mkPoly_inv ts, fun t ht => ?_⟩
  rcases mkPoly_vps ht with ⟨u, hu, hvp⟩
  exact termWF_of_vps_eq hvp (h u hu)

theorem mkPoly_good {ts : List Term} (h : ∀ t ∈ ts, TermWF t ∧ NamesNonempty t) :
    PolyGood (Poly.mkPoly ts) := by
  refine ⟨mkPoly_wf (fun t ht => (h t ht).1), fun t ht => ?_⟩
  rcases mkPoly_vps ht with ⟨u, hu, hvp⟩
  exact namesNonempty_of_vps_eq hvp (h u hu).2

/-! ### Degrees and sort keys -/

theorem degree_of_var_cons (c : ℤ) (vp : VarPower) (rest : List VarPower) (v : Str) :
    Term.degree_of_var ⟨c, vp :: rest⟩ v =
      if vp.var_name = v then vp.exponent else Term.degree_of_var ⟨c, rest⟩ v := by
  rw [Term.degree_of_var]
  by_cases h : vp.var_name = v
  · rw [List.find?_cons_of_pos _ (by simpa using h), if_pos h]
  · rw [List.find?_cons_of_neg _ (by simpa using h), if_neg h, Term.degree_of_var]

theorem vpsF_eq_degree {t : Term}
    (hw : List.Pairwise (fun a b : VarPower => strLtB a.var_name b.var_name = true)
      t.var_powers) (v : Str) :
    vpsF t.var_powers v = t.degree_of_var v := by
  obtain ⟨c, l⟩ := t
  simp only at hw ⊢
  induction l with
  | nil =>
    rw [vpsF_nil, Term.degree_of_var]
    rfl
  | cons vp rest ih =>
    rcases List.pairwise_cons.mp hw with ⟨hhead, htail⟩
    rw [vpsF_cons, degree_of_var_cons, Finsupp.add_apply, Finsupp.single_apply]
    by_cases h : vp.var_name = v
    · rw [if_pos h, if_pos h, vpsF_apply_not_mem (fun u hu => fun he =>
        lexLtB_ne (hhead u hu) (h ▸ he.symm)), add_zero]
    · rw [if_neg h, if_neg h, zero_add]
      exact ih htail

theorem name_mem_allNames {ts : List Term} {t : Term} (ht : t ∈ ts) {vp : VarPower}
    (hvp : vp ∈ t.var_powers) : vp.var_name ∈ Poly.allNames ts :=
  List.mem_flatten.mpr ⟨t.var_names, List.mem_map.mpr ⟨t, ht, rfl⟩,
    List.mem_map.mpr ⟨vp, hvp, rfl⟩⟩

theorem map_eq_imp {α β : Type} : ∀ {l : List α} {f g : α → β},
    l.map f = l.map g → ∀ x ∈ l, f x = g x := by
  intro l
  induction l with
  | nil =>
    intro f g _ x hx
    simp at hx
  | cons a as ih =>
    intro f g h x hx
    simp only [List.map_cons, List.cons.injEq] at h
    rcases List.mem_cons.mp hx with rfl | hx2
    · exact h.1
    · exact ih h.2 x hx2

/-- On an invariant-respecting, well-formed polynomial the descending
order of terms is strict: later terms have strictly smaller sort keys. -/
theorem strict_of_wf {p : Poly} (hwf : PolyWF p) :
    List.Pairwise (fun a b : Term =>
      keyLtB (Poly.sort_key b (Poly.variablesSorted p.terms))
        (Poly.sort_key a (Poly.variablesSorted p.terms)) = true) p.terms := by
  obtain ⟨⟨hnodup, _, hsort⟩, hwfterms⟩ := hwf
  have hsig : List.Pairwise (fun a b : Term => a.sig ≠ b.sig) p.terms :=
    (List.pairwise_map).mp hnodup
  have hcomb := hsort.and hsig
  refine hcomb.imp_of_mem ?_
  intro a b ha hb hab
  rcases hab with ⟨hord, hne⟩
  by_cases hba : keyLtB (Poly.sort_key b (Poly.variablesSorted p.terms))
      (Poly.sort_key a (Poly.variablesSorted p.terms)) = true
  · exact hba
  · exfalso
    have hkeys : Poly.sort_key a (Poly.variablesSorted p.terms) =
        Poly.sort_key b (Poly.variablesSorted p.terms) :=
      lexLtB_eq_of_not_lt hord (Bool.eq_false_iff.mpr hba)
    have hdeg : ∀ v, vpsF a.var_powers v = vpsF b.var_powers v := by
      intro v
      by_cases hv : v ∈ Poly.variablesSorted p.terms
      · have := map_eq_imp hkeys v hv
        rw [vpsF_eq_degree (hwfterms a ha).1, vpsF_eq_degree (hwfterms b hb).1]
        exact this
      · rw [vpsF_apply_not_mem, vpsF_apply_not_mem]
        · intro vp hvp hname
          exact hv (hname ▸ (mem_variablesSorted _ _).mpr (name_mem_allNames hb hvp))
        · intro vp hvp hname
          exact hv (hname ▸ (mem_variablesSorted _ _).mpr (name_mem_allNames ha hvp))
    have hvps : a.var_powers = b.var_powers :=
      vps_eq_of_vpsF (hwfterms a ha).1 (hwfterms b hb).1
        (fun vp hvp => ((hwfterms a ha).2 vp hvp).2)
        (fun vp hvp => ((hwfterms b hb).2 vp hvp).2) hdeg
    exact hne (by rw [Term.sig, Term.sig, hvps])

/-! ### Content determines the canonical polynomial -/

theorem coeff_content (m : Str →₀ ℕ) : ∀ ts : List Term,
    MvPolynomial.coeff m (content ts) =
      ((ts.map (fun t => if vpsF t.var_powers = m then t.coeff else 0)).sum) := by
  intro ts
  induction ts with
  | nil =>
    rw [content_nil]
    simp
  | cons t rest ih =>
    rw [content_cons, MvPolynomial.coeff_add, ih]
    simp only [List.map_cons, List.sum_cons]
    rw [termMv, MvPolynomial.coeff_monomial]

theorem sum_if_single {β : Type} [DecidableEq β] :
    ∀ {ts : List Term} {t : Term} {f : Term → β} {m : β},
    ts.Nodup → t ∈ ts → f t = m → (∀ u ∈ ts, f u = m → u = t) →
    ((ts.map (fun u => if f u = m then u.coeff else 0)).sum) = t.coeff := by
  intro ts
  induction ts with
  | nil =>
    intro t f m _ ht
    simp at ht
  | cons a rest ih =>
    intro t f m hnodup ht hft huniq
    simp only [List.map_cons, List.sum_cons]
    rcases List.mem_cons.mp ht with rfl | ht2
    · rw [if_pos hft]
      have hrest : ∀ u ∈ rest, ¬ (f u = m) := by
        intro u hu hfu
        have := huniq u (List.mem_cons_of_mem _ hu) hfu
        subst this
        exact (List.nodup_cons.mp hnodup).1 hu
      have : ((rest.map (fun u => if f u = m then u.coeff else 0)).sum) = 0 := by
        apply List.sum_eq_zero
        intro x hx
        rcases List.mem_map.mp hx with ⟨u, hu, rfl⟩
        rw [if_neg (hrest u hu)]
      rw [this, add_zero]
    · have hfa : ¬ (f a = m) := by
        intro hfa
        have := huniq a (List.mem_cons_self _ _) hfa
        subst this
        exact (List.nodup_cons.mp hnodup).1 ht2
      rw [if_neg hfa, zero_add]
      exact ih (List.nodup_cons.mp hnodup).2 ht2 hft
        (fun u hu hfu => huniq u (List.mem_cons_of_mem _ hu) hfu)

theorem mem_terms_unique {p : Poly} (hwf : PolyWF p) {a b : Term}
    (ha : a ∈ p.terms) (hb : b ∈ p.terms)
    (hf : vpsF a.var_powers = vpsF b.var_powers) : a.var_powers = b.var_powers :=
  vps_eq_of_vpsF (hwf.2 a ha).1 (hwf.2 b hb).1
    (fun vp hvp => ((hwf.2 a ha).2 vp hvp).2)
    (fun vp hvp => ((hwf.2 b hb).2 vp hvp).2) (fun v => by rw [hf])

theorem coeff_content_of_mem {p : Poly} (hwf : PolyWF p) {t : Term}
    (ht : t ∈ p.terms) :
    MvPolynomial.coeff (vpsF t.var_powers) (content p.terms) = t.coeff := by
  rw [coeff_content]
  have hnodupsig := hwf.1.1
  refine sum_if_single (List.Nodup.of_map _ hnodupsig) ht rfl ?_
  intro u hu hfu
  have hvps := mem_terms_unique hwf hu ht hfu
  exact List.inj_on_of_nodup_map hnodupsig hu ht (by rw [Term.sig, Term.sig, hvps])

theorem mem_of_content_coeff {p : Poly} (hwf : PolyWF p) {m : Str →₀ ℕ}
    (h : MvPolynomial.coeff m (content p.terms) ≠ 0) :
    ∃ u ∈ p.terms, vpsF u.var_powers = m := by
  rw [coeff_content] at h
  by_contra habs
  push_neg at habs
  refine h (List.sum_eq_zero ?_)
  intro x hx
  rcases List.mem_map.mp hx with ⟨u, hu, rfl⟩
  rw [if_neg (habs u hu)]

/-- Two invariant-respecting polynomials with equal semantic content are
equal. -/
theorem poly_eq_of_content {P Q : Poly} (hP : PolyWF P) (hQ : PolyWF Q)
    (h : content P.terms = content Q.terms) : P = Q := by
  have hmem : ∀ t, t ∈ P.terms ↔ t ∈ Q.terms := by
    have half : ∀ {A B : Poly}, PolyWF A → PolyWF B →
        content A.terms = content B.terms → ∀ t, t ∈ A.terms → t ∈ B.terms := by
      intro A B hA hB hAB t ht
      have hc := coeff_content_of_mem hA ht
      have hne : MvPolynomial.coeff (vpsF t.var_powers) (content B.terms) ≠ 0 := by
        rw [← hAB, hc]
        exact hA.1.2.1 t ht
      rcases mem_of_content_coeff hB hne with ⟨u, hu, hfu⟩
      have hvps : u.var_powers = t.var_powers :=
        vps_eq_of_vpsF (hB.2 u hu).1 (hA.2 t ht).1
          (fun vp hvp => ((hB.2 u hu).2 vp hvp).2)
          (fun vp hvp => ((hA.2 t ht).2 vp hvp).2) (fun v => by rw [hfu])
      have hcu : u.coeff = t.coeff := by
        have := coeff_content_of_mem hB hu
        rw [hfu, ← hAB, hc] at this
        exact this.symm
      have : u = t := by
        obtain ⟨cu, vu⟩ := u
        obtain ⟨ct, vt⟩ := t
        simp only at hvps hcu
        rw [hvps, hcu]
      exact this ▸ hu
    intro t
    exact ⟨half hP hQ h t, half hQ hP h.symm t⟩
  have hnodupP : P.terms.Nodup := List.Nodup.of_map _ hP.1.1
  have hnodupQ : Q.terms.Nodup := List.Nodup.of_map _ hQ.1.1
  have hperm : P.terms.Perm Q.terms :=
    (List.perm_ext_iff_of_nodup hnodupP hnodupQ).mpr hmem
  have hvars : Poly.variablesSorted P.terms = Poly.variablesSorted Q.terms :=
    variablesSorted_eq_of_mem_iff (allNames_mem_iff_of_perm hperm)
  have hsortP := strict_of_wf hP
  have hsortQ := strict_of_wf hQ
  rw [← hvars] at hsortQ
  have hterms : P.terms = Q.terms := by
    refine @List.eq_of_perm_of_sorted Term
      (fun a b : Term =>
        keyLtB (Poly.sort_key b (Poly.variablesSorted P.terms))
          (Poly.sort_key a (Poly.variablesSorted P.terms)) = true)
      ⟨fun a b hab hba => absurd (lexLtB_trans hab hba)
        (by rw [lexLtB_irrefl]; exact fun hc => Bool.noConfusion hc)⟩
      _ _ hperm hsortP hsortQ
  obtain ⟨tsP⟩ := P
  obtain ⟨tsQ⟩ := Q
  simp only at hterms
  rw [hterms]

/-! ### Canonicalization is idempotent -/

theorem sumTerms_single (t : Term) : Term.sumTerms [t] = t := by
  obtain ⟨c, v⟩ := t
  rw [Term.sumTerms]
  rfl

theorem groupBySig_of_nodup : ∀ {ts : List Term},
    ((ts.map Term.sig).Nodup) → Poly.groupBySig ts = ts.map (fun t => [t]) := by
  intro ts
  induction ts using Poly.groupBySig.induct with
  | case1 =>
    intro _
    rw [Poly.groupBySig]
    rfl
  | case2 t rest ih =>
    intro hnodup
    rw [Poly.groupBySig]
    have hns : (∀ x ∈ rest, ¬ x.sig = t.sig) ∧ (rest.map Term.sig).Nodup := by
      simpa using hnodup
    have hfilter : rest.filter (fun u => decide (u.sig = t.sig)) = [] := by
      rw [List.filter_eq_nil_iff]
      intro u hu
      simp only [decide_eq_true_eq]
      exact hns.1 u hu
    have hfilter2 : rest.filter (fun u => decide (¬ u.sig = t.sig)) = rest := by
      rw [List.filter_eq_self]
      intro u hu
      simp only [decide_eq_true_eq]
      exact hns.1 u hu
    rw [hfilter, hfilter2, List.map_cons]
    congr 1
    have ih2 := ih (by rw [hfilter2]; exact hns.2)
    rw [hfilter2] at ih2
    exact ih2

theorem simplify_of_canonical {ts : List Term} (hnodup : (ts.map Term.sig).Nodup)
    (hnz : ∀ t ∈ ts, t.coeff ≠ 0) : Poly.simplify ts = ts := by
  rw [simplify_eq, groupBySig_of_nodup hnodup, List.map_map]
  have hmap : ts.map (Term.sumTerms ∘ fun t => [t]) = ts := by
    have : ∀ t ∈ ts, (Term.sumTerms ∘ fun t => [t]) t = id t := by
      intro t _
      simp only [Function.comp]
      rw [sumTerms_single]
      rfl
    rw [List.map_congr_left this, List.map_id]
  rw [hmap, List.filter_eq_self]
  intro t ht
  simpa using hnz t ht

/-- Reconstruction from the terms of an invariant-respecting polynomial
returns the polynomial unchanged. -/
theorem mkPoly_id {p : Poly} (h : PolyWF p) : Poly.mkPoly p.terms = p := by
  obtain ⟨⟨hnodup, hnz, hsort⟩, _⟩ := h
  rw [Poly.mkPoly, simplify_of_canonical hnodup hnz, put_terms_in_order_eq,
    List.Sorted.insertionSort_eq hsort]

/-! ### The factor-dictionary merge of `multiply_terms` -/

theorem pairLe_total (p q : Str × ℕ) : Term.pairLe p q ∨ Term.pairLe q p := by
  rcases lexLtB_total p.1 q.1 with h | h | h
  · exact Or.inl (Or.inl h)
  · exact Or.inr (Or.inl h)
  · by_cases he : p.2 ≤ q.2
    · exact Or.inl (Or.inr ⟨h, he⟩)
    · exact Or.inr (Or.inr ⟨h.symm, by omega⟩)

theorem pairLe_trans {p q r : Str × ℕ} (h1 : Term.pairLe p q) (h2 : Term.pairLe q r) :
    Term.pairLe p r := by
  rcases h1 with h1 | ⟨h1e, h1le⟩
  · rcases h2 with h2 | ⟨h2e, _⟩
    · exact Or.inl (lexLtB_trans h1 h2)
    · exact Or.inl (h2e ▸ h1)
  · rcases h2 with h2 | ⟨h2e, h2le⟩
    · exact Or.inl (h1e ▸ h2)
    · exact Or.inr ⟨h1e.trans h2e, le_trans h1le h2le⟩

theorem vpsF_apply : ∀ (vps : List VarPower) (v : Str),
    vpsF vps v = ((vps.map (fun vp => if vp.var_name = v then vp.exponent else 0)).sum) := by
  intro vps v
  induction vps with
  | nil => simp [vpsF]
  | cons vp rest ih =>
    rw [vpsF_cons, Finsupp.add_apply, Finsupp.single_apply, List.map_cons,
      List.sum_cons, ih]

theorem pairTotal_append (a b : List (Str × ℕ)) (v : Str) :
    pairTotal (a ++ b) v = pairTotal a v + pairTotal b v := by
  simp [pairTotal]

theorem pairTotal_perm {a b : List (Str × ℕ)} (h : a.Perm b) (v : Str) :
    pairTotal a v = pairTotal b v :=
  List.Perm.sum_eq (h.map _)

theorem map_update_eq_self {ps : List (Str × ℕ)} {k : Str} {e : ℕ}
    (h : ∀ p ∈ ps, p.1 ≠ k) :
    ps.map (fun p => if p.1 = k then (p.1, p.2 + e) else p) = ps := by
  have hcg : ∀ p ∈ ps,
      (fun p : Str × ℕ => if p.1 = k then (p.1, p.2 + e) else p) p = id p := by
    intro p hp
    simp [h p hp]
  rw [List.map_congr_left hcg, List.map_id]

theorem upd_keys (ps : List (Str × ℕ)) (q : Str × ℕ) :
    (ps.map (fun p => if p.1 = q.1 then (p.1, p.2 + q.2) else p)).map Prod.fst =
      ps.map Prod.fst := by
  rw [List.map_map]
  apply List.map_congr_left
  intro p _
  by_cases hk : p.1 = q.1 <;> simp [hk]

theorem addPair_keys_nodup {ps : List (Str × ℕ)} {q : Str × ℕ}
    (h : (ps.map Prod.fst).Nodup) : ((Term.addPair ps q).map Prod.fst).Nodup := by
  rw [Term.addPair]
  by_cases hany : ps.any (fun p => decide (p.1 = q.1)) = true
  · rw [if_pos hany, upd_keys]
    exact h
  · rw [if_neg hany, List.map_append]
    refine List.Nodup.append h (by simp) ?_
    intro k hk1 hk2
    simp only [List.map_cons, List.map_nil, List.mem_singleton] at hk2
    subst hk2
    rcases List.mem_map.mp hk1 with ⟨p, hp, hfst⟩
    refine hany ?_
    rw [List.any_eq_true]
    exact ⟨p, hp, by simp [hfst]⟩

theorem pairTotal_addPair : ∀ {ps : List (Str × ℕ)} (q : Str × ℕ),
    (ps.map Prod.fst).Nodup → ∀ v,
    pairTotal (Term.addPair ps q) v =
      pairTotal ps v + (if q.1 = v then q.2 else 0) := by
  intro ps
  induction ps with
  | nil =>
    intro q _ v
    rw [Term.addPair]
    simp [pairTotal]
  | cons p ps2 ih =>
    intro q hnodup v
    have hnd := hnodup
    rw [List.map_cons, List.nodup_cons] at hnd
    rw [Term.addPair]
    by_cases hk : p.1 = q.1
    · rw [if_pos (by simp [List.any_cons, hk])]
      have htail : ∀ u ∈ ps2, u.1 ≠ q.1 := by
        intro u hu hq
        exact hnd.1 (List.mem_map.mpr ⟨u, hu, by rw [hq, ← hk]⟩)
      rw [List.map_cons, if_pos hk, map_update_eq_self htail]
      rw [pairTotal, pairTotal, List.map_cons, List.sum_cons, List.map_cons,
        List.sum_cons]
      by_cases hv : p.1 = v
      · rw [if_pos hv, if_pos hv, if_pos (hk.symm.trans hv)]
        omega
      · rw [if_neg hv, if_neg hv, if_neg (fun h => hv (hk.trans h))]
        omega
    · have hcond : ((p :: ps2).any (fun x => decide (x.1 = q.1))) =
          (ps2.any (fun x => decide (x.1 = q.1))) := by
        simp [List.any_cons, hk]
      by_cases hany : ps2.any (fun x => decide (x.1 = q.1)) = true
      · rw [if_pos (by rw [hcond]; exact hany)]
        rw [List.map_cons, if_neg hk]
        have ih2 := ih q hnd.2 v
        rw [Term.addPair, if_pos hany] at ih2
        simp only [pairTotal, List.map_cons, List.sum_cons] at ih2 ⊢
        omega
      · rw [if_neg (by rw [hcond]; simpa using hany)]
        rw [pairTotal_append]
        simp [pairTotal]

theorem foldl_addPair_total : ∀ {v2 : List VarPower} {d : List (Str × ℕ)},
    ((d.map Prod.fst).Nodup) → ∀ v,
    pairTotal (v2.foldl (fun ps vp => Term.addPair ps (vp.var_name, vp.exponent)) d) v =
      pairTotal d v + vpsF v2 v := by
  intro v2
  induction v2 with
  | nil =>
    intro d _ v
    rw [vpsF_nil]
    simp
  | cons vp rest ih =>
    intro d hnodup v
    rw [List.foldl_cons, ih (addPair_keys_nodup hnodup) v,
      pairTotal_addPair _ hnodup v, vpsF_cons, Finsupp.add_apply,
      Finsupp.single_apply]
    have hfst : ((vp.var_name, vp.exponent).1) = vp.var_name := rfl
    have hsnd : ((vp.var_name, vp.exponent).2) = vp.exponent := rfl
    rw [hfst, hsnd]
    omega

theorem foldl_addPair_keys_nodup : ∀ {v2 : List VarPower} {d : List (Str × ℕ)},
    ((d.map Prod.fst).Nodup) →
    (((v2.foldl (fun ps vp => Term.addPair ps (vp.var_name, vp.exponent)) d)).map
      Prod.fst).Nodup := by
  intro v2
  induction v2 with
  | nil =>
    intro d h
    exact h
  | cons vp rest ih =>
    intro d h
    rw [List.foldl_cons]
    exact ih (addPair_keys_nodup h)

theorem setPair_not_mem {ps : List (Str × ℕ)} {q : Str × ℕ}
    (h : ∀ p ∈ ps, p.1 ≠ q.1) : Term.setPair ps q = ps ++ [q] := by
  rw [Term.setPair, if_neg]
  rw [List.any_eq_true]
  rintro ⟨p, hp, hpq⟩
  exact h p hp (by simpa using hpq)

theorem foldl_setPair : ∀ {v1 : List VarPower} {acc : List (Str × ℕ)},
    (∀ vp ∈ v1, ∀ p ∈ acc, p.1 ≠ vp.var_name) →
    ((v1.map VarPower.var_name).Nodup) →
    v1.foldl (fun ps vp => Term.setPair ps (vp.var_name, vp.exponent)) acc =
      acc ++ v1.map (fun vp => (vp.var_name, vp.exponent)) := by
  intro v1
  induction v1 with
  | nil =>
    intro acc _ _
    simp
  | cons vp rest ih =>
    intro acc hdisj hnodup
    simp only [List.map_cons, List.nodup_cons] at hnodup
    rw [List.foldl_cons,
      setPair_not_mem (fun p hp => hdisj vp (List.mem_cons_self _ _) p hp)]
    rw [ih ?_ hnodup.2]
    · simp
    · intro u hu p hp
      rcases List.mem_append.mp hp with hacc | hsingle
      · exact hdisj u (List.mem_cons_of_mem _ hu) p hacc
      · rw [List.mem_singleton] at hsingle
        subst hsingle
        intro heq
        exact hnodup.1 (List.mem_map.mpr ⟨u, hu, heq.symm⟩)

theorem names_nodup_of_pairwise {l : List VarPower}
    (h : List.Pairwise (fun a b : VarPower => strLtB a.var_name b.var_name = true) l) :
    (l.map VarPower.var_name).Nodup :=
  List.Pairwise.map _ (fun _ _ hab => lexLtB_ne hab) h

theorem mergeVps_vpsF {v1 v2 : List VarPower}
    (h1 : (v1.map VarPower.var_name).Nodup) (v : Str) :
    vpsF (Term.mergeVps v1 v2) v = vpsF v1 v + vpsF v2 v := by
  have hd0 : v1.foldl (fun ps vp => Term.setPair ps (vp.var_name, vp.exponent)) [] =
      v1.map (fun vp => (vp.var_name, vp.exponent)) := by
    have := @foldl_setPair v1 [] (by simp) h1
    simpa using this
  have hd0keys : ((v1.map (fun vp => (vp.var_name, vp.exponent))).map Prod.fst).Nodup := by
    rw [List.map_map]
    exact h1
  have hmapmk : ∀ (ps : List (Str × ℕ)),
      vpsF (ps.map (fun p => (⟨p.1, p.2⟩ : VarPower))) v = pairTotal ps v := by
    intro ps
    rw [vpsF_apply, List.map_map, pairTotal]
    congr 1
  have hd0total : pairTotal (v1.map (fun vp => (vp.var_name, vp.exponent))) v =
      vpsF v1 v := by
    rw [pairTotal, List.map_map, vpsF_apply]
    congr 1
  rw [Term.mergeVps, hd0, hmapmk,
    pairTotal_perm (List.perm_insertionSort Term.pairLe _) v,
    foldl_addPair_total hd0keys v, hd0total]

theorem addPair_pred {P : Str × ℕ → Prop}
    (hcl : ∀ (p : Str × ℕ) (e : ℕ), P p → P (p.1, p.2 + e))
    {ps : List (Str × ℕ)} {q : Str × ℕ}
    (hps : ∀ p ∈ ps, P p) (hq : P q) : ∀ p ∈ Term.addPair ps q, P p := by
  intro p hp
  rw [Term.addPair] at hp
  split at hp
  · rcases List.mem_map.mp hp with ⟨u, hu, rfl⟩
    by_cases hk : u.1 = q.1
    · rw [if_pos hk]
      exact hcl u q.2 (hps u hu)
    · rw [if_neg hk]
      exact hps u hu
  · rcases List.mem_append.mp hp with h | h
    · exact hps p h
    · rw [List.mem_singleton] at h
      subst h
      exact hq

theorem foldl_addPair_pred {P : Str × ℕ → Prop}
    (hcl : ∀ (p : Str × ℕ) (e : ℕ), P p → P (p.1, p.2 + e)) :
    ∀ {v2 : List VarPower} {d : List (Str × ℕ)},
    (∀ p ∈ d, P p) → (∀ vp ∈ v2, P (vp.var_name, vp.exponent)) →
    ∀ p ∈ v2.foldl (fun ps vp => Term.addPair ps (vp.var_name, vp.exponent)) d, P p := by
  intro v2
  induction v2 with
  | nil =>
    intro d hd _
    exact hd
  | cons vp rest ih =>
    intro d hd hv2
    rw [List.foldl_cons]
    exact ih (addPair_pred hcl hd (hv2 vp (List.mem_cons_self _ _)))
      (fun u hu => hv2 u (List.mem_cons_of_mem _ hu))

/-- The merged factor list of a product of two well-formed terms is again
strictly name-sorted with well-formed entries. -/
theorem mergeVps_good {v1 v2 : List VarPower}
    (w1 : List.Pairwise (fun a b : VarPower => strLtB a.var_name b.var_name = true) v1)
    (g1 : ∀ vp ∈ v1, legalName vp.var_name ∧ 1 ≤ vp.exponent)
    (g2 : ∀ vp ∈ v2, legalName vp.var_name ∧ 1 ≤ vp.exponent) :
    List.Pairwise (fun a b : VarPower => strLtB a.var_name b.var_name = true)
      (Term.mergeVps v1 v2) ∧
    (∀ vp ∈ Term.mergeVps v1 v2, legalName vp.var_name ∧ 1 ≤ vp.exponent) ∧
    (∀ vp ∈ Term.mergeVps v1 v2,
      vp.var_name ∈ v1.map VarPower.var_name ∨ vp.var_name ∈ v2.map VarPower.var_name) := by
  have h1 : (v1.map VarPower.var_name).Nodup := names_nodup_of_pairwise w1
  have hd0 : v1.foldl (fun ps vp => Term.setPair ps (vp.var_name, vp.exponent)) [] =
      v1.map (fun vp => (vp.var_name, vp.exponent)) := by
    have := @foldl_setPair v1 [] (by simp) h1
    simpa using this
  have hd0keys : ((v1.map (fun vp => (vp.var_name, vp.exponent))).map Prod.fst).Nodup := by
    rw [List.map_map]
    exact h1
  have hpred : ∀ p ∈ (v2.foldl (fun ps vp => Term.addPair ps (vp.var_name, vp.exponent))
      (v1.map (fun vp => (vp.var_name, vp.exponent)))),
      (legalName p.1 ∧ 1 ≤ p.2) ∧
        (p.1 ∈ v1.map VarPower.var_name ∨ p.1 ∈ v2.map VarPower.var_name) := by
    refine foldl_addPair_pred ?_ ?_ ?_
    · rintro p e ⟨⟨hl, he⟩, hm⟩
      exact ⟨⟨hl, by omega⟩, hm⟩
    · intro p hp
      rcases List.mem_map.mp hp with ⟨vp, hvp, rfl⟩
      exact ⟨⟨(g1 vp hvp).1, (g1 vp hvp).2⟩,
        Or.inl (List.mem_map.mpr ⟨vp, hvp, rfl⟩)⟩
    · intro vp hvp
      exact ⟨⟨(g2 vp hvp).1, (g2 vp hvp).2⟩,
        Or.inr (List.mem_map.mpr ⟨vp, hvp, rfl⟩)⟩
  have hkeys : (((v2.foldl (fun ps vp => Term.addPair ps (vp.var_name, vp.exponent))
      (v1.map (fun vp => (vp.var_name, vp.exponent))))).map Prod.fst).Nodup :=
    foldl_addPair_keys_nodup hd0keys
  have hsorted : List.Pairwise Term.pairLe (List.insertionSort Term.pairLe
      (v2.foldl (fun ps vp => Term.addPair ps (vp.var_name, vp.exponent))
        (v1.map (fun vp => (vp.var_name, vp.exponent))))) :=
    @List.sorted_insertionSort (Str × ℕ) Term.pairLe _ ⟨pairLe_total⟩
      ⟨fun _ _ _ => pairLe_trans⟩ _
  have hkeys2 : ((List.insertionSort Term.pairLe
      (v2.foldl (fun ps vp => Term.addPair ps (vp.var_name, vp.exponent))
        (v1.map (fun vp => (vp.var_name, vp.exponent))))).map Prod.fst).Nodup :=
    ((List.perm_insertionSort Term.pairLe _).map Prod.fst).symm.nodup hkeys
  have hne : List.Pairwise (fun a b : Str × ℕ => a.1 ≠ b.1) (List.insertionSort Term.pairLe
      (v2.foldl (fun ps vp => Term.addPair ps (vp.var_name, vp.exponent))
        (v1.map (fun vp => (vp.var_name, vp.exponent))))) :=
    (List.pairwise_map).mp hkeys2
  have hstrict : List.Pairwise (fun a b : Str × ℕ => strLtB a.1 b.1 = true)
      (List.insertionSort Term.pairLe
      (v2.foldl (fun ps vp => Term.addPair ps (vp.var_name, vp.exponent))
        (v1.map (fun vp => (vp.var_name, vp.exponent))))) := by
    refine (hsorted.and hne).imp ?_
    rintro a b ⟨hle, hnab⟩
    rcases hle with h | ⟨heq, _⟩
    · exact h
    · exact absurd heq hnab
  refine ⟨?_, ?_, ?_⟩
  · rw [Term.mergeVps, hd0]
    exact List.Pairwise.map _ (fun _ _ hab => hab) hstrict
  · intro vp hvp
    rw [Term.mergeVps, hd0] at hvp
    rcases List.mem_map.mp hvp with ⟨p, hp, rfl⟩
    have := hpred p ((List.perm_insertionSort Term.pairLe _).mem_iff.mp hp)
    exact this.1
  · intro vp hvp
    rw [Term.mergeVps, hd0] at hvp
    rcases List.mem_map.mp hvp with ⟨p, hp, rfl⟩
    have := hpred p ((List.perm_insertionSort Term.pairLe _).mem_iff.mp hp)
    exact this.2

/-! ### Products of terms -/

theorem is_one_iff (t : Term) : t.is_one = true ↔ t.coeff = 1 ∧ t.var_powers = [] := by
  rw [Term.is_one]
  simp [List.isEmpty_iff]

theorem termMv_one {t : Term} (h : t.is_one = true) : termMv t = 1 := by
  rcases (is_one_iff t).mp h with ⟨hc, hv⟩
  rw [termMv, hv, hc, vpsF_nil, MvPolynomial.monomial_zero']
  simp

theorem termMv_mul {t1 t2 : Term} (h1 : TermWF t1) :
    termMv (Term.multiply_terms t1 t2) = termMv t1 * termMv t2 := by
  rw [Term.multiply_terms]
  by_cases hz : t1.coeff = 0 ∨ t2.coeff = 0
  · rw [if_pos hz]
    have hzero : termMv ⟨0, []⟩ = 0 := by
      simp [termMv]
    rw [hzero, termMv, termMv, MvPolynomial.monomial_mul]
    rcases hz with h | h <;> simp [h]
  · rw [if_neg hz]
    by_cases ho1 : t1.is_one
    · rw [if_pos ho1, termMv_one ho1, one_mul]
    · rw [if_neg ho1]
      by_cases ho2 : t2.is_one
      · rw [if_pos ho2, termMv_one ho2, mul_one]
      · rw [if_neg ho2]
        have hF : vpsF (Term.mergeVps t1.var_powers t2.var_powers) =
            vpsF t1.var_powers + vpsF t2.var_powers := by
          ext v
          rw [Finsupp.add_apply,
            mergeVps_vpsF (names_nodup_of_pairwise h1.1) v]
        rw [termMv, termMv, termMv]
        simp only
        rw [hF, MvPolynomial.monomial_mul]

theorem multiply_terms_good {t1 t2 : Term}
    (h1 : TermWF t1 ∧ NamesNonempty t1) (h2 : TermWF t2 ∧ NamesNonempty t2) :
    TermWF (Term.multiply_terms t1 t2) ∧ NamesNonempty (Term.multiply_terms t1 t2) := by
  rw [Term.multiply_terms]
  by_cases hz : t1.coeff = 0 ∨ t2.coeff = 0
  · rw [if_pos hz]
    constructor
    · exact ⟨List.Pairwise.nil, by simp⟩
    · intro vp hvp
      simp at hvp
  · rw [if_neg hz]
    by_cases ho1 : t1.is_one
    · rw [if_pos ho1]
      exact h2
    · rw [if_neg ho1]
      by_cases ho2 : t2.is_one
      · rw [if_pos ho2]
        exact h1
      · rw [if_neg ho2]
        have hmg := mergeVps_good h1.1.1
          (fun vp hvp => ⟨(h1.1.2 vp hvp).1, (h1.1.2 vp hvp).2⟩)
          (fun vp hvp => ⟨(h2.1.2 vp hvp).1, (h2.1.2 vp hvp).2⟩)
        refine ⟨⟨hmg.1, fun vp hvp => ⟨(hmg.2.1 vp hvp).1, (hmg.2.1 vp hvp).2⟩⟩, ?_⟩
        intro vp hvp
        rcases hmg.2.2 vp hvp with hm | hm
        · rcases List.mem_map.mp hm with ⟨u, hu, hname⟩
          rw [← hname]
          exact h1.2 u hu
        · rcases List.mem_map.mp hm with ⟨u, hu, hname⟩
          rw [← hname]
          exact h2.2 u hu

theorem content_row {t1 : Term} (h1 : TermWF t1) (ts : List Term) :
    content (ts.map (fun t2 => Term.multiply_terms t1 t2)) = termMv t1 * content ts := by
  induction ts with
  | nil =>
    simp [content_nil]
  | cons t rest ih =>
    rw [List.map_cons, content_cons, content_cons, ih, termMv_mul h1, mul_add]

theorem content_cross {ts1 ts2 : List Term} (h1 : ∀ t ∈ ts1, TermWF t) :
    content ((ts1.map (fun t1 =>
        ts2.map (fun t2 => Term.multiply_terms t1 t2))).flatten) =
      content ts1 * content ts2 := by
  induction ts1 with
  | nil =>
    simp [content_nil]
  | cons t rest ih =>
    rw [List.map_cons, List.flatten_cons, content_append, content_cons,
      content_row (h1 t (List.mem_cons_self _ _)) ts2,
      ih (fun u hu => h1 u (List.mem_cons_of_mem _ hu)), add_mul]

/-! ### Operation-level content and goodness -/

theorem goodTerms {p : Poly} (hp : PolyGood p) :
    ∀ t ∈ p.terms, TermWF t ∧ NamesNonempty t :=
  fun t ht => ⟨hp.1.2 t ht, hp.2 t ht⟩

theorem constant_terms_good (c : ℤ) :
    ∀ t ∈ [Term.constant c], TermWF t ∧ NamesNonempty t := by
  intro t ht
  rw [List.mem_singleton] at ht
  subst ht
  refine ⟨⟨List.Pairwise.nil, ?_⟩, ?_⟩ <;>
    · intro vp hvp
      simp [Term.constant] at hvp

theorem polyGood_constant (c : ℤ) : PolyGood (Poly.constant c) :=
  mkPoly_good (constant_terms_good c)

theorem content_constant (c : ℤ) :
    content (Poly.constant c).terms = MvPolynomial.C c := by
  rw [Poly.constant, content_mkPoly (constant_terms_good c)]
  rw [Term.constant, content_cons, content_nil, add_zero, termMv]
  simp only [vpsF_nil, MvPolynomial.monomial_zero']

theorem polyGood_one : PolyGood Poly.one := polyGood_constant 1

theorem content_one : content Poly.one.terms = 1 := by
  rw [Poly.one, content_constant]
  simp

theorem polyGood_zero : PolyGood Poly.zero := by
  refine mkPoly_good ?_
  intro t ht
  simp at ht

theorem content_of_isEmpty {p : Poly} (h : p.terms.isEmpty = true) :
    content p.terms = 0 := by
  rw [List.isEmpty_iff.mp h, content_nil]

theorem content_of_is_one {p : Poly} (h : p.is_one = true) : content p.terms = 1 := by
  rw [Poly.is_one] at h
  match hterm : p.terms, h with
  | [t], h =>
    rw [content_cons, content_nil, add_zero]
    exact termMv_one h

theorem add_polys_spec {p q : Poly} (hp : PolyGood p) (hq : PolyGood q) :
    PolyGood (Poly.add_polys p q) ∧
    content (Poly.add_polys p q).terms = content p.terms + content q.terms := by
  rw [Poly.add_polys]
  by_cases hpe : p.terms.isEmpty = true
  · rw [if_pos hpe]
    exact ⟨hq, by rw [content_of_isEmpty hpe, zero_add]⟩
  · rw [if_neg hpe]
    by_cases hqe : q.terms.isEmpty = true
    · rw [if_pos hqe]
      exact ⟨hp, by rw [content_of_isEmpty hqe, add_zero]⟩
    · rw [if_neg hqe]
      have hmem : ∀ t ∈ p.terms ++ q.terms, TermWF t ∧ NamesNonempty t := by
        intro t ht
        rcases List.mem_append.mp ht with h | h
        · exact goodTerms hp t h
        · exact goodTerms hq t h
      exact ⟨mkPoly_good hmem, by rw [content_mkPoly hmem, content_append]⟩

theorem multiply_polys_spec {p q : Poly} (hp : PolyGood p) (hq : PolyGood q) :
    PolyGood (Poly.multiply_polys p q) ∧
    content (Poly.multiply_polys p q).terms = content p.terms * content q.terms := by
  rw [Poly.multiply_polys]
  by_cases hpe : p.terms.isEmpty = true
  · rw [if_pos hpe]
    exact ⟨hp, by rw [content_of_isEmpty hpe, zero_mul]⟩
  · rw [if_neg hpe]
    by_cases hqe : q.terms.isEmpty = true
    · rw [if_pos hqe]
      exact ⟨hq, by rw [content_of_isEmpty hqe, mul_zero]⟩
    · rw [if_neg hqe]
      by_cases hpo : p.is_one = true
      · rw [if_pos hpo]
        exact ⟨hq, by rw [content_of_is_one hpo, one_mul]⟩
      · rw [if_neg hpo]
        by_cases hqo : q.is_one = true
        · rw [if_pos hqo]
          exact ⟨hp, by rw [content_of_is_one hqo, mul_one]⟩
        · rw [if_neg hqo]
          have hmem : ∀ t ∈ (p.terms.map (fun t1 =>
              q.terms.map (fun t2 => Term.multiply_terms t1 t2))).flatten,
              TermWF t ∧ NamesNonempty t := by
            intro t ht
            rcases List.mem_flatten.mp ht with ⟨row, hrow, htrow⟩
            rcases List.mem_map.mp hrow with ⟨t1, ht1, rfl⟩
            rcases List.mem_map.mp htrow with ⟨t2, ht2, rfl⟩
            exact multiply_terms_good (goodTerms hp t1 ht1) (goodTerms hq t2 ht2)
          refine ⟨mkPoly_good hmem, ?_⟩
          rw [content_mkPoly hmem, content_cross (fun t ht => (goodTerms hp t ht).1)]

theorem raisedN_spec {p : Poly} (hp : PolyGood p) :
    ∀ e : ℕ, PolyGood (p.raised_to_exponentN e) ∧
      content (p.raised_to_exponentN e).terms = (content p.terms) ^ e
  | 0 => ⟨polyGood_one, by rw [Poly.raised_to_exponentN, content_one, pow_zero]⟩
  | 1 => ⟨hp, by rw [Poly.raised_to_exponentN, pow_one]⟩
  | e + 2 => by
    have ih := raisedN_spec hp (e + 1)
    have hmul := multiply_polys_spec hp ih.1
    refine ⟨by rw [Poly.raised_to_exponentN]; exact hmul.1, ?_⟩
    rw [Poly.raised_to_exponentN, hmul.2, ih.2, pow_succ]
    ring

theorem add_with_constant_zero (p : Poly) : Poly.add_with_constant 0 p = p := by
  rw [Poly.add_with_constant, if_pos rfl]

theorem multiply_by_constant_one {p : Poly} (hp : PolyWF p) :
    Poly.multiply_by_constant 1 p = p := by
  rw [Poly.multiply_by_constant]
  have hmap : p.terms.map (Term.multiply_by_constant 1) = p.terms := by
    have hcg : ∀ t ∈ p.terms, Term.multiply_by_constant 1 t = id t := by
      intro t _
      rw [Term.multiply_by_constant, if_neg (by norm_num), if_pos rfl]
      rfl
    rw [List.map_congr_left hcg, List.map_id]
  rw [hmap]
  exact mkPoly_id hp

/-! ### Evaluating `groupBySig` on concrete inputs -/

theorem groupBySigFuel_eq (fuel : ℕ) : ∀ ts : List Term, ts.length ≤ fuel →
    Poly.groupBySigFuel fuel ts = Poly.groupBySig ts := by
  induction fuel with
  | zero =>
    intro ts hts
    have h0 : ts = [] := List.eq_nil_of_length_eq_zero (Nat.le_zero.mp hts)
    subst h0
    rw [Poly.groupBySigFuel, Poly.groupBySig]
  | succ fuel ih =>
    intro ts hts
    match ts with
    | [] => rw [Poly.groupBySigFuel, Poly.groupBySig]
    | t :: rest =>
      rw [Poly.groupBySigFuel, Poly.groupBySig]
      rw [ih _ (le_trans (List.length_filter_le _ _) (by simpa using hts))]

theorem groupBySig_eval (ts : List Term) :
    Poly.groupBySig ts = Poly.groupBySigFuel ts.length ts :=
  (groupBySigFuel_eq ts.length ts le_rfl).symm

/-! ### Claim C7: ring laws -/

/-- Claim C7 (as stated) is false: with the empty variable name, which the
code accepts, addition is not commutative on canonical strings.  With
`p = Poly.constant 2` and `q = Poly.var("")`, `p+q` prints `3` while
`q+p` prints `3*`. -/
theorem C7_counterexample :
    (Poly.add_polys (Poly.constant 2) (Poly.varCore [])).canonicalized_string ≠
      (Poly.add_polys (Poly.varCore []) (Poly.constant 2)).canonicalized_string := by
  have h1 : Poly.add_polys (Poly.constant 2) (Poly.varCore []) =
      Poly.mk (Poly.put_terms_in_order
        (((Poly.groupBySig [⟨2, []⟩, ⟨1, [⟨[], 1⟩]⟩]).map Term.sumTerms).filter
          (fun t => decide (¬ t.coeff = 0)))) := rfl
  have h2 : Poly.add_polys (Poly.varCore []) (Poly.constant 2) =
      Poly.mk (Poly.put_terms_in_order
        (((Poly.groupBySig [⟨1, [⟨[], 1⟩]⟩, ⟨2, []⟩]).map Term.sumTerms).filter
          (fun t => decide (¬ t.coeff = 0)))) := rfl
  rw [h1, h2, groupBySig_eval, groupBySig_eval]
  decide

/-- Claim C7, amended: the six ring laws hold under canonical-string
equality for all polynomials whose variable names are nonempty (together
with the construction invariants, which every reachable polynomial
satisfies). -/
theorem C7_ring_laws_amended (p q r : Poly) (hp : PolyGood p) (hq : PolyGood q)
    (hr : PolyGood r) :
    (Poly.add_polys p q).canonicalized_string =
      (Poly.add_polys q p).canonicalized_string ∧
    (Poly.add_polys (Poly.add_polys p q) r).canonicalized_string =
      (Poly.add_polys p (Poly.add_polys q r)).canonicalized_string ∧
    (Poly.multiply_polys p q).canonicalized_string =
      (Poly.multiply_polys q p).canonicalized_string ∧
    (Poly.multiply_polys p (Poly.add_polys q r)).canonicalized_string =
      (Poly.add_polys (Poly.multiply_polys p q)
        (Poly.multiply_polys p r)).canonicalized_string ∧
    (Poly.add_with_constant 0 p).canonicalized_string = p.canonicalized_string ∧
    (Poly.multiply_by_constant 1 p).canonicalized_string = p.canonicalized_string := by
  refine ⟨?_, ?_, ?_, ?_, ?_, ?_⟩
  · have h1 := add_polys_spec hp hq
    have h2 := add_polys_spec hq hp
    have heq : Poly.add_polys p q = Poly.add_polys q p :=
      poly_eq_of_content h1.1.1 h2.1.1 (by rw [h1.2, h2.2, add_comm])
    rw [heq]
  · have hpq := add_polys_spec hp hq
    have hqr := add_polys_spec hq hr
    have h1 := add_polys_spec hpq.1 hr
    have h2 := add_polys_spec hp hqr.1
    have heq : Poly.add_polys (Poly.add_polys p q) r =
        Poly.add_polys p (Poly.add_polys q r) :=
      poly_eq_of_content h1.1.1 h2.1.1
        (by rw [h1.2, h2.2, hpq.2, hqr.2, add_assoc])
    rw [heq]
  · have h1 := multiply_polys_spec hp hq
    have h2 := multiply_polys_spec hq hp
    have heq : Poly.multiply_polys p q = Poly.multiply_polys q p :=
      poly_eq_of_content h1.1.1 h2.1.1 (by rw [h1.2, h2.2, mul_comm])
    rw [heq]
  · have hqr := add_polys_spec hq hr
    have h1 := multiply_polys_spec hp hqr.1
    have hpq := multiply_polys_spec hp hq
    have hpr := multiply_polys_spec hp hr
    have h2 := add_polys_spec hpq.1 hpr.1
    have heq : Poly.multiply_polys p (Poly.add_polys q r) =
        Poly.add_polys (Poly.multiply_polys p q) (Poly.multiply_polys p r) :=
      poly_eq_of_content h1.1.1 h2.1.1
        (by rw [h1.2, h2.2, hpq.2, hpr.2, hqr.2, mul_add])
    rw [heq]
  · rw [add_with_constant_zero]
  · rw [multiply_by_constant_one hp.1]

theorem C7_ring_laws_amended_witness :
    PolyGood (Poly.varCore ['x']) ∧ PolyGood (Poly.varCore ['y']) ∧
    PolyGood (Poly.constant 2) ∧
    (Poly.add_polys (Poly.varCore ['x']) (Poly.varCore ['y'])).canonicalized_string =
      (Poly.add_polys (Poly.varCore ['y']) (Poly.varCore ['x'])).canonicalized_string :=
  ⟨by decide, by decide, by decide,
   (C7_ring_laws_amended (Poly.varCore ['x']) (Poly.varCore ['y'])
     (Poly.constant 2) (by decide) (by decide) (by decide)).1⟩

/-! ### Evaluation agrees with the semantic content -/

theorem foldl_mul_prod (g : VarPower → ℤ) : ∀ (l : List VarPower) (acc : ℤ),
    l.foldl (fun a vp => a * g vp) acc = acc * (l.map g).prod := by
  intro l
  induction l with
  | nil =>
    intro acc
    simp
  | cons vp rest ih =>
    intro acc
    rw [List.foldl_cons, ih, List.map_cons, List.prod_cons]
    ring

theorem prod_vpsF (F : Str → ℤ) : ∀ vps : List VarPower,
    (vps.map (fun vp => F vp.var_name ^ vp.exponent)).prod =
      (vpsF vps).prod (fun u e => F u ^ e) := by
  intro vps
  induction vps with
  | nil =>
    rw [vpsF_nil]
    simp
  | cons vp rest ih =>
    rw [List.map_cons, List.prod_cons, vpsF_cons, ih,
      Finsupp.prod_add_index' (fun a => pow_zero (F a)) (fun a b c => pow_add (F a) b c),
      Finsupp.prod_single_index]
    exact pow_zero (F vp.var_name)

theorem termVal_eq (A : Assignment) (t : Term) :
    Term.evalVal A t =
      MvPolynomial.eval (fun u => (A u).getD 0) (termMv t) := by
  have h := prod_vpsF (fun u => (A u).getD 0) t.var_powers
  rw [Term.evalVal, Term.evalProd, termMv, MvPolynomial.eval_monomial,
    foldl_mul_prod, one_mul]
  rw [show (t.var_powers.map (fun vp =>
      vp.compute_power ((A vp.var_name).getD 0))).prod =
    (t.var_powers.map (fun vp => (A vp.var_name).getD 0 ^ vp.exponent)).prod from rfl, h]

theorem foldl_add_sum (A : Assignment) : ∀ (ts : List Term) (acc : ℤ),
    ts.foldl (fun a t => a + t.evalVal A) acc = acc + (ts.map (Term.evalVal A)).sum := by
  intro ts
  induction ts with
  | nil =>
    intro acc
    simp
  | cons t rest ih =>
    intro acc
    rw [List.foldl_cons, ih, List.map_cons, List.sum_cons]
    ring

theorem eval_eq_content {A : Assignment} {p : Poly}
    (h : ∀ u ∈ Poly.allNames p.terms, (A u).isSome = true) :
    Poly.eval A p =
      some (MvPolynomial.eval (fun u => (A u).getD 0) (content p.terms)) := by
  rw [Poly.eval, if_pos (List.all_eq_true.mpr h)]
  congr 1
  rw [foldl_add_sum, zero_add, content, map_list_sum, List.map_map]
  exact congrArg List.sum (List.map_congr_left (fun t _ => termVal_eq A t))

/-! ### Variable-name provenance of the operations -/

theorem mem_allNames {ts : List Term} {u : Str} :
    u ∈ Poly.allNames ts ↔ ∃ t ∈ ts, ∃ vp ∈ t.var_powers, vp.var_name = u := by
  rw [Poly.allNames]
  simp only [List.mem_flatten, List.mem_map]
  constructor
  · rintro ⟨l, ⟨t, ht, rfl⟩, hu⟩
    rw [Term.var_names] at hu
    rcases List.mem_map.mp hu with ⟨vp, hvp, rfl⟩
    exact ⟨t, ht, vp, hvp, rfl⟩
  · rintro ⟨t, ht, vp, hvp, rfl⟩
    exact ⟨t.var_names, ⟨t, ht, rfl⟩, List.mem_map.mpr ⟨vp, hvp, rfl⟩⟩

theorem allNames_mkPoly_sub {ts : List Term} {u : Str}
    (h : u ∈ Poly.allNames (Poly.mkPoly ts).terms) : u ∈ Poly.allNames ts := by
  rcases mem_allNames.mp h with ⟨t, ht, vp, hvp, rfl⟩
  rcases mkPoly_vps ht with ⟨w, hw, hvps⟩
  exact name_mem_allNames hw (hvps ▸ hvp)

theorem multiply_terms_names {t1 t2 : Term} (h1 : TermWF t1) (h2 : TermWF t2) :
    ∀ vp ∈ (Term.multiply_terms t1 t2).var_powers,
      vp.var_name ∈ t1.var_powers.map VarPower.var_name ∨
        vp.var_name ∈ t2.var_powers.map VarPower.var_name := by
  intro vp hvp
  rw [Term.multiply_terms] at hvp
  split at hvp
  · simp at hvp
  · split at hvp
    · exact Or.inr (List.mem_map.mpr ⟨vp, hvp, rfl⟩)
    · split at hvp
      · exact Or.inl (List.mem_map.mpr ⟨vp, hvp, rfl⟩)
      · exact (mergeVps_good h1.1
          (fun q hq => ⟨(h1.2 q hq).1, (h1.2 q hq).2⟩)
          (fun q hq => ⟨(h2.2 q hq).1, (h2.2 q hq).2⟩)).2.2 vp hvp

theorem allNames_flatten {ls : List (List Term)} {u : Str} :
    u ∈ Poly.allNames ls.flatten ↔ ∃ l ∈ ls, u ∈ Poly.allNames l := by
  constructor
  · intro h
    rcases mem_allNames.mp h with ⟨t, ht, vp, hvp, rfl⟩
    rcases List.mem_flatten.mp ht with ⟨l, hl, htl⟩
    exact ⟨l, hl, mem_allNames.mpr ⟨t, htl, vp, hvp, rfl⟩⟩
  · rintro ⟨l, hl, hu⟩
    rcases mem_allNames.mp hu with ⟨t, ht, vp, hvp, rfl⟩
    exact mem_allNames.mpr ⟨t, List.mem_flatten.mpr ⟨l, hl, ht⟩, vp, hvp, rfl⟩

theorem multiply_polys_names {p q : Poly} (hp : PolyGood p) (hq : PolyGood q) :
    ∀ u ∈ Poly.allNames (Poly.multiply_polys p q).terms,
      u ∈ Poly.allNames p.terms ∨ u ∈ Poly.allNames q.terms := by
  intro u hu
  rw [Poly.multiply_polys] at hu
  split at hu
  · exact Or.inl hu
  · split at hu
    · exact Or.inr hu
    · split at hu
      · exact Or.inr hu
      · split at hu
        · exact Or.inl hu
        · have hsub := allNames_mkPoly_sub hu
          rcases mem_allNames.mp hsub with ⟨t, ht, vp, hvp, rfl⟩
          rcases List.mem_flatten.mp ht with ⟨row, hrow, htrow⟩
          rcases List.mem_map.mp hrow with ⟨t1, ht1, rfl⟩
          rcases List.mem_map.mp htrow with ⟨t2, ht2, rfl⟩
          rcases multiply_terms_names (hp.1.2 t1 ht1) (hq.1.2 t2 ht2) vp hvp with h | h
          · rcases List.mem_map.mp h with ⟨w, hw, hname⟩
            exact Or.inl (hname ▸ name_mem_allNames ht1 hw)
          · rcases List.mem_map.mp h with ⟨w, hw, hname⟩
            exact Or.inr (hname ▸ name_mem_allNames ht2 hw)

theorem one_terms : Poly.one.terms = [Term.constant 1] := rfl

theorem raisedN_names {p : Poly} (hp : PolyGood p) :
    ∀ (e : ℕ) (u : Str), u ∈ Poly.allNames (p.raised_to_exponentN e).terms →
      u ∈ Poly.allNames p.terms
  | 0, u => by
    intro hu
    rw [Poly.raised_to_exponentN, one_terms] at hu
    rcases mem_allNames.mp hu with ⟨t, ht, vp, hvp, rfl⟩
    rw [List.mem_singleton] at ht
    subst ht
    simp [Term.constant] at hvp
  | 1, u => by
    intro hu
    rw [Poly.raised_to_exponentN] at hu
    exact hu
  | e + 2, u => by
    intro hu
    rw [Poly.raised_to_exponentN] at hu
    rcases multiply_polys_names hp (raisedN_spec hp (e + 1)).1 u hu with h | h
    · exact h
    · exact raisedN_names hp (e + 1) u h

/-! ### Factorizing a term on a variable -/

theorem factorize_vps {t : Term} (v : Str) :
    ∀ vp ∈ (t.factorize_on_var v).1.var_powers, vp ∈ t.var_powers ∧ vp.var_name ≠ v := by
  intro vp hvp
  rw [Term.factorize_on_var] at hvp
  split at hvp
  next h =>
    rw [List.all_eq_true] at h
    exact ⟨hvp, by simpa using h vp hvp⟩
  next _ =>
    rcases List.mem_filter.mp hvp with ⟨hmem, hname⟩
    exact ⟨hmem, by simpa using hname⟩

theorem factorize_good {t : Term} (v : Str) (hw : TermWF t) (hn : NamesNonempty t) :
    TermWF (t.factorize_on_var v).1 ∧ NamesNonempty (t.factorize_on_var v).1 := by
  rw [Term.factorize_on_var]
  split
  · exact ⟨hw, hn⟩
  · refine ⟨⟨List.Pairwise.sublist (List.filter_sublist _) hw.1, ?_⟩, ?_⟩
    · intro vp hvp
      exact hw.2 vp (List.mem_of_mem_filter hvp)
    · intro vp hvp
      exact hn vp (List.mem_of_mem_filter hvp)

theorem factorize_coeff (t : Term) (v : Str) :
    (t.factorize_on_var v).1.coeff = t.coeff := by
  rw [Term.factorize_on_var]
  split <;> rfl

theorem factorize_snd (t : Term) (v : Str) :
    (t.factorize_on_var v).2 = t.degree_of_var v := by
  rw [Term.factorize_on_var]
  split
  next h =>
    rw [List.all_eq_true] at h
    rw [Term.degree_of_var, List.find?_eq_none.mpr
      (fun vp hvp => by simpa using h vp hvp)]
  next _ => rfl

theorem vpsF_filter_ne {l : List VarPower} {v u : Str} (huv : u ≠ v) :
    vpsF (l.filter (fun vp => decide (¬ vp.var_name = v))) u = vpsF l u := by
  induction l with
  | nil => rfl
  | cons vp rest ih =>
    rw [List.filter_cons]
    by_cases h : vp.var_name = v
    · rw [if_neg (by simp [h]), ih, vpsF_cons, Finsupp.add_apply,
        Finsupp.single_apply,
        if_neg (fun he : vp.var_name = u => huv (he ▸ h)), zero_add]
    · rw [if_pos (by simp [h]), vpsF_cons, vpsF_cons, Finsupp.add_apply,
        Finsupp.add_apply, ih]

theorem factorize_vpsF {t : Term} (hw : TermWF t) (v : Str) :
    vpsF t.var_powers =
      vpsF (t.factorize_on_var v).1.var_powers +
        Finsupp.single v (t.factorize_on_var v).2 := by
  ext u
  rw [Finsupp.add_apply, Finsupp.single_apply]
  by_cases huv : v = u
  · subst huv
    rw [if_pos rfl, vpsF_apply_not_mem (fun vp hvp => (factorize_vps v vp hvp).2),
      zero_add, factorize_snd, vpsF_eq_degree hw.1]
  · rw [if_neg huv, add_zero]
    rw [Term.factorize_on_var]
    split
    · rfl
    · exact (vpsF_filter_ne (fun he => huv he.symm)).symm

/-! ### Substitution: goodness, content and names -/

theorem zero_terms : Poly.zero.terms = [] := rfl

theorem content_flatten : ∀ ls : List (List Term),
    content ls.flatten = (ls.map content).sum := by
  intro ls
  induction ls with
  | nil => rw [List.flatten_nil, List.map_nil, List.sum_nil, content_nil]
  | cons l rest ih =>
    rw [List.flatten_cons, content_append, ih, List.map_cons, List.sum_cons]

theorem sumPolys_spec {ps : List Poly} (h : ∀ q ∈ ps, PolyGood q) :
    PolyGood (Poly.sumPolys ps) ∧
    content (Poly.sumPolys ps).terms = (ps.map (fun q => content q.terms)).sum := by
  match ps, h with
  | [], _ =>
    rw [show Poly.sumPolys [] = Poly.zero from rfl]
    exact ⟨polyGood_zero, by rw [zero_terms, content_nil, List.map_nil, List.sum_nil]⟩
  | [q], h =>
    rw [show Poly.sumPolys [q] = q from rfl]
    refine ⟨h q (List.mem_singleton_self q), ?_⟩
    rw [List.map_cons, List.map_nil, List.sum_cons, List.sum_nil, add_zero]
  | q1 :: q2 :: rest, h =>
    rw [show Poly.sumPolys (q1 :: q2 :: rest) =
      Poly.mkPoly ((q1 :: q2 :: rest).map Poly.terms).flatten from rfl]
    have hmem : ∀ t ∈ ((q1 :: q2 :: rest).map Poly.terms).flatten,
        TermWF t ∧ NamesNonempty t := by
      intro t ht
      rcases List.mem_flatten.mp ht with ⟨l, hl, htl⟩
      rcases List.mem_map.mp hl with ⟨q, hq, rfl⟩
      exact goodTerms (h q hq) t htl
    refine ⟨mkPoly_good hmem, ?_⟩
    rw [content_mkPoly hmem, content_flatten, List.map_map]
    rfl

theorem sumPolys_names {ps : List Poly} {u : Str}
    (hu : u ∈ Poly.allNames (Poly.sumPolys ps).terms) :
    ∃ q ∈ ps, u ∈ Poly.allNames q.terms := by
  match ps, hu with
  | [], hu =>
    rw [show Poly.sumPolys [] = Poly.zero from rfl, zero_terms] at hu
    simp [Poly.allNames] at hu
  | [q], hu =>
    exact ⟨q, List.mem_singleton_self q, hu⟩
  | q1 :: q2 :: rest, hu =>
    rw [show Poly.sumPolys (q1 :: q2 :: rest) =
      Poly.mkPoly ((q1 :: q2 :: rest).map Poly.terms).flatten from rfl] at hu
    rcases allNames_flatten.mp (allNames_mkPoly_sub hu) with ⟨l, hl, hul⟩
    rcases List.mem_map.mp hl with ⟨q, hq, rfl⟩
    exact ⟨q, hq, hul⟩

theorem poly_based_on_term_spec {t : Term} {v : Str} {rp : Poly}
    (ht : TermWF t ∧ NamesNonempty t) (hrp : PolyGood rp) :
    PolyGood (Poly.poly_based_on_term t v rp) ∧
    content (Poly.poly_based_on_term t v rp).terms =
      termMv (t.factorize_on_var v).1 *
        content rp.terms ^ (t.factorize_on_var v).2 := by
  have hfz := factorize_good v ht.1 ht.2
  have hone : ∀ u ∈ [(t.factorize_on_var v).1], TermWF u ∧ NamesNonempty u := by
    intro u hu
    rw [List.mem_singleton] at hu
    subst hu
    exact hfz
  simp only [Poly.poly_based_on_term]
  split
  next h0 =>
    rw [h0, pow_zero, mul_one]
    exact ⟨mkPoly_good hone, by
      rw [content_mkPoly hone, content_cons, content_nil, add_zero]⟩
  next h0 =>
    have hm := multiply_polys_spec (mkPoly_good hone)
      (raisedN_spec hrp (t.factorize_on_var v).2).1
    refine ⟨hm.1, ?_⟩
    rw [hm.2, content_mkPoly hone, content_cons, content_nil, add_zero,
      (raisedN_spec hrp (t.factorize_on_var v).2).2]

theorem poly_based_on_term_names {t : Term} {v : Str} {rp : Poly}
    (ht : TermWF t ∧ NamesNonempty t) (hrp : PolyGood rp) :
    ∀ u ∈ Poly.allNames (Poly.poly_based_on_term t v rp).terms,
      (u ∈ t.var_powers.map VarPower.var_name ∧ u ≠ v) ∨
        u ∈ Poly.allNames rp.terms := by
  have hfz := factorize_good v ht.1 ht.2
  have hone : ∀ w ∈ [(t.factorize_on_var v).1], TermWF w ∧ NamesNonempty w := by
    intro w hw
    rw [List.mem_singleton] at hw
    subst hw
    exact hfz
  have hmk : ∀ u ∈ Poly.allNames (Poly.mkPoly [(t.factorize_on_var v).1]).terms,
      u ∈ t.var_powers.map VarPower.var_name ∧ u ≠ v := by
    intro u hu
    rcases mem_allNames.mp (allNames_mkPoly_sub hu) with ⟨w, hw, vp, hvp, rfl⟩
    rw [List.mem_singleton] at hw
    subst hw
    have hvv := factorize_vps v vp hvp
    exact ⟨List.mem_map.mpr ⟨vp, hvv.1, rfl⟩, hvv.2⟩
  intro u hu
  simp only [Poly.poly_based_on_term] at hu
  split at hu
  · exact Or.inl (hmk u hu)
  · rcases multiply_polys_names (mkPoly_good hone)
      (raisedN_spec hrp (t.factorize_on_var v).2).1 u hu with h | h
    · exact Or.inl (hmk u h)
    · exact Or.inr (raisedN_names hrp (t.factorize_on_var v).2 u h)

theorem substituteCore_spec {p rp : Poly} (v : Str) (hp : PolyGood p)
    (hrp : PolyGood rp) :
    PolyGood (Poly.substituteCore p v rp) ∧
    content (Poly.substituteCore p v rp).terms =
      (p.terms.map (fun t => termMv (t.factorize_on_var v).1 *
        content rp.terms ^ (t.factorize_on_var v).2)).sum := by
  rw [Poly.substituteCore]
  have hgood : ∀ q ∈ p.terms.map (fun t => Poly.poly_based_on_term t v rp),
      PolyGood q := by
    intro q hq
    rcases List.mem_map.mp hq with ⟨t, ht, rfl⟩
    exact (poly_based_on_term_spec (goodTerms hp t ht) hrp).1
  obtain ⟨hg, hc⟩ := sumPolys_spec hgood
  refine ⟨hg, ?_⟩
  rw [hc, List.map_map]
  exact congrArg List.sum (List.map_congr_left (fun t ht =>
    (poly_based_on_term_spec (goodTerms hp t ht) hrp).2))

theorem substituteCore_names {p rp : Poly} (v : Str) (hp : PolyGood p)
    (hrp : PolyGood rp) :
    ∀ u ∈ Poly.allNames (Poly.substituteCore p v rp).terms,
      (u ∈ Poly.allNames p.terms ∧ u ≠ v) ∨ u ∈ Poly.allNames rp.terms := by
  intro u hu
  rw [Poly.substituteCore] at hu
  rcases sumPolys_names hu with ⟨q, hq, huq⟩
  rcases List.mem_map.mp hq with ⟨t, ht, rfl⟩
  rcases poly_based_on_term_names (goodTerms hp t ht) hrp u huq with ⟨hm, hne⟩ | h
  · rcases List.mem_map.mp hm with ⟨vp, hvp, rfl⟩
    exact Or.inl ⟨name_mem_allNames ht hvp, hne⟩
  · exact Or.inr h

theorem eval_termMv_subst {t : Term} (hw : TermWF t) (v : Str) (F : Str → ℤ)
    (rv : ℤ) :
    MvPolynomial.eval (fun u => if u = v then rv else F u) (termMv t) =
      MvPolynomial.eval F (termMv (t.factorize_on_var v).1) *
        rv ^ (t.factorize_on_var v).2 := by
  rw [termMv, termMv, MvPolynomial.eval_monomial, MvPolynomial.eval_monomial,
    factorize_coeff, factorize_vpsF hw v,
    Finsupp.prod_add_index' (fun a => pow_zero (if a = v then rv else F a))
      (fun a b c => pow_add (if a = v then rv else F a) b c),
    Finsupp.prod_single_index]
  · have hprod : (vpsF (t.factorize_on_var v).1.var_powers).prod
        (fun u e => (if u = v then rv else F u) ^ e) =
        (vpsF (t.factorize_on_var v).1.var_powers).prod (fun u e => F u ^ e) := by
      apply Finsupp.prod_congr
      intro u hu
      have h0 : vpsF (t.factorize_on_var v).1.var_powers v = 0 :=
        vpsF_apply_not_mem (fun vp hvp => (factorize_vps v vp hvp).2)
      have hne : u ≠ v := by
        intro he
        rw [he] at hu
        exact Finsupp.mem_support_iff.mp hu h0
      rw [if_neg hne]
    rw [hprod, if_pos rfl]
    ring
  · exact pow_zero _

/-! ### Claim C2: the substitution/composition law -/

/-- Claim C2 (as stated) is false on two counts.  First, substitution can
erase variables (here `u*v` with `v := 0` gives the zero polynomial), so
an assignment covering the substituted polynomial and the replacement need
not cover the original: the left side evaluates to `0` while the right
side raises.  Second, with the empty variable name (which the code
accepts) the substituted polynomial collapses two unlike terms: for
`p = ''+x`, substituting `x := 2` produces the single term `3*` whose
value at `'' = 5` is `15`, while evaluating `p` directly gives `7`. -/
theorem C2_counterexample :
    (['v'] ∈ Poly.variablesList
        (Poly.multiply_polys (Poly.varCore ['u']) (Poly.varCore ['v'])) ∧
     (Poly.substitute (Poly.multiply_polys (Poly.varCore ['u']) (Poly.varCore ['v']))
        ['v'] Poly.zero).map (Poly.eval (fun _ => none)) = some (some 0) ∧
     Poly.eval (fun s => if s = ['v'] then some 0 else none)
       (Poly.multiply_polys (Poly.varCore ['u']) (Poly.varCore ['v'])) = none) ∧
    (['x'] ∈ Poly.variablesList (Poly.add_polys (Poly.varCore ['x']) (Poly.varCore [])) ∧
     Poly.eval (fun s => if s = ([] : Str) then some 5 else none)
       (Poly.constant 2) = some 2 ∧
     (Poly.substitute (Poly.add_polys (Poly.varCore ['x']) (Poly.varCore [])) ['x']
        (Poly.constant 2)).map
       (Poly.eval (fun s => if s = ([] : Str) then some 5 else none)) =
         some (some 15) ∧
     Poly.eval (fun s => if s = ['x'] then some 2
        else if s = ([] : Str) then some 5 else none)
       (Poly.add_polys (Poly.varCore ['x']) (Poly.varCore [])) = some 7) := by
  have hp2 : Poly.add_polys (Poly.varCore ['x']) (Poly.varCore []) =
      Poly.mk [⟨1, [⟨[], 1⟩]⟩, ⟨1, [⟨['x'], 1⟩]⟩] := by
    have h : Poly.add_polys (Poly.varCore ['x']) (Poly.varCore []) =
        Poly.mk (Poly.put_terms_in_order
          (((Poly.groupBySig [⟨1, [⟨['x'], 1⟩]⟩, ⟨1, [⟨[], 1⟩]⟩]).map
            Term.sumTerms).filter (fun t => decide (¬ t.coeff = 0)))) := rfl
    rw [h, groupBySig_eval]
    decide
  have hsub : Poly.substituteCore (Poly.mk [⟨1, [⟨[], 1⟩]⟩, ⟨1, [⟨['x'], 1⟩]⟩]) ['x']
      (Poly.constant 2) =
      Poly.mk (Poly.put_terms_in_order
        (((Poly.groupBySig [⟨1, [⟨[], 1⟩]⟩, ⟨2, []⟩]).map Term.sumTerms).filter
          (fun t => decide (¬ t.coeff = 0)))) := rfl
  have hsub2 : Poly.substituteCore (Poly.mk [⟨1, [⟨[], 1⟩]⟩, ⟨1, [⟨['x'], 1⟩]⟩]) ['x']
      (Poly.constant 2) = Poly.mk [⟨3, [⟨[], 1⟩]⟩] := by
    rw [hsub, groupBySig_eval]
    decide
  refine ⟨⟨by decide, by decide, by decide⟩, ?_, by decide, ?_, ?_⟩
  · rw [hp2]
    decide
  · rw [hp2, Poly.substitute, if_pos (by decide), hsub2]
    decide
  · rw [hp2]
    decide

/-- Claim C2, amended: over polynomials with the construction invariants
and nonempty variable names, for `v` a variable of `p` and an assignment
defined on all variables of `p` other than `v` and on all variables of
the replacement, the substitution/composition law holds (the original
assignment must cover `p`'s other variables, not merely the variables
surviving in the substituted polynomial). -/
theorem C2_substitution_amended (p rp : Poly) (v : Str) (A : Assignment) (rv : ℤ)
    (hp : PolyGood p) (hrp : PolyGood rp)
    (hv : v ∈ Poly.variablesList p)
    (hA : ∀ u ∈ Poly.allNames p.terms, u ≠ v → (A u).isSome = true)
    (hAr : ∀ u ∈ Poly.allNames rp.terms, (A u).isSome = true)
    (hrv : Poly.eval A rp = some rv) :
    Poly.substitute p v rp = some (Poly.substituteCore p v rp) ∧
    Poly.eval A (Poly.substituteCore p v rp) =
      Poly.eval (fun u => if u = v then some rv else A u) p := by
  refine ⟨by rw [Poly.substitute, if_pos hv], ?_⟩
  obtain ⟨hsg, hsc⟩ := substituteCore_spec v hp hrp
  have hLcov : ∀ u ∈ Poly.allNames (Poly.substituteCore p v rp).terms,
      (A u).isSome = true := by
    intro u hu
    rcases substituteCore_names v hp hrp u hu with ⟨hm, hne⟩ | h
    · exact hA u hm hne
    · exact hAr u h
  have hRcov : ∀ u ∈ Poly.allNames p.terms,
      ((fun w => if w = v then some rv else A w) u).isSome = true := by
    intro u hu
    by_cases he : u = v
    · simp [he]
    · simpa [he] using hA u hu he
  rw [eval_eq_content hLcov, eval_eq_content hRcov]
  have hrveq : MvPolynomial.eval (fun u => (A u).getD 0) (content rp.terms) = rv := by
    have h2 := @eval_eq_content A rp hAr
    rw [h2] at hrv
    exact Option.some.inj hrv
  have hF' : (fun u => (if u = v then some rv else A u).getD 0) =
      (fun u => if u = v then rv else (A u).getD 0) := by
    funext u
    by_cases he : u = v
    · rw [if_pos he, if_pos he, Option.getD_some]
    · rw [if_neg he, if_neg he]
  congr 1
  rw [hF', hsc, map_list_sum, List.map_map,
    show content p.terms = (p.terms.map termMv).sum from rfl, map_list_sum,
    List.map_map]
  refine congrArg List.sum (List.map_congr_left ?_)
  intro t ht
  simp only [Function.comp_apply]
  rw [map_mul, map_pow, hrveq]
  exact (eval_termMv_subst (hp.1.2 t ht) v (fun u => (A u).getD 0) rv).symm

theorem C2_substitution_amended_witness :
    PolyGood (Poly.varCore ['x']) ∧ PolyGood (Poly.constant 2) ∧
    (['x'] ∈ Poly.variablesList (Poly.varCore ['x'])) ∧
    Poly.eval (fun _ => none) (Poly.constant 2) = some 2 ∧
    (Poly.substitute (Poly.varCore ['x']) ['x'] (Poly.constant 2) =
        some (Poly.substituteCore (Poly.varCore ['x']) ['x'] (Poly.constant 2)) ∧
      Poly.eval (fun _ => none)
          (Poly.substituteCore (Poly.varCore ['x']) ['x'] (Poly.constant 2)) =
        Poly.eval (fun u => if u = ['x'] then some 2 else none) (Poly.varCore ['x'])) :=
  ⟨by decide, by decide, by decide, by decide,
   C2_substitution_amended (Poly.varCore ['x']) (Poly.constant 2) ['x']
     (fun _ => none) 2 (by decide) (by decide) (by decide) (by decide) (by decide)
     (by decide)⟩

/-! ### Claim C8: single-variable dense coefficient vectors -/

theorem sum_if_single_val {β : Type} [DecidableEq β] {g : Term → ℤ} :
    ∀ {ts : List Term} {t : Term} {f : Term → β} {m : β},
    ts.Nodup → t ∈ ts → f t = m → (∀ u ∈ ts, f u = m → u = t) →
    ((ts.map (fun u => if f u = m then g u else 0)).sum) = g t := by
  intro ts
  induction ts with
  | nil =>
    intro t f m _ ht
    simp at ht
  | cons a rest ih =>
    intro t f m hnodup ht hft huniq
    simp only [List.map_cons, List.sum_cons]
    rcases List.mem_cons.mp ht with rfl | ht2
    · rw [if_pos hft]
      have hrest : ∀ u ∈ rest, ¬ (f u = m) := by
        intro u hu hfu
        have hut := huniq u (List.mem_cons_of_mem _ hu) hfu
        subst hut
        exact (List.nodup_cons.mp hnodup).1 hu
      have hzero : ((rest.map (fun u => if f u = m then g u else 0)).sum) = 0 := by
        apply List.sum_eq_zero
        intro y hy
        rcases List.mem_map.mp hy with ⟨u, hu, rfl⟩
        rw [if_neg (hrest u hu)]
      rw [hzero, add_zero]
    · have hfa : ¬ (f a = m) := by
        intro hfa
        have hat := huniq a (List.mem_cons_self _ _) hfa
        subst hat
        exact (List.nodup_cons.mp hnodup).1 ht2
      rw [if_neg hfa, zero_add]
      exact ih (List.nodup_cons.mp hnodup).2 ht2 hft
        (fun u hu hfu => huniq u (List.mem_cons_of_mem _ hu) hfu)

theorem find_unique {α : Type} {pd : α → Bool} : ∀ {l : List α} {x : α},
    x ∈ l → pd x = true → (∀ y ∈ l, pd y = true → y = x) →
    l.find? pd = some x := by
  intro l
  induction l with
  | nil =>
    intro x hx
    simp at hx
  | cons a r ih =>
    intro x hx hpx huniq
    by_cases ha : pd a = true
    · rw [List.find?_cons_of_pos _ ha]
      exact congrArg some (huniq a (List.mem_cons_self _ _) ha)
    · rw [List.find?_cons_of_neg _ ha]
      rcases List.mem_cons.mp hx with rfl | hx2
      · exact absurd hpx ha
      · exact ih hx2 hpx (fun y hy hpy => huniq y (List.mem_cons_of_mem _ hy) hpy)

theorem foldl_max_le_self : ∀ (l : List ℕ) (a : ℕ), a ≤ l.foldl max a := by
  intro l
  induction l with
  | nil =>
    intro a
    exact le_refl a
  | cons y r ih =>
    intro a
    rw [List.foldl_cons]
    exact le_trans (le_max_left a y) (ih (max a y))

theorem foldl_max_le : ∀ (l : List ℕ) (a : ℕ), ∀ x ∈ l, x ≤ l.foldl max a := by
  intro l
  induction l with
  | nil =>
    intro a x hx
    simp at hx
  | cons y r ih =>
    intro a x hx
    rw [List.foldl_cons]
    rcases List.mem_cons.mp hx with rfl | hx2
    · exact le_trans (le_max_right a x) (foldl_max_le_self r (max a x))
    · exact ih (max a y) x hx2

/-- On a single-variable invariant-respecting polynomial every term is
either constant or a single power of the variable. -/
theorem single_var_shape {p : Poly} {v : Str} (hwf : PolyWF p)
    (hv : Poly.variablesList p = [v]) :
    ∀ t ∈ p.terms,
      (t.var_powers = [] ∧ t.degree_of_var v = 0) ∨
      (t.var_powers = [⟨v, t.degree_of_var v⟩] ∧ 1 ≤ t.degree_of_var v) := by
  have hnames : ∀ t ∈ p.terms, ∀ vp ∈ t.var_powers, vp.var_name = v := by
    intro t ht vp hvp
    have hm : vp.var_name ∈ Poly.variablesList p :=
      (mem_variablesSorted p.terms vp.var_name).mpr (name_mem_allNames ht hvp)
    rw [hv, List.mem_singleton] at hm
    exact hm
  intro t ht
  match hvps : t.var_powers with
  | [] =>
    left
    refine ⟨rfl, ?_⟩
    rw [Term.degree_of_var, hvps]
    rfl
  | vp :: vp2 :: r =>
    have hsorted := (hwf.2 t ht).1
    rw [hvps] at hsorted
    have hlt := (List.pairwise_cons.mp hsorted).1 vp2 (List.mem_cons_self _ _)
    have h1 := hnames t ht vp (by rw [hvps]; exact List.mem_cons_self _ _)
    have h2 := hnames t ht vp2 (by
      rw [hvps]
      exact List.mem_cons_of_mem _ (List.mem_cons_self _ _))
    rw [h1, h2] at hlt
    have hirr : strLtB v v = false := lexLtB_irrefl v
    rw [hirr] at hlt
    exact Bool.noConfusion hlt
  | [vp] =>
    right
    have hname := hnames t ht vp (by rw [hvps]; exact List.mem_cons_self _ _)
    have hdeg : t.degree_of_var v = vp.exponent := by
      rw [Term.degree_of_var, hvps, List.find?_cons_of_pos _ (by simp [hname])]
    have hexp := ((hwf.2 t ht).2 vp (by rw [hvps]; exact List.mem_cons_self _ _)).2
    refine ⟨?_, by rw [hdeg]; exact hexp⟩
    rw [hdeg, ← hname]

/-- On a single-variable invariant-respecting polynomial the term degrees
are pairwise distinct. -/
theorem single_var_deg_nodup {p : Poly} {v : Str} (hwf : PolyWF p)
    (hv : Poly.variablesList p = [v]) :
    (p.terms.map (fun t => t.degree_of_var v)).Nodup := by
  rw [List.nodup_map_iff_inj_on (List.Nodup.of_map _ hwf.1.1)]
  intro a ha b hb hdeg
  have hvps : a.var_powers = b.var_powers := by
    rcases single_var_shape hwf hv a ha with ⟨hva, hda⟩ | ⟨hva, hda⟩ <;>
      rcases single_var_shape hwf hv b hb with ⟨hvb, hdb⟩ | ⟨hvb, hdb⟩
    · rw [hva, hvb]
    · rw [hda] at hdeg
      omega
    · rw [hdb] at hdeg
      omega
    · rw [hva, hvb, hdeg]
  exact List.inj_on_of_nodup_map hwf.1.1 ha hb
    (by rw [Term.sig, Term.sig, hvps])

theorem sum_if_lt_succ (v : Str) (x : ℤ) (k : ℕ) : ∀ ts : List Term,
    (ts.map (fun t => if t.degree_of_var v < k + 1
      then t.coeff * x ^ t.degree_of_var v else 0)).sum =
    (ts.map (fun t => if t.degree_of_var v < k
      then t.coeff * x ^ t.degree_of_var v else 0)).sum +
    (ts.map (fun t => if t.degree_of_var v = k
      then t.coeff * x ^ t.degree_of_var v else 0)).sum := by
  intro ts
  induction ts with
  | nil => simp
  | cons t r ih =>
    simp only [List.map_cons, List.sum_cons, ih]
    have hcase : (if t.degree_of_var v < k + 1
        then t.coeff * x ^ t.degree_of_var v else 0) =
        (if t.degree_of_var v < k then t.coeff * x ^ t.degree_of_var v else 0) +
        (if t.degree_of_var v = k then t.coeff * x ^ t.degree_of_var v else 0) := by
      by_cases h1 : t.degree_of_var v < k
      · rw [if_pos (by omega), if_pos h1, if_neg (by omega), add_zero]
      · by_cases h2 : t.degree_of_var v = k
        · rw [if_pos (by omega), if_neg h1, if_pos h2, zero_add]
        · rw [if_neg (by omega), if_neg h1, if_neg h2, add_zero]
    rw [hcase]
    ring

/-- Claim C8: on an invariant-respecting polynomial with exactly one
variable, `numpy_vector` returns the dense coefficient list indexed by
ascending exponent from `0` to the maximal degree, with ring zero at the
missing degrees, and evaluating the polynomial at any integer agrees with
the power-series value of that vector; a polynomial whose variable list is
not a singleton is rejected. -/
theorem C8_numpy_vector (p : Poly) (hwf : PolyWF p) :
    ((∀ w, Poly.variablesList p ≠ [w]) → Poly.numpy_vector p = none) ∧
    ∀ v, Poly.variablesList p = [v] →
      ∃ cs : List ℤ, Poly.numpy_vector p = some cs ∧
        cs.length = 1 + (p.terms.map (fun t => t.degree_of_var v)).foldl max 0 ∧
        (∀ t ∈ p.terms, t.degree_of_var v < cs.length) ∧
        (∀ t ∈ p.terms, cs.getD (t.degree_of_var v) 0 = t.coeff) ∧
        (∀ i : ℕ, (∀ t ∈ p.terms, t.degree_of_var v ≠ i) → cs.getD i 0 = 0) ∧
        ∀ x : ℤ, Poly.eval (fun u => if u = v then some x else none) p =
          some (((List.range cs.length).map (fun i => cs.getD i 0 * x ^ i)).sum) := by
  have hget : ∀ {n : ℕ} {f : ℕ → ℤ} {i : ℕ}, i < n →
      (((List.range n).map f).getD i 0) = f i := by
    intro n f i hi
    rw [List.getD_eq_getElem?_getD, List.getElem?_map, List.getElem?_range hi]
    rfl
  constructor
  · intro hno
    rw [Poly.numpy_vector]
    cases hvl : Poly.variablesList p with
    | nil => rfl
    | cons w r =>
      cases r with
      | nil => exact absurd hvl (hno w)
      | cons b r2 => rfl
  · intro v hv
    have hnd := single_var_deg_nodup hwf hv
    have hfill_mem : ∀ t ∈ p.terms,
        (match (p.terms.map (fun u => (u.degree_of_var v, u.coeff))).find?
            (fun pr => decide (pr.1 = t.degree_of_var v)) with
          | some pr => pr.2
          | none => 0) = t.coeff := by
      intro t ht
      have hfind : (p.terms.map (fun u => (u.degree_of_var v, u.coeff))).find?
          (fun pr => decide (pr.1 = t.degree_of_var v)) =
          some (t.degree_of_var v, t.coeff) := by
        refine find_unique (List.mem_map.mpr ⟨t, ht, rfl⟩) (by simp) ?_
        intro y hy hpy
        rcases List.mem_map.mp hy with ⟨u, hu, rfl⟩
        have hdu : u.degree_of_var v = t.degree_of_var v := by simpa using hpy
        rw [List.inj_on_of_nodup_map hnd hu ht hdu]
      rw [hfind]
    have hfill_none : ∀ i : ℕ, (∀ t ∈ p.terms, t.degree_of_var v ≠ i) →
        (match (p.terms.map (fun u => (u.degree_of_var v, u.coeff))).find?
            (fun pr => decide (pr.1 = i)) with
          | some pr => pr.2
          | none => 0) = 0 := by
      intro i hno2
      have hfn : (p.terms.map (fun u => (u.degree_of_var v, u.coeff))).find?
          (fun pr => decide (pr.1 = i)) = none := by
        rw [List.find?_eq_none]
        intro y hy
        rcases List.mem_map.mp hy with ⟨u, hu, rfl⟩
        simpa using hno2 u hu
      rw [hfn]
    have hnv : Poly.numpy_vector p = some ((List.range
        (1 + (p.terms.map (fun t => t.degree_of_var v)).foldl max 0)).map (fun d =>
          match (p.terms.map (fun u => (u.degree_of_var v, u.coeff))).find?
              (fun pr => decide (pr.1 = d)) with
          | some pr => pr.2
          | none => 0)) := by
      rw [Poly.numpy_vector, hv]
    have hdlt : ∀ t ∈ p.terms, t.degree_of_var v <
        1 + (p.terms.map (fun t => t.degree_of_var v)).foldl max 0 := by
      intro t ht
      have hb := foldl_max_le (p.terms.map (fun t => t.degree_of_var v)) 0
        (t.degree_of_var v) (List.mem_map.mpr ⟨t, ht, rfl⟩)
      omega
    refine ⟨_, hnv, ?_, ?_, ?_, ?_, ?_⟩
    · rw [List.length_map, List.length_range]
    · intro t ht
      rw [List.length_map, List.length_range]
      exact hdlt t ht
    · intro t ht
      rw [hget (hdlt t ht)]
      exact hfill_mem t ht
    · intro i hno2
      by_cases hi : i < 1 + (p.terms.map (fun t => t.degree_of_var v)).foldl max 0
      · rw [hget hi]
        exact hfill_none i hno2
      · rw [List.getD_eq_default]
        rw [List.length_map, List.length_range]
        omega
    · intro x
      have hcovAll : (Poly.allNames p.terms).all
          (fun u => (if u = v then some x else (none : Option ℤ)).isSome) = true := by
        rw [List.all_eq_true]
        intro u hu
        have hm : u ∈ Poly.variablesList p :=
          (mem_variablesSorted p.terms u).mpr hu
        rw [hv, List.mem_singleton] at hm
        rw [if_pos hm]
        rfl
      rw [Poly.eval, if_pos hcovAll, foldl_add_sum, zero_add]
      congr 1
      have hval : p.terms.map
          (Term.evalVal (fun u => if u = v then some x else none)) =
          p.terms.map (fun t => t.coeff * x ^ t.degree_of_var v) := by
        refine List.map_congr_left ?_
        intro t ht
        rcases single_var_shape hwf hv t ht with ⟨hvps, hd⟩ | ⟨hvps, _⟩
        · rw [Term.evalVal, Term.evalProd, hvps, List.foldl_nil, hd, pow_zero,
            mul_one]
        · rw [Term.evalVal, Term.evalProd, hvps, List.foldl_cons, List.foldl_nil]
          simp [VarPower.compute_power]
      rw [hval, List.length_map, List.length_range]
      have hcs_fill : ((List.range
          (1 + (p.terms.map (fun t => t.degree_of_var v)).foldl max 0)).map
            (fun i => (((List.range
              (1 + (p.terms.map (fun t => t.degree_of_var v)).foldl max 0)).map
                (fun d =>
                  match (p.terms.map (fun u => (u.degree_of_var v, u.coeff))).find?
                      (fun pr => decide (pr.1 = d)) with
                  | some pr => pr.2
                  | none => 0)).getD i 0) * x ^ i)).sum =
          ((List.range
            (1 + (p.terms.map (fun t => t.degree_of_var v)).foldl max 0)).map
              (fun i => (match (p.terms.map
                  (fun u => (u.degree_of_var v, u.coeff))).find?
                    (fun pr => decide (pr.1 = i)) with
                | some pr => pr.2
                | none => 0) * x ^ i)).sum :=
        congrArg List.sum (List.map_congr_left (fun i hi => by
          rw [hget (List.mem_range.mp hi)]))
      rw [hcs_fill]
      have key : ∀ k : ℕ, ((List.range k).map
          (fun i => (match (p.terms.map
              (fun u => (u.degree_of_var v, u.coeff))).find?
                (fun pr => decide (pr.1 = i)) with
            | some pr => pr.2
            | none => 0) * x ^ i)).sum =
          (p.terms.map (fun t => if t.degree_of_var v < k
            then t.coeff * x ^ t.degree_of_var v else 0)).sum := by
        intro k
        induction k with
        | zero =>
          rw [List.range_zero, List.map_nil, List.sum_nil]
          symm
          apply List.sum_eq_zero
          intro y hy
          rcases List.mem_map.mp hy with ⟨u, hu, rfl⟩
          rw [if_neg (by omega)]
        | succ k ih =>
          rw [List.range_succ, List.map_append, List.sum_append, ih,
            List.map_cons, List.map_nil, List.sum_cons, List.sum_nil, add_zero,
            sum_if_lt_succ v x k p.terms]
          congr 1
          by_cases hex : ∃ t ∈ p.terms, t.degree_of_var v = k
          · rcases hex with ⟨t0, ht0, hd0⟩
            rw [← hd0, hfill_mem t0 ht0]
            exact (@sum_if_single_val ℕ _ (fun t => t.coeff * x ^ t.degree_of_var v)
              p.terms t0 (fun t => t.degree_of_var v) (t0.degree_of_var v)
              (List.Nodup.of_map _ hnd) ht0 rfl
              (fun u hu hfu => List.inj_on_of_nodup_map hnd hu ht0 hfu)).symm
          · push_neg at hex
            rw [hfill_none k hex, zero_mul]
            symm
            apply List.sum_eq_zero
            intro y hy
            rcases List.mem_map.mp hy with ⟨u, hu, rfl⟩
            rw [if_neg (hex u hu)]
      rw [key]
      refine congrArg List.sum (List.map_congr_left ?_)
      intro t ht
      rw [if_pos (hdlt t ht)]

/-! ### Canonical strings: character inventories and injectivity -/

theorem intNumeral_all_digits_pos {c : ℤ} (hc : 0 < c) :
    ∀ ch ∈ intNumeral c, ch.isDigit = true := by
  rw [intNumeral, if_neg (by omega)]
  exact natNumeral_all_digits c.toNat

theorem intNumeral_neg_head {c : ℤ} (hc : c < 0) :
    intNumeral c = '-' :: natNumeral (-c).toNat := by
  rw [intNumeral, if_pos hc]

theorem intNumeral_pos_ne_nil (c : ℤ) : intNumeral c ≠ [] := by
  rw [intNumeral]
  split
  · simp
  · exact natNumeral_ne_nil _

theorem intNumeral_no_star (c : ℤ) : '*' ∉ intNumeral c := by
  rw [intNumeral]
  split
  · intro h
    rcases List.mem_cons.mp h with h1 | h2
    · exact absurd h1 (by decide)
    · exact natNumeral_no_star _ h2
  · exact natNumeral_no_star _

theorem intNumeral_no_plus (c : ℤ) : '+' ∉ intNumeral c := by
  rw [intNumeral]
  split
  · intro h
    rcases List.mem_cons.mp h with h1 | h2
    · exact absurd h1 (by decide)
    · exact natNumeral_no_plus _ h2
  · exact natNumeral_no_plus _

theorem intNumeral_no_rparen (c : ℤ) : ')' ∉ intNumeral c := by
  rw [intNumeral]
  split
  · intro h
    rcases List.mem_cons.mp h with h1 | h2
    · exact absurd h1 (by decide)
    · exact natNumeral_no_rparen _ h2
  · exact natNumeral_no_rparen _

theorem coeff_str_no_star (c : ℤ) : '*' ∉ Term.coeff_str c := by
  rw [Term.coeff_str]
  split
  · exact intNumeral_no_star c
  · intro h
    rcases List.mem_cons.mp h with h1 | h2
    · exact absurd h1 (by decide)
    · rcases List.mem_append.mp h2 with h3 | h4
      · exact intNumeral_no_star c h3
      · rw [List.mem_singleton] at h4
        exact absurd h4 (by decide)

theorem coeff_str_no_plus (c : ℤ) : '+' ∉ Term.coeff_str c := by
  rw [Term.coeff_str]
  split
  · exact intNumeral_no_plus c
  · intro h
    rcases List.mem_cons.mp h with h1 | h2
    · exact absurd h1 (by decide)
    · rcases List.mem_append.mp h2 with h3 | h4
      · exact intNumeral_no_plus c h3
      · rw [List.mem_singleton] at h4
        exact absurd h4 (by decide)

theorem intNumeral_inj : ∀ {a b : ℤ}, intNumeral a = intNumeral b → a = b := by
  intro a b h
  rw [intNumeral, intNumeral] at h
  split at h <;> split at h
  next ha hb =>
    have h3 := natNumeral_inj (List.cons.inj h).2
    omega
  next ha hb =>
    cases hnn : natNumeral b.toNat with
    | nil => exact absurd hnn (natNumeral_ne_nil _)
    | cons ch r =>
      rw [hnn] at h
      have hch := (List.cons.inj h).1
      have hd := natNumeral_all_digits b.toNat ch (hnn ▸ List.mem_cons_self _ _)
      rw [← hch] at hd
      exact absurd hd (by decide)
  next ha hb =>
    cases hnn : natNumeral a.toNat with
    | nil => exact absurd hnn (natNumeral_ne_nil _)
    | cons ch r =>
      rw [hnn] at h
      have hch := (List.cons.inj h.symm).1
      have hd := natNumeral_all_digits a.toNat ch (hnn ▸ List.mem_cons_self _ _)
      rw [← hch] at hd
      exact absurd hd (by decide)
  next ha hb =>
    have h3 := natNumeral_inj h
    omega

theorem coeff_str_inj : ∀ {a b : ℤ}, Term.coeff_str a = Term.coeff_str b → a = b := by
  intro a b h
  rw [Term.coeff_str, Term.coeff_str] at h
  split at h <;> split at h
  next ha hb => exact intNumeral_inj h
  next ha hb =>
    cases hnn : intNumeral a with
    | nil => exact absurd hnn (intNumeral_pos_ne_nil a)
    | cons ch r =>
      rw [hnn] at h
      have hch := (List.cons.inj h).1
      have hd := intNumeral_all_digits_pos ha ch (hnn ▸ List.mem_cons_self _ _)
      rw [hch] at hd
      exact absurd hd (by decide)
  next ha hb =>
    cases hnn : intNumeral b with
    | nil => exact absurd hnn (intNumeral_pos_ne_nil b)
    | cons ch r =>
      rw [hnn] at h
      have hch := (List.cons.inj h.symm).1
      have hd := intNumeral_all_digits_pos hb ch (hnn ▸ List.mem_cons_self _ _)
      rw [hch] at hd
      exact absurd hd (by decide)
  next ha hb =>
    have h2 := (List.cons.inj h).2
    have h3 := append_sep_inj (intNumeral_no_rparen a) (intNumeral_no_rparen b) h2
    exact intNumeral_inj h3.1

theorem name_subset_vpSig {vp : VarPower} {ch : Char} (h : ch ∈ vp.var_name) :
    ch ∈ vp.sig := by
  rw [VarPower.sig]
  split
  · exact h
  · exact List.mem_cons_of_mem _ (List.mem_append_left _ h)

theorem lparen_mem_vpSig {vp : VarPower} (h : ¬ vp.exponent = 1) : '(' ∈ vp.sig := by
  rw [VarPower.sig, if_neg h]
  exact List.mem_cons_self _ _

theorem name_head_eq {n rest s : Str} {ch : Char} (hn : n ≠ [])
    (h : n ++ rest = ch :: s) : ch ∈ n := by
  cases n with
  | nil => exact absurd rfl hn
  | cons a as =>
    rw [List.cons_append] at h
    rw [← (List.cons.inj h).1]
    exact List.mem_cons_self _ _

theorem vpSig_no_plus {vp : VarPower} (h : legalName vp.var_name) : '+' ∉ vp.sig := by
  rw [VarPower.sig]
  split
  · exact legalName_no_plus h
  · intro hm
    rcases List.mem_cons.mp hm with h1 | h2
    · exact absurd h1 (by decide)
    · rcases List.mem_append.mp h2 with h3 | h4
      · exact legalName_no_plus h h3
      · rcases List.mem_cons.mp h4 with h5 | h6
        · exact absurd h5 (by decide)
        · rcases List.mem_cons.mp h6 with h7 | h8
          · exact absurd h7 (by decide)
          · rcases List.mem_append.mp h8 with h9 | h10
            · exact natNumeral_no_plus _ h9
            · rw [List.mem_singleton] at h10
              exact absurd h10 (by decide)

theorem sig_no_plus {l : List VarPower} (hleg : ∀ vp ∈ l, legalName vp.var_name) :
    '+' ∉ joinSep '*' (l.map VarPower.sig) := by
  intro h
  rcases mem_joinSep h with h1 | ⟨s, hs, hchs⟩
  · exact absurd h1 (by decide)
  · rcases List.mem_map.mp hs with ⟨vp, hvp, rfl⟩
    exact vpSig_no_plus (hleg vp hvp) hchs

theorem term_str_no_plus {t : Term}
    (hleg : ∀ vp ∈ t.var_powers, legalName vp.var_name) :
    '+' ∉ t.canonicalized_string := by
  rw [Term.canonicalized_string]
  split
  · exact coeff_str_no_plus t.coeff
  · split
    · rw [Term.sig]
      exact sig_no_plus hleg
    · intro h
      rcases List.mem_append.mp h with h1 | h2
      · exact coeff_str_no_plus t.coeff h1
      · rcases List.mem_cons.mp h2 with h3 | h4
        · exact absurd h3 (by decide)
        · rw [Term.sig] at h4
          exact sig_no_plus hleg h4

theorem C8_numpy_vector_witness :
    PolyWF (Poly.varCore ['x']) ∧
    Poly.variablesList (Poly.varCore ['x']) = [['x']] ∧
    (((∀ w, Poly.variablesList (Poly.varCore ['x']) ≠ [w]) →
      Poly.numpy_vector (Poly.varCore ['x']) = none) ∧
     ∀ v, Poly.variablesList (Poly.varCore ['x']) = [v] →
      ∃ cs : List ℤ, Poly.numpy_vector (Poly.varCore ['x']) = some cs ∧
        cs.length = 1 + ((Poly.varCore ['x']).terms.map
          (fun t => t.degree_of_var v)).foldl max 0 ∧
        (∀ t ∈ (Poly.varCore ['x']).terms, t.degree_of_var v < cs.length) ∧
        (∀ t ∈ (Poly.varCore ['x']).terms,
          cs.getD (t.degree_of_var v) 0 = t.coeff) ∧
        (∀ i : ℕ, (∀ t ∈ (Poly.varCore ['x']).terms, t.degree_of_var v ≠ i) →
          cs.getD i 0 = 0) ∧
        ∀ x : ℤ, Poly.eval (fun u => if u = v then some x else none)
            (Poly.varCore ['x']) =
          some (((List.range cs.length).map
            (fun i => cs.getD i 0 * x ^ i)).sum)) :=
  ⟨by decide, by decide, C8_numpy_vector (Poly.varCore ['x']) (by decide)⟩

/-! ### Canonical term strings are unambiguous away from digit-only names -/

theorem const_ne_sig {c : ℤ} {l : List VarPower} (hc : c ≠ 0) (hl : l ≠ [])
    (hleg : ∀ vp ∈ l, legalName vp.var_name)
    (hne : ∀ vp ∈ l, vp.var_name ≠ [])
    (hnd : ∀ vp ∈ l, ¬ ∀ ch ∈ vp.var_name, ch.isDigit = true) :
    Term.coeff_str c ≠ joinSep '*' (l.map VarPower.sig) := by
  cases l with
  | nil => exact absurd rfl hl
  | cons vp r =>
    intro h
    rw [sigJoin_cons, Term.coeff_str] at h
    split at h
    next hpos =>
      by_cases hexp : vp.exponent = 1
      · refine hnd vp (List.mem_cons_self _ _) ?_
        intro ch hch
        have hmem : ch ∈ intNumeral c := by
          rw [h]
          exact List.mem_append_left _ (name_subset_vpSig hch)
        exact intNumeral_all_digits_pos hpos ch hmem
      · have hmem : '(' ∈ intNumeral c := by
          rw [h]
          exact List.mem_append_left _ (lparen_mem_vpSig hexp)
        exact absurd (intNumeral_all_digits_pos hpos '(' hmem) (by decide)
    next hpos =>
      have hcneg : c < 0 := by omega
      by_cases hexp : vp.exponent = 1
      · have hlp : '(' ∈ vp.var_name := by
          rw [VarPower.sig, if_pos hexp] at h
          exact name_head_eq (hne vp (List.mem_cons_self _ _)) h.symm
        exact (legalName_not_mem (hleg vp (List.mem_cons_self _ _)) hlp) (by decide)
      · rw [VarPower.sig, if_neg hexp, List.cons_append] at h
        have h2 := (List.cons.inj h).2
        rw [intNumeral_neg_head hcneg, List.cons_append, List.append_assoc] at h2
        have hdm : '-' ∈ vp.var_name :=
          name_head_eq (hne vp (List.mem_cons_self _ _)) h2.symm
        exact (legalName_not_mem (hleg vp (List.mem_cons_self _ _)) hdm) (by decide)

theorem const_star_ne_sig {c : ℤ} {s : Str} {l : List VarPower} (hc : c ≠ 0)
    (hl : l ≠ [])
    (hleg : ∀ vp ∈ l, legalName vp.var_name)
    (hne : ∀ vp ∈ l, vp.var_name ≠ [])
    (hnd : ∀ vp ∈ l, ¬ ∀ ch ∈ vp.var_name, ch.isDigit = true) :
    Term.coeff_str c ++ '*' :: s ≠ joinSep '*' (l.map VarPower.sig) := by
  cases l with
  | nil => exact absurd rfl hl
  | cons vp r =>
    intro h
    rw [sigJoin_cons, Term.coeff_str] at h
    by_cases hexp : vp.exponent = 1
    · rw [VarPower.sig, if_pos hexp] at h
      split at h
      next hpos =>
        by_cases hrr : r = []
        · rw [if_pos hrr, List.append_nil] at h
          have hstar : '*' ∈ vp.var_name := by
            rw [← h]
            exact List.mem_append_right _ (List.mem_cons_self _ _)
          exact (legalName_not_mem (hleg vp (List.mem_cons_self _ _)) hstar)
            (by decide)
        · rw [if_neg hrr] at h
          have hsp := append_sep_inj (intNumeral_no_star c)
            (legalName_no_star (hleg vp (List.mem_cons_self _ _))) h
          refine hnd vp (List.mem_cons_self _ _) ?_
          intro ch hch
          rw [← hsp.1] at hch
          exact intNumeral_all_digits_pos hpos ch hch
      next hpos =>
        have hlp : '(' ∈ vp.var_name := by
          rw [List.cons_append] at h
          exact name_head_eq (hne vp (List.mem_cons_self _ _)) h.symm
        exact (legalName_not_mem (hleg vp (List.mem_cons_self _ _)) hlp) (by decide)
    · rw [VarPower.sig, if_neg hexp, List.cons_append] at h
      split at h
      next hpos =>
        cases hnn : intNumeral c with
        | nil => exact absurd hnn (intNumeral_pos_ne_nil c)
        | cons ch cr =>
          rw [hnn, List.cons_append] at h
          have hch := (List.cons.inj h).1
          have hd := intNumeral_all_digits_pos hpos ch
            (hnn ▸ List.mem_cons_self _ _)
          rw [hch] at hd
          exact absurd hd (by decide)
      next hpos =>
        have hcneg : c < 0 := by omega
        rw [List.cons_append, List.append_assoc] at h
        have h2 := (List.cons.inj h).2
        rw [intNumeral_neg_head hcneg, List.cons_append, List.append_assoc] at h2
        have hdm : '-' ∈ vp.var_name :=
          name_head_eq (hne vp (List.mem_cons_self _ _)) h2.symm
        exact (legalName_not_mem (hleg vp (List.mem_cons_self _ _)) hdm) (by decide)

theorem term_str_inj {t1 t2 : Term}
    (hw1 : TermWF t1) (hw2 : TermWF t2)
    (hc1 : t1.coeff ≠ 0) (hc2 : t2.coeff ≠ 0)
    (hg1 : ∀ vp ∈ t1.var_powers, vp.var_name ≠ [] ∧
      ¬ ∀ ch ∈ vp.var_name, ch.isDigit = true)
    (hg2 : ∀ vp ∈ t2.var_powers, vp.var_name ≠ [] ∧
      ¬ ∀ ch ∈ vp.var_name, ch.isDigit = true)
    (h : t1.canonicalized_string = t2.canonicalized_string) : t1 = t2 := by
  have hleg1 : ∀ vp ∈ t1.var_powers, legalName vp.var_name :=
    fun vp hvp => (hw1.2 vp hvp).1
  have hleg2 : ∀ vp ∈ t2.var_powers, legalName vp.var_name :=
    fun vp hvp => (hw2.2 vp hvp).1
  have hvps_of_sig : t1.sig = t2.sig → t1.var_powers = t2.var_powers :=
    fun hs => vps_eq_of_sig_eq
      (fun u hu => ⟨hleg1 u hu, (hg1 u hu).1⟩)
      (fun u hu => ⟨hleg2 u hu, (hg2 u hu).1⟩) hs
  obtain ⟨c1, l1⟩ := t1
  obtain ⟨c2, l2⟩ := t2
  simp only at hc1 hc2 hg1 hg2 hleg1 hleg2 hvps_of_sig
  rw [Term.canonicalized_string, Term.canonicalized_string] at h
  simp only at h
  split at h
  next hv1 =>
    split at h
    next hv2 =>
      rw [hv1, hv2, coeff_str_inj h]
    next hv2 =>
      split at h
      next hone =>
        rw [Term.sig] at h
        exact absurd h (const_ne_sig hc1 hv2 hleg2
          (fun u hu => (hg2 u hu).1) (fun u hu => (hg2 u hu).2))
      next hone =>
        exact absurd h.symm (append_sep_ne (coeff_str_no_star c1))
  next hv1 =>
    split at h
    next hone1 =>
      split at h
      next hv2 =>
        rw [Term.sig] at h
        exact absurd h.symm (const_ne_sig hc2 hv1 hleg1
          (fun u hu => (hg1 u hu).1) (fun u hu => (hg1 u hu).2))
      next hv2 =>
        split at h
        next hone2 =>
          have hl := hvps_of_sig h
          rw [hone1, hone2, hl]
        next hone2 =>
          rw [Term.sig, Term.sig] at h
          exact absurd h.symm (const_star_ne_sig hc2 hv1 hleg1
            (fun u hu => (hg1 u hu).1) (fun u hu => (hg1 u hu).2))
    next hone1 =>
      split at h
      next hv2 =>
        exact absurd h (append_sep_ne (coeff_str_no_star c2))
      next hv2 =>
        split at h
        next hone2 =>
          rw [Term.sig, Term.sig] at h
          exact absurd h (const_star_ne_sig hc1 hv2 hleg2
            (fun u hu => (hg2 u hu).1) (fun u hu => (hg2 u hu).2))
        next hone2 =>
          have hsp := append_sep_inj (coeff_str_no_star c1) (coeff_str_no_star c2) h
          have hl := hvps_of_sig hsp.2
          rw [coeff_str_inj hsp.1, hl]

theorem term_str_ne_zero {t : Term} (hw : TermWF t) (hc : t.coeff ≠ 0)
    (hg : ∀ vp ∈ t.var_powers, vp.var_name ≠ [] ∧
      ¬ ∀ ch ∈ vp.var_name, ch.isDigit = true) :
    t.canonicalized_string ≠ intNumeral 0 := by
  have h0 : intNumeral 0 = ['0'] := by decide
  rw [h0, Term.canonicalized_string]
  split
  next hv =>
    rw [Term.coeff_str]
    split
    next hpos =>
      intro h
      exact hc (intNumeral_inj (h.trans h0.symm))
    next hpos =>
      intro h
      exact absurd (List.cons.inj h).1 (by decide)
  next hv =>
    split
    next hone =>
      intro h
      rw [Term.sig] at h
      cases hvps : t.var_powers with
      | nil => exact hv hvps
      | cons vp r =>
        rw [hvps, sigJoin_cons] at h
        have hmem : vp ∈ t.var_powers := by
          rw [hvps]
          exact List.mem_cons_self _ _
        by_cases hexp : vp.exponent = 1
        · refine absurd ?_ (hg vp hmem).2
          intro ch hch
          have hz : ch ∈ (['0'] : Str) := by
            rw [← h]
            exact List.mem_append_left _ (name_subset_vpSig hch)
          rw [List.mem_singleton] at hz
          rw [hz]
          decide
        · have hz : '(' ∈ (['0'] : Str) := by
            rw [← h]
            exact List.mem_append_left _ (lparen_mem_vpSig hexp)
          rw [List.mem_singleton] at hz
          exact absurd hz (by decide)
    next hone =>
      intro h
      have hz : '*' ∈ (['0'] : Str) := by
        rw [← h]
        exact List.mem_append_right _ (List.mem_cons_self _ _)
      rw [List.mem_singleton] at hz
      exact absurd hz (by decide)

theorem list_eq_of_map_eq : ∀ {l1 l2 : List Term},
    (∀ a ∈ l1, ∀ b ∈ l2, a.canonicalized_string = b.canonicalized_string → a = b) →
    l1.map Term.canonicalized_string = l2.map Term.canonicalized_string →
    l1 = l2 := by
  intro l1
  induction l1 with
  | nil =>
    intro l2 _ h
    cases l2 with
    | nil => rfl
    | cons b bs => simp at h
  | cons a as ih =>
    intro l2 H h
    cases l2 with
    | nil => simp at h
    | cons b bs =>
      simp only [List.map_cons, List.cons.injEq] at h
      have hab := H a (List.mem_cons_self _ _) b (List.mem_cons_self _ _) h.1
      rw [hab, ih (fun u hu w hw => H u (List.mem_cons_of_mem _ hu) w
        (List.mem_cons_of_mem _ hw)) h.2]

/-- With the construction invariants, nonempty names and no digit-only
names, the canonical string determines the polynomial. -/
theorem canonical_string_inj {p q : Poly} (hp : PolyWF p) (hq : PolyWF q)
    (hgp : ∀ t ∈ p.terms, ∀ vp ∈ t.var_powers, vp.var_name ≠ [] ∧
      ¬ ∀ ch ∈ vp.var_name, ch.isDigit = true)
    (hgq : ∀ t ∈ q.terms, ∀ vp ∈ t.var_powers, vp.var_name ≠ [] ∧
      ¬ ∀ ch ∈ vp.var_name, ch.isDigit = true)
    (h : p.canonicalized_string = q.canonicalized_string) : p = q := by
  have hjoin_ne_zero : ∀ {P : Poly}, PolyWF P →
      (∀ t ∈ P.terms, ∀ vp ∈ t.var_powers, vp.var_name ≠ [] ∧
        ¬ ∀ ch ∈ vp.var_name, ch.isDigit = true) →
      ¬ P.terms = [] →
      joinSep '+' (P.terms.map Term.canonicalized_string) ≠ intNumeral 0 := by
    intro P hP hgP hne2
    cases hts : P.terms with
    | nil => exact absurd hts hne2
    | cons t r =>
      have hmem : t ∈ P.terms := by
        rw [hts]
        exact List.mem_cons_self _ _
      cases r with
      | nil =>
        simp only [List.map_cons, List.map_nil]
        rw [joinSep]
        exact term_str_ne_zero (hP.2 t hmem) (hP.1.2.1 t hmem) (hgP t hmem)
      | cons t2 r2 =>
        simp only [List.map_cons]
        rw [joinSep_two _ _ _ (by simp)]
        intro hcontra
        have h0 : intNumeral 0 = ['0'] := by decide
        rw [h0] at hcontra
        have hz : '+' ∈ (['0'] : Str) := by
          rw [← hcontra]
          exact List.mem_append_right _ (List.mem_cons_self _ _)
        rw [List.mem_singleton] at hz
        exact absurd hz (by decide)
  rw [Poly.canonicalized_string, Poly.canonicalized_string] at h
  split at h
  next h1 =>
    split at h
    next h2 =>
      obtain ⟨ts1⟩ := p
      obtain ⟨ts2⟩ := q
      simp only at h1 h2
      rw [h1, h2]
    next h2 =>
      exact absurd h.symm (hjoin_ne_zero hq hgq h2)
  next h1 =>
    split at h
    next h2 =>
      exact absurd h (hjoin_ne_zero hp hgp h1)
    next h2 =>
      have hmap := joinSep_inj
        (fun s hs => by
          rcases List.mem_map.mp hs with ⟨t, ht, rfl⟩
          exact term_str_no_plus (fun vp hvp => ((hp.2 t ht).2 vp hvp).1))
        (fun s hs => by
          rcases List.mem_map.mp hs with ⟨t, ht, rfl⟩
          exact term_str_no_plus (fun vp hvp => ((hq.2 t ht).2 vp hvp).1))
        (by simpa using h1) (by simpa using h2) h
      have hts := list_eq_of_map_eq (fun a ha b hb hab =>
        term_str_inj (hp.2 a ha) (hq.2 b hb) (hp.1.2.1 a ha) (hq.1.2.1 b hb)
          (hgp a ha) (hgq b hb) hab) hmap
      obtain ⟨ts1⟩ := p
      obtain ⟨ts2⟩ := q
      simp only at hts
      rw [hts]

/-! ### Claim C3: equality coheres with evaluation -/

/-- Claim C3 (as stated) is false: variable names made of digits are
accepted, and the one-variable polynomial `var("2")` prints exactly like
the constant polynomial `2`, so the two compare equal under `==` while
evaluating differently under the assignment `{"2": 5}`. -/
theorem C3_counterexample :
    polyEq (Poly.varCore ['2']) (PyValue.pypoly (Poly.constant 2)) = some true ∧
    Poly.eval (fun s => if s = ['2'] then some 5 else none)
      (Poly.varCore ['2']) = some 5 ∧
    Poly.eval (fun s => if s = ['2'] then some 5 else none)
      (Poly.constant 2) = some 2 := by
  refine ⟨by decide, by decide, by decide⟩

/-- Claim C3, amended: for invariant-respecting polynomials none of whose
variable names is empty or consists solely of digits, canonical-string
equality (`==`) implies the polynomials are identical, so their
evaluations agree under every assignment. -/
theorem C3_eq_implies_eval_amended (p q : Poly) (A : Assignment)
    (hp : PolyWF p) (hq : PolyWF q)
    (hgp : ∀ t ∈ p.terms, ∀ vp ∈ t.var_powers, vp.var_name ≠ [] ∧
      ¬ ∀ ch ∈ vp.var_name, ch.isDigit = true)
    (hgq : ∀ t ∈ q.terms, ∀ vp ∈ t.var_powers, vp.var_name ≠ [] ∧
      ¬ ∀ ch ∈ vp.var_name, ch.isDigit = true)
    (h : polyEq p (PyValue.pypoly q) = some true) :
    Poly.eval A p = Poly.eval A q := by
  have hs : p.canonicalized_string = q.canonicalized_string := by
    rw [polyEq] at h
    simpa using h
  rw [canonical_string_inj hp hq hgp hgq hs]

theorem C3_eq_implies_eval_amended_witness :
    PolyWF (Poly.varCore ['x']) ∧
    polyEq (Poly.varCore ['x']) (PyValue.pypoly (Poly.varCore ['x'])) = some true ∧
    Poly.eval (fun _ => none) (Poly.varCore ['x']) =
      Poly.eval (fun _ => none) (Poly.varCore ['x']) :=
  ⟨by decide, by decide,
   C3_eq_implies_eval_amended (Poly.varCore ['x']) (Poly.varCore ['x'])
     (fun _ => none) (by decide) (by decide) (by decide) (by decide) (by decide)⟩

end poly
